import Mathlib

/-!
MOSES field sets and neighborhood counting.

A shallow embedding of `moses/representation/field_set.h` and
`moses/moses/neighborhood_sampling.cc`.

Conventions of the embedding.

* C++ `size_t` is 64 bits wide and `unsigned` 32 bits wide; values are natural
  numbers and every operation that can wrap carries its `% 2 ^ w` explicitly.
* A call that throws, trips an `OC_ASSERT`, or has undefined behaviour yields
  `Except.error` with the matching `fault`.
* Recursive functions take a `fuel` argument, one unit per call frame;
  `fault.out_of_fuel` means the recursion was cut off, not that the code failed.
* The two library calls made by the counting code, which are not part of the
  sources (`boost::math::binomial_coefficient<double>` and `std::log2`), are
  modelled on IEEE doubles; see `binomial_coefficient_double` and
  `exceeds_log2_budget`.
-/

namespace moses

/-! ## Machine integers -/

/-- Largest value of the C++ type `size_t`, `std::numeric_limits<size_t>::max()`. -/
def SIZE_MAX : Nat := 2 ^ 64 - 1

/-- Largest value of the C++ type `int` (32 bits),
`std::numeric_limits<int>::max()`. -/
def INT_MAX : Nat := 2 ^ 31 - 1

/-- Conversion of an integer expression to C++ `unsigned` (32 bits). -/
def to_unsigned (x : Nat) : Nat := x % 2 ^ 32

/-- Conversion of an integer expression to C++ `size_t` (64 bits). -/
def to_size_t (x : Nat) : Nat := x % 2 ^ 64

/-- Modelled from the spec: the constant `bits_per_packed_t` of `instance.h`,
which is not among the sources; storage words are taken to be 64 bits wide. -/
def bits_per_packed_t : Nat := 64

/-- Ways in which a call can fail to return a value. -/
inductive fault where
  /-- `std::domain_error` thrown by Boost.Math. -/
  | domain_error
  /-- `std::overflow_error` thrown by Boost.Math. -/
  | overflow_error
  /-- A failed `OC_ASSERT`. -/
  | assertion
  /-- Undefined behaviour: out-of-range element access or an oversized shift. -/
  | undefined
  /-- `std::out_of_range` thrown by a checked element access (`vector::at`). -/
  | out_of_range
  /-- The recursion was cut off by the fuel bound of the model. -/
  | out_of_fuel
  /-- A floating-point result outside the finite range of `double` (an infinity
  or a NaN in the code), which the values of the model do not hold. -/
  | not_finite
  deriving DecidableEq, Repr

/-! ## IEEE doubles holding non-negative integers -/

/-- Smallest `e` (searched upwards from the third argument) such that
`x / 2 ^ e` fits in the 53-bit significand of a double. -/
def double_exponent_aux : Nat → Nat → Nat → Nat
  | 0, _, e => e
  | fuel + 1, x, e => if x / 2 ^ e < 2 ^ 53 then e else double_exponent_aux fuel x (e + 1)

/-- Conversion of a non-negative integer to `double`: round to nearest, ties to
even, on a 53-bit significand.  The result is again given as the integer it
denotes. -/
def round_to_double (x : Nat) : Nat :=
  let e := double_exponent_aux x x 0
  let q := x / 2 ^ e
  let r := x % 2 ^ e
  if 2 * r < 2 ^ e then q * 2 ^ e
  else if 2 * r = 2 ^ e ∧ q % 2 = 0 then q * 2 ^ e
  else (q + 1) * 2 ^ e

/-- Number of binary digits of a natural number below 2 ^ 2048, found by
bisection between the bounds `lo` and `hi`. -/
def bit_length_aux : Nat → Nat → Nat → Nat → Nat
  | 0, _, _, hi => hi
  | s + 1, x, lo, hi =>
    if x >>> ((lo + hi) / 2) = 0 then bit_length_aux s x lo ((lo + hi) / 2)
    else bit_length_aux s x ((lo + hi) / 2) hi

/-- Number of binary digits of a natural number below 2 ^ 2048 (0 for 0). -/
def bit_length (x : Nat) : Nat := bit_length_aux 11 x 0 2048

/-- The double nearest to the quotient `a / b` (ties to even), for a quotient of
at least 1 and within the finite range: what the conversion of an integer
literal (`b = 1`) and the division of two doubles give.  Every double of 1 or
more is a whole number of units of `2 ^ -52`; the result is given as that number
of units, as are all doubles with a fractional part in this development. -/
def round_ratio (a b : Nat) : Nat :=
  let t := a <<< 52
  let sh := bit_length (t / b) - 53
  let unit := b <<< sh
  let m := t / unit
  let r := t % unit
  (if 2 * r < unit then m else if 2 * r = unit ∧ m % 2 = 0 then m else m + 1) <<< sh

/-- First value beyond the finite range of `double`, 2 ^ 1024. -/
def DBL_OVERFLOW : Nat := (2 ^ 256) ^ 4

/-- Largest finite `double`, `(2 ^ 53 - 1) * 2 ^ 971`. -/
def DBL_MAX : Nat := (2 ^ 53 - 1) * ((2 ^ 256) ^ 3 * 2 ^ 203)

/-! ## Specs, fields and the field set (`field_set.h`) -/

/-- Modelled from the spec: the type `contin_t` of `instance.h` (a continuous
knob value), which is not among the sources.  It is a `double`; the rationals
stand for the finite doubles, and the arithmetic on them rounds every result
(`round_contin`). -/
abbrev contin_t := Rat

/-- Modelled from the spec: the type `disc_t` of `instance.h` (a raw discrete
value), which is not among the sources. -/
abbrev disc_t := Nat

/-- Modelled from the spec: the type `packed_vec` of `instance.h` (the packed
words of an instance), which is not among the sources. -/
abbrev packed_vec := List Nat

/-- The struct `field_set::field`: one raw field of the packed bit string. -/
structure field where
  width : Nat
  major_offset : Nat
  minor_offset : Nat
  deriving DecidableEq, Repr

/-- The struct `field_set::disc_spec`. -/
structure disc_spec where
  multy : Nat
  deriving DecidableEq, Repr

/-- The struct `field_set::contin_spec`. -/
structure contin_spec where
  _space : contin_t
  _tspc : contin_t
  _likely : List contin_t
  deriving DecidableEq, Repr

/-- The struct `field_set::term_spec`; `tr` stands for the borrowed tree, given
by an identifier. -/
structure term_spec where
  tr : Nat
  depth : Nat
  branching : Nat
  deriving DecidableEq, Repr

/-- The struct `field_set`: the tables it owns followed by the values cached by
`compute_starts`.  Iterators into `_fields` are kept as indices. -/
structure field_set where
  _fields : List field
  _term : List term_spec
  _contin : List contin_spec
  _disc : List disc_spec
  _nbool : Nat
  _disc_start : Nat
  _end_term_raw_idx : Nat
  _begin_disc_raw_idx : Nat
  _end_disc_raw_idx : Nat
  _begin_bit_raw_idx : Nat
  _end_bit_raw_idx : Nat
  _n_disc_fields : Nat
  _n_term_fields : Nat
  deriving DecidableEq, Repr

/-- Modelled from the spec: the class `instance` of `instance.h`, which is not
among the sources: packed words plus the continuous-value sequence. -/
structure Instance where
  _bit_disc : packed_vec
  _contin : List contin_t
  deriving DecidableEq, Repr

/-- Modelled from the spec: the constructor `instance(packed_width, n_contin)`
of `instance.h`, which gives a zero-valued instance of the layout's shape. -/
def Instance.zero (packed_width n_contin : Nat) : Instance :=
  ⟨List.replicate packed_width 0, List.replicate n_contin 0⟩

/-- Modelled from the spec: the method `instance::size` of `instance.h`, which
is not among the sources; the instance is "size-queryable", and its size is
taken to be the number of packed words. -/
def Instance.size (inst : Instance) : Nat := inst._bit_disc.length

namespace field_set

/-- Method `field_set::compute_starts`: recompute every cached boundary from
the tables.  `_fields.end() - _nbool` is the index `_fields.size() - _nbool`. -/
def compute_starts (fs : field_set) : field_set :=
  let disc_start := (fs._term.map term_spec.depth).sum
  let bit_start := fs._fields.length - fs._nbool
  { fs with
    _disc_start := disc_start
    _end_term_raw_idx := disc_start
    _begin_disc_raw_idx := disc_start
    _end_disc_raw_idx := bit_start
    _begin_bit_raw_idx := bit_start
    _end_bit_raw_idx := fs._fields.length
    _n_disc_fields := bit_start - disc_start
    _n_term_fields := disc_start }

/-- A field set holding the given tables, its caches filled by
`compute_starts` as every constructor of `field_set` does. -/
def of_tables (fields : List field) (term : List term_spec) (contin : List contin_spec)
    (disc : List disc_spec) (nbool : Nat) : field_set :=
  compute_starts
    { _fields := fields, _term := term, _contin := contin, _disc := disc, _nbool := nbool
      _disc_start := 0, _end_term_raw_idx := 0, _begin_disc_raw_idx := 0
      _end_disc_raw_idx := 0, _begin_bit_raw_idx := 0, _end_bit_raw_idx := 0
      _n_disc_fields := 0, _n_term_fields := 0 }

/-- Method `field_set::packed_width`. -/
def packed_width (fs : field_set) : Nat :=
  match fs._fields.getLast? with
  | none => 0
  | some f => f.major_offset + 1

/-- Method `field_set::raw_size`. -/
def raw_size (fs : field_set) : Nat := fs._fields.length

/-- Method `field_set::begin_term_raw_idx`. -/
def begin_term_raw_idx (_fs : field_set) : Nat := 0

/-- Method `field_set::end_term_raw_idx`. -/
def end_term_raw_idx (fs : field_set) : Nat := fs._end_term_raw_idx

/-- Method `field_set::begin_disc_raw_idx`. -/
def begin_disc_raw_idx (fs : field_set) : Nat := fs._begin_disc_raw_idx

/-- Method `field_set::end_disc_raw_idx`. -/
def end_disc_raw_idx (fs : field_set) : Nat := fs._end_disc_raw_idx

/-- Method `field_set::begin_bit_raw_idx`. -/
def begin_bit_raw_idx (fs : field_set) : Nat := fs._begin_bit_raw_idx

/-- Method `field_set::end_bit_raw_idx`. -/
def end_bit_raw_idx (fs : field_set) : Nat := fs._end_bit_raw_idx

/-- Method `field_set::n_bits`. -/
def n_bits (fs : field_set) : Nat := fs._nbool

/-- Method `field_set::n_disc_fields`. -/
def n_disc_fields (fs : field_set) : Nat := fs._n_disc_fields

/-- Method `field_set::n_contin_fields`. -/
def n_contin_fields (fs : field_set) : Nat := fs._contin.length

/-- Method `field_set::n_term_fields`. -/
def n_term_fields (fs : field_set) : Nat := fs._n_term_fields

/-- Method `field_set::disc_and_bit`. -/
def disc_and_bit (fs : field_set) : List disc_spec := fs._disc

/-- Method `field_set::raw_to_disc_idx`; the `OC_ASSERT` is the error case. -/
def raw_to_disc_idx (fs : field_set) (raw_idx : Nat) : Except fault Nat :=
  let begin_disc_idx := fs.begin_disc_raw_idx
  let end_disc_idx := fs.end_disc_raw_idx
  if raw_idx ≥ begin_disc_idx ∧ raw_idx < end_disc_idx then
    .ok (raw_idx - begin_disc_idx)
  else .error .assertion

/-- Method `field_set::get_raw`: shift the owning word and mask `width` bits.
A word or field outside the vectors reads as 0.  The mask is
`(packed_t(1) << width) - 1`; for a width of 64 or more, where the shift is
undefined in C++, it is taken to be 0 (what a 64-bit shifter, which reduces the
count modulo 64, gives for width 64). -/
def get_raw (fs : field_set) (inst : packed_vec) (idx : Nat) : disc_t :=
  let f := fs._fields.getD idx ⟨0, 0, 0⟩
  (inst.getD f.major_offset 0 >>> f.minor_offset) &&& ((1 <<< f.width) % 2 ^ 64 - 1)

/-- Method `field_set::set_raw`: the branchless update
`word ^= (word ^ (v << minor)) & (mask << minor)` of the owning word, each
shift reduced to the 64 bits of `packed_t`.  A word or field outside the
vectors leaves the instance as it is. -/
def set_raw (fs : field_set) (inst : packed_vec) (idx : Nat) (v : disc_t) : packed_vec :=
  let f := fs._fields.getD idx ⟨0, 0, 0⟩
  inst.set f.major_offset
    (inst.getD f.major_offset 0 ^^^
      ((inst.getD f.major_offset 0 ^^^ ((v <<< f.minor_offset) % 2 ^ 64)) &&&
        ((((1 <<< f.width) % 2 ^ 64 - 1) <<< f.minor_offset) % 2 ^ 64)))

/-- Method `field_set::dim_size`. -/
def dim_size (fs : field_set) : Nat :=
  fs.n_bits + fs.n_disc_fields + fs._contin.length + fs._term.length

/-- Default constructor `field_set()`: empty tables, `_nbool(0)`, then
`compute_starts`. -/
def ctor_default : field_set :=
  compute_starts
    { _fields := [], _term := [], _contin := [], _disc := [], _nbool := 0
      _disc_start := 0, _end_term_raw_idx := 0, _begin_disc_raw_idx := 0
      _end_disc_raw_idx := 0, _begin_bit_raw_idx := 0, _end_bit_raw_idx := 0
      _n_disc_fields := 0, _n_term_fields := 0 }

/-- Copy constructor `field_set(const field_set& x)`: the five tables of `x`
are copied and the caches are recomputed, not copied. -/
def ctor_copy (x : field_set) : field_set :=
  compute_starts
    { _fields := x._fields, _term := x._term, _contin := x._contin, _disc := x._disc
      _nbool := x._nbool
      _disc_start := 0, _end_term_raw_idx := 0, _begin_disc_raw_idx := 0
      _end_disc_raw_idx := 0, _begin_bit_raw_idx := 0, _end_bit_raw_idx := 0
      _n_disc_fields := 0, _n_term_fields := 0 }

end field_set

/-- The struct `field_set::const_disc_iterator`: the layout, a raw index and
the packed words it reads. -/
structure const_disc_iterator where
  _fs : field_set
  _idx : Nat
  _inst : packed_vec

namespace const_disc_iterator

/-- Operator `+=` of `iterator_base`. -/
def advance (it : const_disc_iterator) (n : Nat) : const_disc_iterator :=
  { it with _idx := it._idx + n }

/-- Operator `*` of `const_disc_iterator`. -/
def deref (it : const_disc_iterator) : disc_t :=
  it._fs.get_raw it._inst it._idx

/-- Method `const_disc_iterator::multy`: the multiplicity of the spec the
cursor's raw index maps to. -/
def multy (it : const_disc_iterator) : Except fault Nat :=
  match it._fs.raw_to_disc_idx it._idx with
  | .error e => .error e
  | .ok spec_idx =>
    match it._fs.disc_and_bit.get? spec_idx with
    | some s => .ok s.multy
    | none => .error .undefined

end const_disc_iterator

namespace field_set

/-- Method `field_set::begin_disc` (const overload). -/
def begin_disc (fs : field_set) (inst : Instance) : const_disc_iterator :=
  ⟨fs, fs.begin_disc_raw_idx, inst._bit_disc⟩

/-- Method `field_set::begin_raw` (const overload). -/
def begin_raw (fs : field_set) (inst : Instance) : const_disc_iterator :=
  ⟨fs, 0, inst._bit_disc⟩

/-- Method `field_set::end_raw` (const overload). -/
def end_raw (fs : field_set) (inst : Instance) : const_disc_iterator :=
  ⟨fs, fs._fields.length, inst._bit_disc⟩

/-- The `for` loop of `hamming_distance`, with `n` steps left before `it1`
meets `end_raw(inst1)`: both cursors advance together and the `int`
accumulator `d` grows by one where the two raw values differ.  An addition
that takes `d` beyond `INT_MAX` is a signed overflow, which is undefined. -/
def hamming_loop : Nat → const_disc_iterator → const_disc_iterator → Nat → Except fault Nat
  | 0, _, _, d => .ok d
  | n + 1, it1, it2, d =>
    if d + (if it1.deref ≠ it2.deref then 1 else 0) ≤ INT_MAX then
      hamming_loop n (it1.advance 1) (it2.advance 1)
        (d + if it1.deref ≠ it2.deref then 1 else 0)
    else .error .undefined

/-- Method `field_set::hamming_distance`.  The assertion compares
`inst1.size()` with `inst1.size()`, as the source does; the value returned is
that of the `int` accumulator, which is never negative. -/
def hamming_distance (fs : field_set) (inst1 inst2 : Instance) : Except fault Nat :=
  if inst1.size = inst1.size then
    hamming_loop ((fs.end_raw inst1)._idx - (fs.begin_raw inst1)._idx)
      (fs.begin_raw inst1) (fs.begin_raw inst2) 0
  else .error .assertion

/-- The `for` loop of `merge_instance`, with `n` steps left and the three
cursors at raw index `idx`: `if (*bit != *rit) *tit = *rit;`, the assignment
through the mutable cursor being `set_raw` on the target's words. -/
def merge_loop : Nat → field_set → packed_vec → packed_vec → packed_vec → Nat → packed_vec
  | 0, _, target, _, _, _ => target
  | n + 1, fs, target, base, reference, idx =>
    merge_loop n fs
      (if fs.get_raw base idx ≠ fs.get_raw reference idx
        then fs.set_raw target idx (fs.get_raw reference idx) else target)
      base reference (idx + 1)

/-- Method `field_set::merge_instance`, in state-passing form: the first
component is the target as the call leaves it, the second tells whether the
call returned or failed its `OC_ASSERT`.  This is the call on three distinct
objects, given by their values; `merge_instance_at` is the call on references
that may name the same object. -/
def merge_instance (fs : field_set) (target base reference : Instance) :
    Instance × Except fault Unit :=
  if base.size = reference.size ∧ base.size = target.size then
    (⟨merge_loop fs.raw_size fs target._bit_disc base._bit_disc reference._bit_disc 0,
      reference._contin⟩, .ok ())
  else (target, .error .assertion)

/-- The `for` loop of `merge_instance` on objects of a store: as `merge_loop`,
with the three instances read from the store at every step, so that a write
through the target's cursor is seen by the cursors of `base` and `reference`
when they run over the same object. -/
def merge_loop_at : Nat → field_set → List Instance → Nat → Nat → Nat → Nat → List Instance
  | 0, _, heap, _, _, _, _ => heap
  | n + 1, fs, heap, target, base, reference, idx =>
    merge_loop_at n fs
      (if fs.get_raw (heap.getD base ⟨[], []⟩)._bit_disc idx ≠
          fs.get_raw (heap.getD reference ⟨[], []⟩)._bit_disc idx
        then heap.set target
          ⟨fs.set_raw (heap.getD target ⟨[], []⟩)._bit_disc idx
              (fs.get_raw (heap.getD reference ⟨[], []⟩)._bit_disc idx),
            (heap.getD target ⟨[], []⟩)._contin⟩
        else heap)
      target base reference (idx + 1)

/-- Method `field_set::merge_instance` with its arguments as references:
`target`, `base` and `reference` are positions in a store of instances and may
name the same object.  The result is the store as the call leaves it, and
whether the call returned or failed its `OC_ASSERT`. -/
def merge_instance_at (fs : field_set) (heap : List Instance) (target base reference : Nat) :
    List Instance × Except fault Unit :=
  if (heap.getD base ⟨[], []⟩).size = (heap.getD reference ⟨[], []⟩).size ∧
      (heap.getD base ⟨[], []⟩).size = (heap.getD target ⟨[], []⟩).size then
    ((merge_loop_at fs.raw_size fs heap target base reference 0).set target
      ⟨((merge_loop_at fs.raw_size fs heap target base reference 0).getD target ⟨[], []⟩)._bit_disc,
        ((merge_loop_at fs.raw_size fs heap target base reference 0).getD reference
          ⟨[], []⟩)._contin⟩, .ok ())
  else (heap, .error .assertion)

end field_set

/-! ## Library calls outside the sources -/

/-- Modelled from the spec: the constant `max_factorial<double>::value` of
Boost.Math, the largest argument whose factorial is tabulated as a double. -/
def max_factorial : Nat := 170

/-- Modelled from the spec: the table `unchecked_factorial<double>(i)` of
Boost.Math, whose entry is the double nearest to `i!`; in units of `2 ^ -52`. -/
def unchecked_factorial (i : Nat) : Nat := round_ratio i.factorial 1

/-- Modelled from the spec: `boost::math::binomial_coefficient<double>(n, k)`,
a Boost.Math routine that is not part of the sources; the spec has the
coefficient "computed in floating point".  The model follows the routine: a
domain error for `k > n`; 1 for `k = 0` and `k = n`; `n` for `k = 1` and
`k = n - 1`; up to `max_factorial` the tabulated factorial of `n` divided by
that of `n - k` and then by that of `k`, each division rounded to a double, and
the quotient turned into an integer by `ceil(result - 0.5)`.  Above
`max_factorial` the routine goes through the beta function, whose rounding is
not modelled: there the coefficient is idealised to one correct rounding, with
the overflow error the routine reports beyond the range of `double`.  Under
Boost's default policy both errors are thrown.  The value is given as the
integer it denotes. -/
def binomial_coefficient_double (n k : Nat) : Except fault Nat :=
  if k > n then .error .domain_error
  else if k = 0 ∨ k = n then .ok 1
  else if k = 1 ∨ k = n - 1 then .ok n
  else if n ≤ max_factorial then
    let r1 := round_ratio (unchecked_factorial n) (unchecked_factorial (n - k))
    let r2 := round_ratio r1 (unchecked_factorial k)
    let r3 := round_ratio (r2 - 2 ^ 51) (2 ^ 52)
    .ok ((r3 + 2 ^ 52 - 1) / 2 ^ 52)
  else
    let c := round_to_double (Nat.choose n k)
    if c < DBL_OVERFLOW then .ok c else .error .overflow_error

/-- Modelled from the spec: `boost::numeric_cast<size_t>` applied to a
non-negative integer-valued `double`; `none` is the exception
`boost::numeric::positive_overflow`. -/
def numeric_cast_size_t (x : Nat) : Option Nat :=
  if x ≤ SIZE_MAX then some x else none

/-- The binary digits after the point of the base-2 logarithm of a number `m`
in `[1, 2)`, by repeated squaring: a square of 2 or more gives the digit 1 and
is halved.  `m` is given in units of `2 ^ -192` and every square is cut to
that precision; the digits found so far are collected in the last argument. -/
def log2_fraction : Nat → Nat → Nat → Nat
  | 0, _, f => f
  | s + 1, m, f =>
    if (m * m) >>> 385 = 0 then log2_fraction s ((m * m) >>> 192) (2 * f)
    else log2_fraction s ((m * m) >>> 193) (2 * f + 1)

/-- Modelled from the spec: `std::log2` on a double that holds a positive
integer, a library call that is not part of the sources, taken to be correctly
rounded: the double nearest to the logarithm.  The logarithm of a power of two
is exact; any other is irrational, so the digit after the last one kept decides
the rounding.  The result is 0 or at least 1 and is given in units of
`2 ^ -52`. -/
def log2_double (x : Nat) : Nat :=
  let e := bit_length x - 1
  if x = 1 <<< e then e <<< 52
  else
    let nf := 53 - bit_length e
    let f := log2_fraction (nf + 1) ((x <<< 192) >>> e) 0
    ((e <<< nf) + f / 2 + f % 2) <<< (52 - nf)

/-- The test `length_bits > dlogsize` of `count_contin_neighborhood`, where
`dlogsize = std::log2(max_count) - std::log2(number_of_instances)`, in double
arithmetic.  The counts and `length_bits` are converted to `double`.  `log2 0`
is minus infinity, so a zero `number_of_instances` makes `dlogsize` plus
infinity (or NaN) and the test false, and a zero `max_count` alone makes it
minus infinity and the test true.  Otherwise the two logarithms are doubles, a
negative difference is below every `length_bits`, and a difference that is not
negative is rounded to a double before the comparison. -/
def exceeds_log2_budget (length_bits max_count number_of_instances : Nat) : Bool :=
  let m := round_to_double max_count
  let b := round_to_double number_of_instances
  if b = 0 then false
  else if m = 0 then true
  else if log2_double m < log2_double b then true
  else decide (round_to_double (log2_double m - log2_double b)
    < round_to_double length_bits <<< 52)

/-- Operator `<<` on `size_t`: the product reduced to 64 bits.  A shift of 64 or
more is undefined in C++; on a zero operand it gives 0 however the shift is
realised (the count reduced modulo 64, or every bit shifted out) and is taken
to give 0, on any other operand it is a fault. -/
def shl_size_t (x n : Nat) : Except fault Nat :=
  if n < 64 then .ok (to_size_t (x * 2 ^ n))
  else if x = 0 then .ok 0
  else .error .undefined

/-! ## Neighborhood counting (`neighborhood_sampling.cc`) -/

/-- Function `safe_binomial_coefficient(k, n)`: the Boost call sits outside the
`try` block, the cast inside it, and only `positive_overflow` is caught. -/
def safe_binomial_coefficient (k n : Nat) : Except fault Nat :=
  match binomial_coefficient_double k n with
  | .error e => .error e
  | .ok noi_db =>
    match numeric_cast_size_t noi_db with
    | some res => .ok res
    | none => .ok SIZE_MAX

/-- Function `count_neighborhood_size_from_index`.  `dist` and `starting_index`
are `unsigned`, `max_count` and the result are `size_t`. -/
def count_neighborhood_size_from_index :
    Nat → field_set → Instance → Nat → Nat → Nat → Except fault Nat
  | 0, _, _, _, _, _ => .error .out_of_fuel
  | fuel + 1, fs, inst, dist, starting_index, max_count =>
    if dist = 0 then .ok 1
    else if fs.begin_term_raw_idx ≤ starting_index ∧ starting_index < fs.end_term_raw_idx then
      count_neighborhood_size_from_index fuel fs inst dist
        (to_unsigned (starting_index + fs.end_term_raw_idx)) max_count
    else if fs.begin_disc_raw_idx ≤ starting_index ∧ starting_index < fs.end_disc_raw_idx then
      match count_neighborhood_size_from_index fuel fs inst dist
          (to_unsigned (starting_index + 1)) max_count with
      | .error e => .error e
      | .ok number_of_instances =>
        if number_of_instances > max_count then .ok number_of_instances
        else
          let itd := (fs.begin_disc inst).advance (starting_index - fs.begin_disc_raw_idx)
          match itd.multy with
          | .error e => .error e
          | .ok multy =>
            match count_neighborhood_size_from_index fuel fs inst (dist - 1)
                (to_unsigned (starting_index + 1)) max_count with
            | .error e => .error e
            | .ok changed =>
              .ok (to_size_t (number_of_instances + to_unsigned (multy + 2 ^ 32 - 1) * changed))
    else if fs.begin_bit_raw_idx ≤ starting_index ∧ starting_index < fs.end_bit_raw_idx then
      let rb := to_unsigned (fs.end_bit_raw_idx - starting_index)
      if dist ≤ rb then safe_binomial_coefficient rb dist else .ok 0
    else .ok 0

/-- Function `count_contin_neighborhood`. -/
def count_contin_neighborhood (fs : field_set) (dist number_of_instances max_count : Nat) :
    Except fault Nat :=
  let length_bits := to_size_t (fs.n_contin_fields * dist)
  if length_bits > 0 then
    if exceeds_log2_budget length_bits max_count number_of_instances then
      .ok (to_size_t (max_count + 1))
    else shl_size_t number_of_instances length_bits
  else .ok number_of_instances

/-- Function `count_neighborhood_size(fs, inst, dist, max_count)`. -/
def count_neighborhood_size (fuel : Nat) (fs : field_set) (inst : Instance)
    (dist max_count : Nat) : Except fault Nat :=
  match count_neighborhood_size_from_index fuel fs inst dist 0 max_count with
  | .error e => .error e
  | .ok number_of_instances =>
    if number_of_instances > max_count then .ok number_of_instances
    else count_contin_neighborhood fs dist number_of_instances max_count

/-- Overload `count_neighborhood_size(fs, dist, max_count)`, which builds a
zero-valued instance of the layout's shape. -/
def count_neighborhood_size_fs (fuel : Nat) (fs : field_set) (dist max_count : Nat) :
    Except fault Nat :=
  count_neighborhood_size fuel fs (Instance.zero fs.packed_width fs.n_contin_fields)
    dist max_count

/-! ## Growing the deme (`neighborhood_sampling.cc`) -/

/-- Modelled from the spec: the class `instance_set<composite_score>` (the
deme), which is not among the sources: the population collaborator that
"exposes the owning FieldLayout, `resize(n)`, and random-access iteration over
instances". -/
structure instance_set where
  _fields : field_set
  instances : List Instance

namespace instance_set

/-- Modelled from the spec: the method `instance_set::fields`, the owning
layout. -/
def fields (deme : instance_set) : field_set := deme._fields

/-- Modelled from the spec: the method `instance_set::size`, the number of
instances held. -/
def size (deme : instance_set) : Nat := deme.instances.length

/-- Modelled from the spec: the method `instance_set::resize(n)`, taken to be
that of `std::vector`: the first `n` instances are kept and, when `n` is above
the size, zero-valued instances of the layout's shape are appended. -/
def resize (deme : instance_set) (n : Nat) : instance_set :=
  { deme with
    instances := deme.instances.take n ++
      List.replicate (n - deme.instances.length)
        (Instance.zero deme._fields.packed_width deme._fields.n_contin_fields) }

end instance_set

/-- Modelled from the spec: the type `marker_vec` of the changed-knob markers,
which is not among the sources. -/
abbrev marker_vec := List Bool

/-- Modelled from the spec: what a routine that fills the deme slots of an
iterator range `[first, last)` does to them: the instance it leaves in the
`k`-th slot of the range, given the instance the slot held.  Such a routine
reaches no slot outside its range and cannot change the size of the deme. -/
abbrev slot_writer := Nat → Instance → Instance

/-- Modelled from the spec: the two routines of `neighborhood_sampling.h` that
`sample_new_instances` delegates to, neither among the sources: "statistical
sampling-without-duplicates" and "exhaustive enumeration".  Each is given by
the slots it writes, as a function of the arguments of the call. -/
structure neighborhood_routines where
  sample_from_neighborhood : field_set → Nat → Nat → Instance → marker_vec → Nat → slot_writer
  generate_all_in_neighborhood : field_set → Nat → Instance → slot_writer

/-- The deme after a routine has filled the range
`[deme.begin() + first, deme.end())`. -/
def instance_set.write_range (deme : instance_set) (first : Nat) (w : slot_writer) :
    instance_set :=
  { deme with instances := deme.instances.take first ++ (deme.instances.drop first).mapIdx w }

/-- Function `sample_new_instances` (overload with the estimate and
`changed_contin`), in state-passing form: the deme as the call leaves it and
the value returned.  The counts are `size_t`; `deme.begin() + n` past
`deme.end()` is undefined behaviour.  The markers the sampling routine may set
in `changed_contin` are not tracked. -/
def sample_new_instances (fuel : Nat) (ext : neighborhood_routines)
    (total_number_of_neighbours number_of_new_instances current_number_of_instances : Nat)
    (center_inst : Instance) (deme : instance_set) (dist : Nat) (changed_contin : marker_vec) :
    instance_set × Except fault Nat :=
  match (if to_size_t (2 * number_of_new_instances) > total_number_of_neighbours then
      count_neighborhood_size fuel deme.fields center_inst dist number_of_new_instances
    else .ok total_number_of_neighbours) with
  | .error e => (deme, .error e)
  | .ok total_number_of_neighbours =>
    if number_of_new_instances < total_number_of_neighbours then
      let deme1 := deme.resize (to_size_t (current_number_of_instances + number_of_new_instances))
      if current_number_of_instances ≤ deme1.size then
        (deme1.write_range current_number_of_instances
          (ext.sample_from_neighborhood deme.fields dist number_of_new_instances center_inst
            changed_contin current_number_of_instances),
          .ok number_of_new_instances)
      else (deme1, .error .undefined)
    else
      let number_of_new_instances := total_number_of_neighbours
      let deme1 := deme.resize (to_size_t (current_number_of_instances + number_of_new_instances))
      if current_number_of_instances ≤ deme1.size then
        (deme1.write_range current_number_of_instances
          (ext.generate_all_in_neighborhood deme.fields dist center_inst),
          .ok number_of_new_instances)
      else (deme1, .error .undefined)

/-- Function `sample_new_instances` (overload with the estimate, without
`changed_contin`): it passes an empty marker vector. -/
def sample_new_instances_no_markers (fuel : Nat) (ext : neighborhood_routines)
    (total_number_of_neighbours number_of_new_instances current_number_of_instances : Nat)
    (center_inst : Instance) (deme : instance_set) (dist : Nat) :
    instance_set × Except fault Nat :=
  sample_new_instances fuel ext total_number_of_neighbours number_of_new_instances
    current_number_of_instances center_inst deme dist []

/-- Function `sample_new_instances` (overload that computes the total itself,
counting up to `number_of_new_instances`). -/
def sample_new_instances_no_total (fuel : Nat) (ext : neighborhood_routines)
    (number_of_new_instances current_number_of_instances : Nat)
    (center_inst : Instance) (deme : instance_set) (dist : Nat) :
    instance_set × Except fault Nat :=
  match count_neighborhood_size fuel deme.fields center_inst dist number_of_new_instances with
  | .error e => (deme, .error e)
  | .ok total_number_of_neighbours =>
    sample_new_instances_no_markers fuel ext total_number_of_neighbours number_of_new_instances
      current_number_of_instances center_inst deme dist

/-! ## Mutating a continuous knob (`neighborhood_sampling.cc`, `field_set.h`) -/

/-- Modelled from the spec: the random generator collaborator `RandGen`, which
is not among the sources ("uniform [0,1) draw, ±1 sign draw"; "determinism is
exactly the generator's determinism given a fixed seed and call sequence").  A
generator is the sequence of values it will hand out, with the number of draws
made so far; a draw returns the next value and the generator after it. -/
structure RandGen where
  doubles : Nat → contin_t
  signs : Nat → Int
  drawn : Nat

namespace RandGen

/-- Modelled from the spec: the method `RandGen::randdouble`, the next draw in
`[0, 1)`. -/
def randdouble (rng : RandGen) : contin_t × RandGen :=
  (rng.doubles rng.drawn, { rng with drawn := rng.drawn + 1 })

/-- Modelled from the spec: the method `RandGen::randPositiveNegative`, the next
sign draw, `+1` or `-1`. -/
def randPositiveNegative (rng : RandGen) : Int × RandGen :=
  (rng.signs rng.drawn, { rng with drawn := rng.drawn + 1 })

end RandGen

/-- Rounding of a non-negative rational to the nearest integer, ties to even. -/
def round_half_even (m : Rat) : Int :=
  if 2 * (m - ⌊m⌋) < 1 then ⌊m⌋
  else if 2 * (m - ⌊m⌋) = 1 ∧ ⌊m⌋ % 2 = 0 then ⌊m⌋
  else ⌊m⌋ + 1

/-- The exponent of the unit in the last place of the double nearest to `q`:
52 below the binary exponent of `q`, and not below that of the subnormals. -/
def ulp_exponent (q : Rat) : Int := max (Int.log 2 |q| - 52) (-1074)

/-- The magnitude of the double nearest to `q`: the multiple of the unit in the
last place nearest to `|q|`, ties to even. -/
def round_magnitude (q : Rat) : Rat :=
  (round_half_even (|q| / 2 ^ ulp_exponent q) : Rat) * 2 ^ ulp_exponent q

/-- Rounding of an exact result to `double`, round to nearest, ties to even,
as IEEE arithmetic does after every operation.  A result that rounds beyond the
finite range is an infinity in the code, which `contin_t` here does not hold;
it is reported as `not_finite`. -/
def round_contin (q : Rat) : Except fault Rat :=
  if round_magnitude q < 2 ^ (1024 : Int)
  then .ok (if q < 0 then -round_magnitude q else round_magnitude q)
  else .error .not_finite

namespace contin_spec

/-- Method `contin_spec::rand_at_space`:
`rng.randdouble() * rng.randPositiveNegative() * space`, the two draws taken
from left to right (C++ leaves their order open), the sign converted to
`double`, and each of the two products rounded to `double`. -/
def rand_at_space (space : contin_t) (rng : RandGen) : Except fault contin_t × RandGen :=
  let u := rng.randdouble
  let s := u.2.randPositiveNegative
  (match round_contin (u.1 * s.1) with
    | .error e => .error e
    | .ok p => round_contin (p * space), s.2)

/-- Method `contin_spec::get_new`, in state-passing form: the value returned,
the spec as the call leaves it (`_likely` is `mutable`) and the generator.  With
an empty `_likely` the value is `rand_at_space(_space * dist, rng)`, the product
`_space * dist` rounded to `double`; otherwise it is `_likely.back()`, which
`pop_back` then removes. -/
def get_new (cs : contin_spec) (_current : contin_t) (dist : Nat) (rng : RandGen) :
    Except fault contin_t × contin_spec × RandGen :=
  match cs._likely.getLast? with
  | none =>
    match round_contin (cs._space * dist) with
    | .error e => (.error e, cs, rng)
    | .ok x =>
      let r := rand_at_space x rng
      (r.1, cs, r.2)
  | some ret => (.ok ret, { cs with _likely := cs._likely.dropLast }, rng)

end contin_spec

/-- Function `generate_contin_neighbor`, in state-passing form: the layout
(whose contin specs are mutable), the instance and the generator as the call
leaves them.  The cursor `it` is given by its index: made by
`fs.begin_contin(inst)`, it reads spec `it` of `fs` (`contin()[_idx]`,
unchecked) and reads and writes knob `it` of `inst` (`at(_idx)`, checked). -/
def generate_contin_neighbor (fs : field_set) (inst : Instance) (it : Nat) (dist : Nat)
    (rng : RandGen) : Except fault (field_set × Instance × RandGen) :=
  if dist ≤ 0 then .ok (fs, inst, rng)
  else
    match fs._contin.get? it with
    | none => .error .undefined
    | some cs =>
      match inst._contin.get? it with
      | none => .error .out_of_range
      | some current =>
        match (cs.get_new current dist rng).1 with
        | .error e => .error e
        | .ok v =>
          .ok ({ fs with _contin := fs._contin.set it (cs.get_new current dist rng).2.1 },
            { inst with _contin := inst._contin.set it v },
            (cs.get_new current dist rng).2.2)

/-! ## Specs as a variant and the range constructor (`field_set.h`) -/

namespace disc_spec

/-- Operator `<` of `disc_spec`: "sort descending by multy". -/
def lt (a b : disc_spec) : Bool := decide (a.multy > b.multy)

/-- Operator `==` of `disc_spec`. -/
def eq (a b : disc_spec) : Bool := decide (a.multy = b.multy)

end disc_spec

namespace contin_spec

/-- Operator `<` of `contin_spec`: it compares `_space` alone. -/
def lt (a b : contin_spec) : Bool := decide (a._space > b._space)

/-- Operator `==` of `contin_spec`: it compares `_space` alone. -/
def eq (a b : contin_spec) : Bool := decide (a._space = b._space)

end contin_spec

namespace term_spec

/-- Operator `<` of `term_spec`: "sort descending by size", the `size_t`
product `depth * branching`. -/
def lt (a b : term_spec) : Bool :=
  decide (to_size_t (a.depth * a.branching) > to_size_t (b.depth * b.branching))

/-- Operator `==` of `term_spec`: equal depth, equal branching and equal trees
(`*tr == *(rhs.tr)`; trees are equal when their identifiers are). -/
def eq (a b : term_spec) : Bool :=
  decide (a.depth = b.depth ∧ a.branching = b.branching ∧ a.tr = b.tr)

end term_spec

/-- The type `field_set::spec`,
`boost::variant<term_spec, contin_spec, disc_spec>`. -/
inductive spec where
  | term : term_spec → spec
  | contin : contin_spec → spec
  | disc : disc_spec → spec
  deriving DecidableEq, Repr

namespace spec

/-- Modelled from the spec: `boost::variant::which`, the index of the
alternative held ("a closed, fixed-shape tagged variant"). -/
def which : spec → Nat
  | term _ => 0
  | contin _ => 1
  | disc _ => 2

/-- Modelled from the spec: operator `<` of `boost::variant`, which is not among
the sources: two values of the same alternative compare by that alternative's
operator `<`, two values of different alternatives by `which()` (the
constructor's comment: "the sorting seems to follow the order of the spec
boost::variant"). -/
def lt : spec → spec → Bool
  | term a, term b => a.lt b
  | contin a, contin b => a.lt b
  | disc a, disc b => a.lt b
  | a, b => decide (a.which < b.which)

/-- Modelled from the spec: operator `==` of `boost::variant`: the same
alternative and equal contents under that alternative's operator `==`. -/
def eq : spec → spec → Bool
  | term a, term b => a.eq b
  | contin a, contin b => a.eq b
  | disc a, disc b => a.eq b
  | _, _ => false

end spec

/-- Modelled from the spec: the class `Counter<spec, size_t>` of the utility
library (`opencog/util/Counter.h`), which is not among the sources.  The spec
has identical specs "merged and counted"; the class is a `std::map` from keys to
counts ("the map" of the constructor's comment, in which "non-identical specs
are sorted"), so it is kept as the list of its entries in key order, keys being
ordered, and told apart, by operator `<` alone. -/
abbrev Counter := List (spec × Nat)

/-- Modelled from the spec: `counter[x] += 1` on the map: the entry whose key
is neither below nor above `x` gets its count raised and keeps its key; if there
is none, `x` is inserted in order with count 1. -/
def Counter.add (x : spec) : Counter → Counter
  | [] => [(x, 1)]
  | (key, count) :: rest =>
    if x.lt key then (x, 1) :: (key, count) :: rest
    else if key.lt x then (key, count) :: Counter.add x rest
    else (key, count + 1) :: rest

/-- Modelled from the spec: the constructor `Counter(from, to)`, which counts
the elements of the range one after the other. -/
def Counter.of_range (l : List spec) : Counter :=
  l.foldl (fun c x => Counter.add x c) []

/-- The counted entries `spec_counts` that the range constructor
`field_set(from, to)` builds from, one `build_spec(v.first, v.second)` per
entry. -/
def field_set.spec_counts (specs : List spec) : Counter := Counter.of_range specs

/-! ## Packing a flat sequence of values (`field_set.h`) -/

/-- The position `pack` writes at: the word `out` points at, by its index, and
the bit `offset` (an `unsigned int`) within it. -/
structure pack_cursor where
  out : Nat
  offset : Nat
  deriving DecidableEq, Repr

/-- The steps `offset += n; if (offset == bits_per_packed_t) { offset = 0;
++out; }` of `pack`. -/
def pack_cursor.advance (c : pack_cursor) (n : Nat) : pack_cursor :=
  if to_unsigned (c.offset + n) = bits_per_packed_t then ⟨c.out + 1, 0⟩
  else ⟨c.out, to_unsigned (c.offset + n)⟩

/-- The last step of `pack`, `if (offset > 0) ++out;`, "so we always point to
one-past-the-end". -/
def pack_cursor.one_past_end (c : pack_cursor) : Nat :=
  if c.offset > 0 then c.out + 1 else c.out

/-- The local state of `pack`: what is left of the input `from`, the words
written through `out`, and the position. -/
structure pack_state where
  src : List disc_t
  words : packed_vec
  cur : pack_cursor
  deriving DecidableEq, Repr

/-- The statement `*out |= packed_t(*from++) << offset;` of `pack`.  Reading
past the input, writing past the words and shifting by the word size or more
are undefined. -/
def pack_state.store (s : pack_state) : Except fault pack_state :=
  match s.src with
  | [] => .error .undefined
  | v :: rest =>
    if s.cur.offset < bits_per_packed_t ∧ s.cur.out < s.words.length then
      .ok { s with
        src := rest
        words := s.words.set s.cur.out
          (s.words.getD s.cur.out 0 ||| (v <<< s.cur.offset) % 2 ^ 64) }
    else .error .undefined

/-- The inner loop `dorepeat (o.depth)` of `pack`, with `n` rounds left: store
one value, move on by `width`. -/
def pack_term_loop (width : Nat) : Nat → pack_state → Except fault pack_state
  | 0, s => .ok s
  | n + 1, s =>
    match s.store with
    | .error e => .error e
    | .ok s1 => pack_term_loop width n { s1 with cur := s1.cur.advance width }

/-- The loop of `pack` over the term specs: `depth` stores of `width` bits, then
the padding `total_width - depth * width` ("term vars must pack evenly"), all in
`size_t`.  The helper `nbits_to_pack` of the utility library is not among the
sources and is a parameter. -/
def pack_terms (nbits_to_pack : Nat → Nat) : List term_spec → pack_state → Except fault pack_state
  | [], s => .ok s
  | o :: rest, s =>
    let width := nbits_to_pack o.branching
    let total_width := to_size_t
      ((to_size_t (to_size_t (width * o.depth) + 2 ^ 64 - 1) / bits_per_packed_t + 1)
        * bits_per_packed_t)
    match pack_term_loop width o.depth s with
    | .error e => .error e
    | .ok s1 =>
      pack_terms nbits_to_pack rest
        { s1 with
          cur := s1.cur.advance (to_size_t (total_width + 2 ^ 64 - to_size_t (o.depth * width))) }

/-- The loop of `pack` over the disc specs: store one value, move on by
`nbits_to_pack(d.multy)`. -/
def pack_discs (nbits_to_pack : Nat → Nat) : List disc_spec → pack_state → Except fault pack_state
  | [], s => .ok s
  | d :: rest, s =>
    match s.store with
    | .error e => .error e
    | .ok s1 =>
      pack_discs nbits_to_pack rest { s1 with cur := s1.cur.advance (nbits_to_pack d.multy) }

/-- Method `field_set::pack(from, out)`: the words as the call leaves them and
the position it returns.  `out` is given as an index into `words`. -/
def field_set.pack (nbits_to_pack : Nat → Nat) (fs : field_set) (src : List disc_t)
    (words : packed_vec) (out : Nat) : Except fault (packed_vec × Nat) :=
  match pack_terms nbits_to_pack fs._term ⟨src, words, ⟨out, 0⟩⟩ with
  | .error e => .error e
  | .ok s1 =>
    match pack_discs nbits_to_pack fs._disc s1 with
    | .error e => .error e
    | .ok s2 => .ok (s2.words, s2.cur.one_past_end)

/-! ## Bit cursors (`field_set.h`) -/

/-- Modelled from the spec: the helper `integer_log2` of the utility library,
which is not among the sources: the index of the highest set bit of a 64-bit
word (the cursors measure "distance defined in bit units"), 0 for the words 0
and 1. -/
def integer_log2 (x : Nat) : Nat :=
  (List.range 64).countP fun e => decide (2 ^ (e + 1) ≤ x)

/-- Operator `<<` on the 32-bit type `int`, for a left operand that is not
negative: undefined for a shift of 32 or more and for a product that does not
fit `unsigned int`; otherwise the product, read as an `int`. -/
def shl_int (x : Int) (n : Nat) : Except fault Int :=
  if 0 ≤ x ∧ n < 32 ∧ x * 2 ^ n < 2 ^ 32 then
    .ok (if x * 2 ^ n < 2 ^ 31 then x * 2 ^ n else x * 2 ^ n - 2 ^ 32)
  else .error .undefined

/-- Conversion `packed_t(v)` of an `int` to a 64-bit storage word. -/
def packed_t_of_int (v : Int) : Nat := (v % 2 ^ 64).toNat

/-- The struct `field_set::bit_iterator_base`: the word `_it` points at, by its
index in the packed storage, and the mask `_mask` over that word. -/
structure bit_iterator_base where
  _it : Int
  _mask : Nat
  deriving DecidableEq, Repr

namespace bit_iterator_base

/-- Operator `++` of `bit_iterator_base`: `_mask <<= 1` on a 64-bit word, and
on 0 the mask restarts at `packed_t(1)` in the next word. -/
def inc (c : bit_iterator_base) : bit_iterator_base :=
  let mask := (c._mask <<< 1) % 2 ^ 64
  if mask = 0 then ⟨c._it + 1, 1⟩ else ⟨c._it, mask⟩

/-- The static `reset` of operator `--`,
`packed_t(1 << (bits_per_packed_t - 1))`: the shift is made on the `int` 1 and
its result is converted afterwards. -/
def reset : Except fault Nat :=
  match shl_int 1 (bits_per_packed_t - 1) with
  | .error e => .error e
  | .ok v => .ok (packed_t_of_int v)

/-- Operator `--` of `bit_iterator_base`: `_mask >>= 1`, and on 0 the mask
restarts at `reset` in the previous word.  The static `reset` is evaluated at
its one use; C++ evaluates it on the first call of the operator, which can only
fail more often. -/
def dec (c : bit_iterator_base) : Except fault bit_iterator_base :=
  let mask := c._mask >>> 1
  if mask = 0 then
    match reset with
    | .error e => .error e
    | .ok r => .ok ⟨c._it - 1, r⟩
  else .ok ⟨c._it, mask⟩

/-- The loop `dorepeat(n) ++(*this)`. -/
def inc_n : Nat → bit_iterator_base → bit_iterator_base
  | 0, c => c
  | n + 1, c => inc_n n c.inc

/-- The loop `dorepeat(n) --(*this)`. -/
def dec_n : Nat → bit_iterator_base → Except fault bit_iterator_base
  | 0, c => .ok c
  | n + 1, c =>
    match c.dec with
    | .error e => .error e
    | .ok c1 => dec_n n c1

/-- Operator `+=` of `bit_iterator_base`, the `Distance` being a `ptrdiff_t`:
whole words first, then single steps.  A negative distance is handed to
operator `-=` with `-n`, which is undefined for the least `ptrdiff_t`. -/
def add (c : bit_iterator_base) (n : Int) : Except fault bit_iterator_base :=
  if n < 0 then
    if n = -(2 ^ 63) then .error .undefined
    else dec_n ((-n).toNat % bits_per_packed_t) ⟨c._it - (-n) / bits_per_packed_t, c._mask⟩
  else .ok (inc_n (n.toNat % bits_per_packed_t) ⟨c._it + n / bits_per_packed_t, c._mask⟩)

/-- Operator `-=` of `bit_iterator_base`; a negative distance is handed to
operator `+=` with `-n`. -/
def sub (c : bit_iterator_base) (n : Int) : Except fault bit_iterator_base :=
  if n < 0 then
    if n = -(2 ^ 63) then .error .undefined
    else .ok (inc_n ((-n).toNat % bits_per_packed_t) ⟨c._it + (-n) / bits_per_packed_t, c._mask⟩)
  else dec_n (n.toNat % bits_per_packed_t) ⟨c._it - n / bits_per_packed_t, c._mask⟩

/-- Operator `<` of `bit_iterator_base`:
`_it < x._it ? true : integer_log2(_mask) < integer_log2(x._mask)`. -/
def lt (c x : bit_iterator_base) : Bool :=
  if c._it < x._it then true else decide (integer_log2 c._mask < integer_log2 x._mask)

/-- Operator `-` of `bit_iterator_base`, `x - y` in bit units.  The difference
of two positions in one packed storage fits `ptrdiff_t` and is kept as an
integer. -/
def distance (x y : bit_iterator_base) : Int :=
  bits_per_packed_t * (x._it - y._it) + integer_log2 x._mask - integer_log2 y._mask

/-- Operator `==` of `bit_iterator_base`. -/
def eq (c rhs : bit_iterator_base) : Bool :=
  decide (c._it = rhs._it ∧ c._mask = rhs._mask)

end bit_iterator_base

/-! ## Reference counts -/

/-- All raw-value assignments of a layout whose raw fields have the given
multiplicities: field `i` ranges over `[0, m_i)`. -/
def assignments : List Nat → List (List Nat)
  | [] => [[]]
  | m :: ms => (List.range m).flatMap fun v => (assignments ms).map fun a => v :: a

/-- Number of raw positions at which two assignments differ. -/
def raw_distance : List Nat → List Nat → Nat
  | a :: as, b :: bs => (if a = b then 0 else 1) + raw_distance as bs
  | _, _ => 0

/-- Number of assignments that differ from `center` in exactly `d` raw
positions. -/
def neighborhood_size (mults center : List Nat) (d : Nat) : Nat :=
  ((assignments mults).filter fun a => raw_distance center a = d).length

/-- An assignment is legal when every raw value is below its multiplicity. -/
def legal_assignment : List Nat → List Nat → Prop
  | [], [] => True
  | m :: ms, c :: cs => c < m ∧ legal_assignment ms cs
  | _, _ => False

instance legal_assignment.decidable : ∀ ms cs : List Nat, Decidable (legal_assignment ms cs)
  | [], [] => isTrue trivial
  | [], _ :: _ => isFalse fun h => h
  | _ :: _, [] => isFalse fun h => h
  | m :: ms, c :: cs =>
    match Nat.decLt c m, legal_assignment.decidable ms cs with
    | isTrue h1, isTrue h2 => isTrue ⟨h1, h2⟩
    | isFalse h1, _ => isFalse fun h => h1 h.1
    | _, isFalse h2 => isFalse fun h => h2 h.2

/-- Raw values of an instance, read with `get_raw` at every raw index. -/
def raw_values (fs : field_set) (inst : Instance) : List Nat :=
  (List.range fs.raw_size).map fun i => fs.get_raw inst._bit_disc i

end moses

/-! ## Concrete layouts used as examples -/

namespace moses

/-- Layout of the spec's scenario: one four-valued disc followed by three
boolean discs. -/
def fs_scenario : field_set :=
  field_set.of_tables [⟨2, 0, 0⟩, ⟨1, 0, 2⟩, ⟨1, 0, 3⟩, ⟨1, 0, 4⟩] [] []
    [⟨4⟩, ⟨2⟩, ⟨2⟩, ⟨2⟩] 3

/-- Layout of `k` boolean discs packed one bit each, with space for `c`
continuous knobs. -/
def fs_bits (k c : Nat) : field_set :=
  field_set.of_tables ((List.range k).map fun i => ⟨1, i / 64, i % 64⟩) []
    (List.replicate c ⟨1, 1, []⟩) (List.replicate k ⟨2⟩) k

/-- Layout with two term raw fields (one term spec of depth 2, padded to a
word), one four-valued disc, three boolean discs and one continuous knob. -/
def fs_full : field_set :=
  field_set.of_tables
    [⟨2, 0, 0⟩, ⟨2, 0, 2⟩, ⟨2, 1, 0⟩, ⟨1, 1, 2⟩, ⟨1, 1, 3⟩, ⟨1, 1, 4⟩]
    [⟨0, 2, 4⟩] [⟨1, 1, []⟩] [⟨4⟩, ⟨2⟩, ⟨2⟩, ⟨2⟩] 3

/-- Layout of four discs of multiplicity 65537 (17 bits each). -/
def fs_wrap : field_set :=
  field_set.of_tables [⟨17, 0, 0⟩, ⟨17, 0, 17⟩, ⟨17, 0, 34⟩, ⟨17, 1, 0⟩] [] []
    [⟨65537⟩, ⟨65537⟩, ⟨65537⟩, ⟨65537⟩] 0

/-- Layout of `n` three-valued discs, two bits each. -/
def fs_ternary (n : Nat) : field_set :=
  field_set.of_tables ((List.range n).map fun i => ⟨2, i / 32, 2 * (i % 32)⟩) [] []
    (List.replicate n ⟨3⟩) 0

/-- Layout of one term raw field (a term spec of depth 1, padded to a word)
followed by `n` three-valued discs. -/
def fs_term_ternary (n : Nat) : field_set :=
  field_set.of_tables
    (⟨1, 0, 0⟩ :: (List.range n).map fun i => ⟨2, 1 + i / 32, 2 * (i % 32)⟩)
    [⟨0, 1, 2⟩] [] (List.replicate n ⟨3⟩) 0

/-- Routines that leave every slot of their range as they found it; they stand
for the external sampler and enumerator where only sizes and counts matter. -/
def idle_routines : neighborhood_routines :=
  ⟨fun _ _ _ _ _ _ _ x => x, fun _ _ _ _ x => x⟩

/-- Layout of a single continuous knob whose spec has the given radius and
likely queue (and total space 1, as `contin_spec(start, 0)` sets it). -/
def fs_contin (space : contin_t) (likely : List contin_t) : field_set :=
  field_set.of_tables [] [] [⟨space, 1, likely⟩] [] 0

/-- A generator whose every draw is `3/4` and every sign `+1`. -/
def rng_three_quarters : RandGen := ⟨fun _ => 3 / 4, fun _ => 1, 0⟩

/-- A generator whose every draw is `1/2` and every sign `-1`. -/
def rng_half : RandGen := ⟨fun _ => 1 / 2, fun _ => -1, 0⟩

/-- Layout of two discs of multiplicity `2 ^ 32 - 1`, 32 bits each, followed by
a disc of multiplicity 1, whose field is 0 bits wide. -/
def fs_unit_disc : field_set :=
  field_set.of_tables [⟨32, 0, 0⟩, ⟨32, 0, 32⟩, ⟨0, 1, 0⟩] [] []
    [⟨2 ^ 32 - 1⟩, ⟨2 ^ 32 - 1⟩, ⟨1⟩] 0

/-- Layout of 22 five-valued discs of three bits each, laid one after the
other from bit 0 of word 0. -/
def fs_fives : field_set :=
  field_set.of_tables ((List.range 22).map fun i => ⟨3, 0, 3 * i⟩) [] []
    (List.replicate 22 ⟨5⟩) 0

/-! ## Auxiliary definitions for the statements -/

/-- The recursion of the counting code on exact integers: `ms` are the
multiplicities of the disc zone still ahead, `k` the number of boolean fields. -/
def zone_count : List Nat → Nat → Nat → Nat
  | _, _, 0 => 1
  | [], k, d + 1 => Nat.choose k (d + 1)
  | m :: ms, k, d + 1 => zone_count ms k (d + 1) + (m - 1) * zone_count ms k d

/-- The coefficient `C(n, k)` is one of those the floating-point routine is
shown to return exactly: the four cases it answers without a division, and, up
to `max_factorial`, every coefficient below `2132379668729310 = C(57, 21)`, the
smallest one that comes back inexact. -/
def exact_range (n k : Nat) : Prop :=
  k = 0 ∨ k = n ∨ k = 1 ∨ k + 1 = n ∨ (n ≤ 170 ∧ Nat.choose n k < 2132379668729310)

instance exact_range.decidable (n k : Nat) : Decidable (exact_range n k) := by
  unfold exact_range
  exact inferInstance

/-- Every binomial coefficient `C(k, j)` that the counting recursion can ask of
the bit zone at distance `d` behind `n` disc fields (`d - n ≤ j ≤ d`, `j ≤ k`)
is in the exact range. -/
def exact_binomials (k d n : Nat) : Prop :=
  ∀ j, j ≤ d → d ≤ j + n → j ≤ k → exact_range k j

/-- The floating-point routine returns `C(n, k)` itself. -/
def binomial_matches (n k : Nat) : Bool :=
  match binomial_coefficient_double n k with
  | .ok v => decide (v = Nat.choose n k)
  | .error _ => false

/-- The floating-point routine returns every coefficient `C(n, k)` of row `n`
that is below `B` exactly. -/
def exact_below (B n : Nat) : Bool :=
  (List.range (n + 1)).all fun k => decide (Nat.choose n k < B → binomial_matches n k = true)

/-- The same for the `len` rows from row `lo` on. -/
def exact_below_rows (B lo len : Nat) : Bool :=
  (List.range len).all fun i => exact_below B (lo + i)

/-- Shape of a layout: `T` term raw fields, then one disc field for each
multiplicity of `ms`, then `k` boolean fields; the raw index fits `unsigned`. -/
structure has_zones (fs : field_set) (T : Nat) (ms : List Nat) (k : Nat) : Prop where
  end_term : fs.end_term_raw_idx = T
  begin_disc : fs.begin_disc_raw_idx = T
  end_disc : fs.end_disc_raw_idx = T + ms.length
  begin_bit : fs.begin_bit_raw_idx = T + ms.length
  end_bit : fs.end_bit_raw_idx = T + ms.length + k
  disc : ∃ tail, fs._disc = ms.map disc_spec.mk ++ tail
  small : T + ms.length + k < 2 ^ 32

/-- The raw field at index `i` of a layout, as `get_raw` and `set_raw` look it
up. -/
def field_at (fs : field_set) (i : Nat) : field := fs._fields.getD i ⟨0, 0, 0⟩

/-- Two fields do not overlap: they lie in different words or their bit spans
`[minor_offset, minor_offset + width)` are disjoint. -/
def fields_disjoint (f g : field) : Prop :=
  f.major_offset ≠ g.major_offset ∨ f.minor_offset + f.width ≤ g.minor_offset ∨
    g.minor_offset + g.width ≤ f.minor_offset

instance fields_disjoint.decidable (f g : field) : Decidable (fields_disjoint f g) := by
  unfold fields_disjoint
  exact inferInstance

/-- A layout whose raw fields each lie within one 64-bit storage word, are
narrower than the word, and do not overlap one another. -/
def well_packed (fs : field_set) : Prop :=
  (∀ i, i < fs.raw_size →
    (field_at fs i).minor_offset + (field_at fs i).width ≤ 64 ∧ (field_at fs i).width < 64) ∧
  ∀ i, i < fs.raw_size → ∀ j, j < fs.raw_size → i ≠ j →
    fields_disjoint (field_at fs i) (field_at fs j)

instance well_packed.decidable (fs : field_set) : Decidable (well_packed fs) := by
  unfold well_packed
  exact inferInstance

/-- The packed words `inst` hold the word of every raw field of the layout. -/
def covers (fs : field_set) (inst : packed_vec) : Prop :=
  ∀ i, i < fs.raw_size → (field_at fs i).major_offset < inst.length

instance covers.decidable (fs : field_set) (inst : packed_vec) : Decidable (covers fs inst) := by
  unfold covers
  exact inferInstance

/-- Number of raw indices at which two packed vectors hold different raw
values. -/
def differing_fields (fs : field_set) (a b : packed_vec) : Nat :=
  (List.range fs.raw_size).countP fun i => decide (fs.get_raw a i ≠ fs.get_raw b i)

/-- The word update of `set_raw`,
`word ^ ((word ^ (v << minor)) & (mask << minor))`, with the mask given; each
shift is reduced to the 64 bits of `packed_t`. -/
def branchless_update (word v minor mask : Nat) : Nat :=
  word ^^^ ((word ^^^ ((v <<< minor) % 2 ^ 64)) &&& ((mask <<< minor) % 2 ^ 64))

/-- The word update as the spec words it, `(word & ~(mask << o)) | (v << o)`:
clear the field's bit span in the 64-bit word, then OR the new value in. -/
def clear_or_update (word v o mask : Nat) : Nat :=
  (word &&& (2 ^ 64 - 1 - (mask <<< o) % 2 ^ 64)) ||| ((v <<< o) % 2 ^ 64)

/-- The same layout with its term fields removed: the raw table loses its
first `end_term_raw_idx` fields and the term table is empty. -/
def field_set.without_term (fs : field_set) : field_set :=
  field_set.of_tables (fs._fields.drop fs.end_term_raw_idx) [] fs._contin fs._disc fs._nbool

/-- A bound on the call frames the counting recursion still needs from
`starting_index`: inside the term zone the index can only wrap downwards, and
inside the disc zone it moves up by one. -/
def frames_ahead (fs : field_set) (s : Nat) : Nat :=
  if s < fs.end_term_raw_idx then fs.end_disc_raw_idx + 1 + s else fs.end_disc_raw_idx - s

/-- The fields at which a run of stores of the given widths, started at `c`,
puts its values. -/
def stores_fields : List Nat → pack_cursor → List field
  | [], _ => []
  | w :: ws, c => ⟨w, c.out, c.offset⟩ :: stores_fields ws (c.advance w)

/-- The position at which a run of stores of the given widths, started at `c`,
ends. -/
def stores_end : List Nat → pack_cursor → pack_cursor
  | [], c => c
  | w :: ws, c => stores_end ws (c.advance w)

/-- The padding `total_width - depth * width` that `pack` adds after a term
spec. -/
def term_pad (nbits_to_pack : Nat → Nat) (o : term_spec) : Nat :=
  to_size_t
    (to_size_t ((to_size_t (to_size_t (nbits_to_pack o.branching * o.depth) + 2 ^ 64 - 1)
        / bits_per_packed_t + 1) * bits_per_packed_t)
      + 2 ^ 64 - to_size_t (o.depth * nbits_to_pack o.branching))

/-- The fields at which the loop of `pack` over the term specs, started at `c`,
puts its values. -/
def terms_fields (nbits_to_pack : Nat → Nat) : List term_spec → pack_cursor → List field
  | [], _ => []
  | o :: os, c =>
    stores_fields (List.replicate o.depth (nbits_to_pack o.branching)) c ++
      terms_fields nbits_to_pack os
        ((stores_end (List.replicate o.depth (nbits_to_pack o.branching)) c).advance
          (term_pad nbits_to_pack o))

/-- The position at which the loop of `pack` over the term specs ends. -/
def terms_end (nbits_to_pack : Nat → Nat) : List term_spec → pack_cursor → pack_cursor
  | [], c => c
  | o :: os, c =>
    terms_end nbits_to_pack os
      ((stores_end (List.replicate o.depth (nbits_to_pack o.branching)) c).advance
        (term_pad nbits_to_pack o))

/-- The places where `pack` walks: the `i`-th entry is the position at which
`pack`, started on word 0, stores the `i`-th value. -/
def pack_fields (nbits_to_pack : Nat → Nat) (term : List term_spec) (disc : List disc_spec) :
    List field :=
  terms_fields nbits_to_pack term ⟨0, 0⟩ ++
    stores_fields (disc.map fun d => nbits_to_pack d.multy)
      (terms_end nbits_to_pack term ⟨0, 0⟩)

/-- Modelled from the spec: the raw fields that `build_spec` appends for a run
of slots of the given widths ("Build appends N raw fields (disc) or a
width×depth group (term) to the raw table"), laid one after the other from bit
position `base` of the packed words: the slot at bit position `b` is the field
`{width, b / 64, b % 64}` ("width bits, word index, bit offset within word"). -/
def build_fields : List Nat → Nat → List field
  | [], _ => []
  | w :: ws, base =>
    ⟨w, base / bits_per_packed_t, base % bits_per_packed_t⟩ :: build_fields ws (base + w)

/-- Modelled from the spec: the span of a term spec, its `depth` positions of
`width` bits each, "padded to a whole storage-word boundary". -/
def term_span (nbits_to_pack : Nat → Nat) (o : term_spec) : Nat :=
  (nbits_to_pack o.branching * o.depth + bits_per_packed_t - 1) / bits_per_packed_t
    * bits_per_packed_t

/-- Modelled from the spec: the raw fields of the term specs, each spec a group
of `depth` fields followed by its padding, from bit position `base`. -/
def build_term_fields (nbits_to_pack : Nat → Nat) : List term_spec → Nat → List field
  | [], _ => []
  | o :: os, base =>
    build_fields (List.replicate o.depth (nbits_to_pack o.branching)) base ++
      build_term_fields nbits_to_pack os (base + term_span nbits_to_pack o)

/-- Modelled from the spec: the raw table of a layout built from the given term
and disc specs: the term groups from bit 0, then one field per disc spec. -/
def layout_fields (nbits_to_pack : Nat → Nat) (term : List term_spec) (disc : List disc_spec) :
    List field :=
  build_term_fields nbits_to_pack term 0 ++
    build_fields (disc.map fun d => nbits_to_pack d.multy)
      ((term.map (term_span nbits_to_pack)).sum)

/-- A run of stores of the given widths, as both loops of `pack` make them. -/
def pack_stores : List Nat → pack_state → Except fault pack_state
  | [], s => .ok s
  | w :: ws, s =>
    match s.store with
    | .error e => .error e
    | .ok s1 => pack_stores ws { s1 with cur := s1.cur.advance w }

/-- Bit `k` of word `m` is put there by one of the values, each stored at its
field. -/
def packed_bit (fv : List (field × Nat)) (m k : Nat) : Prop :=
  ∃ p ∈ fv, p.1.major_offset = m ∧ p.1.minor_offset ≤ k ∧ k < 64 ∧
    p.2.testBit (k - p.1.minor_offset) = true

/-- Modelled from the spec: the width rule "disc width = ceil(log2
multiplicity)" and "term per-position width = ceil(log2 branching)", for values
up to `2 ^ 64`. -/
def ceil_log2 (m : Nat) : Nat := ((List.range 65).find? fun e => decide (m ≤ 2 ^ e)).getD 64

/-- A bit cursor whose mask selects a single bit of its 64-bit word. -/
def single_bit (c : bit_iterator_base) : Prop := ∃ k, k < 64 ∧ c._mask = 2 ^ k

instance single_bit.decidable (c : bit_iterator_base) : Decidable (single_bit c) := by
  unfold single_bit
  exact inferInstance

/-- The bit position a cursor addresses: word index times bits per word, plus
the index of the bit within the word. -/
def bit_position (c : bit_iterator_base) : Int :=
  bits_per_packed_t * c._it + integer_log2 c._mask

end moses

/-! ## Theorems -/

namespace moses

/-! ### Rounding to double -/

theorem double_exponent_aux_of_lt (fuel x e : Nat) (h : x / 2 ^ e < 2 ^ 53) :
    double_exponent_aux fuel x e = e := by
  cases fuel with
  | zero => rfl
  | succ n => rw [double_exponent_aux, if_pos h]

theorem round_to_double_of_lt (x : Nat) (h : x < 2 ^ 53) : round_to_double x = x := by
  have he : double_exponent_aux x x 0 = 0 := double_exponent_aux_of_lt x x 0 (by simpa using h)
  simp [round_to_double, he, Nat.mod_one]

/-! ### Distance zero -/

/-- C3: at distance 0 `count_neighborhood_size` returns exactly 1, for every
layout (term fields and continuous knobs included), every instance and every
`max_count`, zero included; one call frame of fuel is all it needs. -/
theorem count_neighborhood_size_dist_zero (fuel : Nat) (fs : field_set) (inst : Instance)
    (max_count : Nat) : count_neighborhood_size (fuel + 1) fs inst 0 max_count = .ok 1 := by
  simp [count_neighborhood_size, count_neighborhood_size_from_index,
    count_contin_neighborhood, to_size_t]

/-! ### Independence of the instance -/

theorem multy_begin_disc_advance (fs : field_set) (inst1 inst2 : Instance) (n : Nat) :
    ((fs.begin_disc inst1).advance n).multy = ((fs.begin_disc inst2).advance n).multy := rfl

theorem count_from_index_inst_irrelevant (fuel : Nat) (fs : field_set) (inst1 inst2 : Instance) :
    ∀ dist starting_index max_count : Nat,
      count_neighborhood_size_from_index fuel fs inst1 dist starting_index max_count =
        count_neighborhood_size_from_index fuel fs inst2 dist starting_index max_count := by
  induction fuel with
  | zero => intro dist s max_count; rfl
  | succ n ih =>
    intro dist s max_count
    simp only [count_neighborhood_size_from_index]
    rw [ih dist, ih dist, ih (dist - 1), multy_begin_disc_advance fs inst1 inst2]

/-- C5: the result of `count_neighborhood_size` is the same for any two
instances, whatever their contents, and equals the result of the overload that
takes no instance: it depends on the layout, the distance and the budget only. -/
theorem count_neighborhood_size_inst_irrelevant (fuel : Nat) (fs : field_set)
    (inst1 inst2 : Instance) (dist max_count : Nat) :
    count_neighborhood_size fuel fs inst1 dist max_count =
        count_neighborhood_size fuel fs inst2 dist max_count ∧
      count_neighborhood_size_fs fuel fs dist max_count =
        count_neighborhood_size fuel fs inst1 dist max_count := by
  constructor
  · simp only [count_neighborhood_size]
    rw [count_from_index_inst_irrelevant fuel fs inst1 inst2]
  · simp only [count_neighborhood_size_fs, count_neighborhood_size]
    rw [count_from_index_inst_irrelevant fuel fs _ inst1]


theorem length_filter_flatMap_cons (l : List Nat) (A : List (List Nat)) (c d : Nat)
    (cs : List Nat) :
    ((l.flatMap fun v => A.map fun a => v :: a).filter
        fun a => raw_distance (c :: cs) a = d).length =
      (l.map fun v =>
        (A.filter fun a => (if c = v then 0 else 1) + raw_distance cs a = d).length).sum := by
  induction l with
  | nil => rfl
  | cons v l ih =>
    rw [List.flatMap_cons, List.filter_append, List.length_append, ih, List.map_cons,
      List.sum_cons, List.filter_map, List.length_map]
    rfl

theorem sum_map_range_ite (X Y : Nat) :
    ∀ m c : Nat, ((List.range m).map fun v => if c = v then X else Y).sum =
      if c < m then X + (m - 1) * Y else m * Y := by
  intro m c
  induction m with
  | zero => simp
  | succ m ih =>
    rw [List.range_succ, List.map_append, List.sum_append, ih]
    by_cases h1 : c < m
    · have h2 : c ≠ m := by omega
      have h3 : c < m + 1 := by omega
      simp only [h1, h2, h3, if_true, if_false, List.map_cons, List.map_nil, List.sum_cons,
        List.sum_nil, Nat.add_sub_cancel]
      have : m = (m - 1) + 1 := by omega
      nth_rewrite 2 [this]
      ring
    · by_cases h2 : c = m
      · subst h2
        simp [Nat.add_comm]
      · have h3 : ¬ c < m + 1 := by omega
        simp only [h1, h2, h3, if_false, List.map_cons, List.map_nil, List.sum_cons,
          List.sum_nil]
        ring


theorem raw_distance_nil_right (cs : List Nat) : raw_distance cs [] = 0 := by
  cases cs <;> rfl

theorem neighborhood_size_nil (cs : List Nat) (d : Nat) :
    neighborhood_size [] cs d = if d = 0 then 1 else 0 := by
  simp only [neighborhood_size, assignments, List.filter_cons, raw_distance_nil_right]
  by_cases h : d = 0
  · subst h; simp
  · have h2 : ¬ (0 = d) := fun e => h e.symm
    simp [h, h2]

theorem neighborhood_size_cons_succ (m c d : Nat) (ms cs : List Nat) (hc : c < m) :
    neighborhood_size (m :: ms) (c :: cs) (d + 1) =
      neighborhood_size ms cs (d + 1) + (m - 1) * neighborhood_size ms cs d := by
  have hfun : (fun v => ((assignments ms).filter fun a =>
        (if c = v then 0 else 1) + raw_distance cs a = d + 1).length) =
      fun v => if c = v then neighborhood_size ms cs (d + 1) else neighborhood_size ms cs d := by
    funext v
    by_cases h : c = v
    · simp [h, neighborhood_size]
    · simp [h, neighborhood_size, Nat.add_comm 1]
  unfold neighborhood_size at *
  rw [assignments, length_filter_flatMap_cons, hfun, sum_map_range_ite, if_pos hc]

theorem neighborhood_size_cons_zero (m c : Nat) (ms cs : List Nat) (hc : c < m) :
    neighborhood_size (m :: ms) (c :: cs) 0 = neighborhood_size ms cs 0 := by
  have hfun : (fun v => ((assignments ms).filter fun a =>
        (if c = v then 0 else 1) + raw_distance cs a = 0).length) =
      fun v => if c = v then neighborhood_size ms cs 0 else 0 := by
    funext v
    by_cases h : c = v
    · simp [h, neighborhood_size]
    · simp [h]
  unfold neighborhood_size at *
  rw [assignments, length_filter_flatMap_cons, hfun, sum_map_range_ite, if_pos hc]
  simp

theorem neighborhood_size_zero (ms cs : List Nat) (h : legal_assignment ms cs) :
    neighborhood_size ms cs 0 = 1 := by
  induction ms generalizing cs with
  | nil => simp [neighborhood_size_nil]
  | cons m ms ih =>
    cases cs with
    | nil => exact absurd h (by simp [legal_assignment])
    | cons c cs =>
      rw [neighborhood_size_cons_zero m c ms cs h.1]
      exact ih cs h.2

theorem neighborhood_size_bits (k : Nat) :
    ∀ (cs : List Nat) (d : Nat), legal_assignment (List.replicate k 2) cs →
      neighborhood_size (List.replicate k 2) cs d = Nat.choose k d := by
  induction k with
  | zero =>
    intro cs d _
    rw [List.replicate_zero, neighborhood_size_nil]
    cases d <;> simp
  | succ k ih =>
    intro cs d h
    cases cs with
    | nil => exact absurd h (by simp [legal_assignment, List.replicate_succ])
    | cons c cs =>
      rw [List.replicate_succ] at h ⊢
      cases d with
      | zero =>
        rw [neighborhood_size_cons_zero 2 c _ cs h.1, ih cs 0 h.2]
        simp
      | succ d =>
        rw [neighborhood_size_cons_succ 2 c d _ cs h.1, ih cs (d + 1) h.2, ih cs d h.2,
          Nat.choose_succ_succ]
        simp [Nat.add_comm]

theorem neighborhood_size_eq_zone_count (ms : List Nat) (k : Nat) :
    ∀ (cs : List Nat) (d : Nat), legal_assignment (ms ++ List.replicate k 2) cs →
      neighborhood_size (ms ++ List.replicate k 2) cs d = zone_count ms k d := by
  induction ms with
  | nil =>
    intro cs d h
    rw [List.nil_append] at h ⊢
    rw [neighborhood_size_bits k cs d h]
    cases d <;> simp [zone_count]
  | cons m ms ih =>
    intro cs d h
    cases cs with
    | nil => exact absurd h (by simp [legal_assignment])
    | cons c cs =>
      rw [List.cons_append] at h ⊢
      cases d with
      | zero =>
        rw [neighborhood_size_cons_zero m c _ cs h.1, ih cs 0 h.2]
        simp [zone_count]
      | succ d =>
        rw [neighborhood_size_cons_succ m c d _ cs h.1, ih cs (d + 1) h.2, ih cs d h.2]
        simp [zone_count]


set_option maxRecDepth 1000000 in
set_option maxHeartbeats 4000000 in
/-- Every coefficient below `C(57, 21)` of the rows 0 to 29 comes back exact. -/
theorem exact_below_rows_0 : exact_below_rows 2132379668729310 0 30 = true := by
  decide

set_option maxRecDepth 1000000 in
set_option maxHeartbeats 4000000 in
/-- Every coefficient below `C(57, 21)` of the rows 30 to 44 comes back exact. -/
theorem exact_below_rows_30 : exact_below_rows 2132379668729310 30 15 = true := by
  decide

set_option maxRecDepth 1000000 in
set_option maxHeartbeats 4000000 in
/-- Every coefficient below `C(57, 21)` of the rows 45 to 57 comes back exact. -/
theorem exact_below_rows_45 : exact_below_rows 2132379668729310 45 13 = true := by
  decide

set_option maxRecDepth 1000000 in
set_option maxHeartbeats 4000000 in
/-- Every coefficient below `C(57, 21)` of the rows 58 to 72 comes back exact. -/
theorem exact_below_rows_58 : exact_below_rows 2132379668729310 58 15 = true := by
  decide

set_option maxRecDepth 1000000 in
set_option maxHeartbeats 4000000 in
/-- Every coefficient below `C(57, 21)` of the rows 73 to 87 comes back exact. -/
theorem exact_below_rows_73 : exact_below_rows 2132379668729310 73 15 = true := by
  decide

set_option maxRecDepth 1000000 in
set_option maxHeartbeats 4000000 in
/-- Every coefficient below `C(57, 21)` of the rows 88 to 102 comes back exact. -/
theorem exact_below_rows_88 : exact_below_rows 2132379668729310 88 15 = true := by
  decide

set_option maxRecDepth 1000000 in
set_option maxHeartbeats 4000000 in
/-- Every coefficient below `C(57, 21)` of the rows 103 to 117 comes back exact. -/
theorem exact_below_rows_103 : exact_below_rows 2132379668729310 103 15 = true := by
  decide

set_option maxRecDepth 1000000 in
set_option maxHeartbeats 4000000 in
/-- Every coefficient below `C(57, 21)` of the rows 118 to 137 comes back exact. -/
theorem exact_below_rows_118 : exact_below_rows 2132379668729310 118 20 = true := by
  decide

set_option maxRecDepth 1000000 in
set_option maxHeartbeats 4000000 in
/-- Every coefficient below `C(57, 21)` of the rows 138 to 154 comes back exact. -/
theorem exact_below_rows_138 : exact_below_rows 2132379668729310 138 17 = true := by
  decide

set_option maxRecDepth 1000000 in
set_option maxHeartbeats 4000000 in
/-- Every coefficient below `C(57, 21)` of the rows 155 to 170 comes back exact. -/
theorem exact_below_rows_155 : exact_below_rows 2132379668729310 155 16 = true := by
  decide

/-- Every coefficient below `C(57, 21)` of the rows up to `max_factorial` comes
back exact: checked row by row. -/
theorem exact_below_row (n : Nat) (hn : n < 171) : exact_below 2132379668729310 n = true := by
  have pick : ∀ lo len, exact_below_rows 2132379668729310 lo len = true → lo ≤ n →
      n < lo + len → exact_below 2132379668729310 n = true := by
    intro lo len h h1 h2
    unfold exact_below_rows at h
    rw [List.all_eq_true] at h
    have h3 := h (n - lo) (List.mem_range.2 (by omega))
    have h4 : lo + (n - lo) = n := by omega
    rw [h4] at h3
    exact h3
  by_cases h30 : n < 30
  · exact pick 0 30 exact_below_rows_0 (by omega) (by omega)
  by_cases h45 : n < 45
  · exact pick 30 15 exact_below_rows_30 (by omega) (by omega)
  by_cases h58 : n < 58
  · exact pick 45 13 exact_below_rows_45 (by omega) (by omega)
  by_cases h73 : n < 73
  · exact pick 58 15 exact_below_rows_58 (by omega) (by omega)
  by_cases h88 : n < 88
  · exact pick 73 15 exact_below_rows_73 (by omega) (by omega)
  by_cases h103 : n < 103
  · exact pick 88 15 exact_below_rows_88 (by omega) (by omega)
  by_cases h118 : n < 118
  · exact pick 103 15 exact_below_rows_103 (by omega) (by omega)
  by_cases h138 : n < 138
  · exact pick 118 20 exact_below_rows_118 (by omega) (by omega)
  by_cases h155 : n < 155
  · exact pick 138 17 exact_below_rows_138 (by omega) (by omega)
  exact pick 155 16 exact_below_rows_155 (by omega) (by omega)

theorem binomial_coefficient_double_exact (n k : Nat) (hk : k ≤ n) (h : exact_range n k) :
    binomial_coefficient_double n k = .ok (Nat.choose n k) := by
  have h1 : ¬ k > n := by omega
  by_cases c1 : k = 0 ∨ k = n
  · unfold binomial_coefficient_double
    rw [if_neg h1, if_pos c1]
    rcases c1 with rfl | rfl
    · rw [Nat.choose_zero_right]
    · rw [Nat.choose_self]
  · by_cases c2 : k = 1 ∨ k = n - 1
    · unfold binomial_coefficient_double
      rw [if_neg h1, if_neg c1, if_pos c2]
      rcases c2 with rfl | c2
      · rw [Nat.choose_one_right]
      · have hn : k + 1 = n := by omega
        subst hn
        rw [Nat.choose_succ_self_right]
    · have hr : n ≤ 170 ∧ Nat.choose n k < 2132379668729310 := by
        rcases h with h | h | h | h | h
        · exact absurd (Or.inl h) c1
        · exact absurd (Or.inr h) c1
        · exact absurd (Or.inl h) c2
        · exact absurd (Or.inr (by omega)) c2
        · exact h
      have hrow := exact_below_row n (by omega)
      unfold exact_below at hrow
      rw [List.all_eq_true] at hrow
      have hm := hrow k (List.mem_range.2 (by omega))
      rw [decide_eq_true_eq] at hm
      have hm2 := hm hr.2
      unfold binomial_matches at hm2
      cases hb : binomial_coefficient_double n k with
      | error e =>
        rw [hb] at hm2
        cases hm2
      | ok v =>
        rw [hb] at hm2
        simp only [decide_eq_true_eq] at hm2
        rw [hm2]

theorem choose_le_of_exact_range (n k : Nat) (hn : n ≤ SIZE_MAX) (h : exact_range n k) :
    Nat.choose n k ≤ SIZE_MAX := by
  rcases h with rfl | rfl | rfl | h | h
  · rw [Nat.choose_zero_right]
    decide
  · rw [Nat.choose_self]
    decide
  · rw [Nat.choose_one_right]
    exact hn
  · subst h
    rw [Nat.choose_succ_self_right]
    exact hn
  · exact le_of_lt (lt_trans h.2 (by decide))

theorem safe_binomial_coefficient_exact (n k : Nat) (hk : k ≤ n) (hn : n ≤ SIZE_MAX)
    (h : exact_range n k) : safe_binomial_coefficient n k = .ok (Nat.choose n k) := by
  unfold safe_binomial_coefficient
  rw [binomial_coefficient_double_exact n k hk h]
  simp only [numeric_cast_size_t, if_pos (choose_le_of_exact_range n k hn h)]

theorem get?_length_append_cons (pre : List disc_spec) (a : disc_spec) (post : List disc_spec) :
    (pre ++ a :: post).get? pre.length = some a := by
  induction pre with
  | nil => rfl
  | cons b pre ih => simpa using ih

theorem multy_at_disc (fs : field_set) (inst : Instance) (T k m : Nat) (pre rest : List Nat)
    (hz : has_zones fs T (pre ++ m :: rest) k) :
    ((fs.begin_disc inst).advance (T + pre.length - fs.begin_disc_raw_idx)).multy = .ok m := by
  obtain ⟨tail, htail⟩ := hz.disc
  have hb := hz.begin_disc
  have he := hz.end_disc
  have hlen : (pre ++ m :: rest).length = pre.length + rest.length + 1 := by simp; omega
  have hget : fs._disc.get? pre.length = some ⟨m⟩ := by
    rw [htail, List.map_append, List.map_cons, List.append_assoc, List.cons_append]
    have := get?_length_append_cons (pre.map disc_spec.mk) ⟨m⟩ (rest.map disc_spec.mk ++ tail)
    simpa using this
  simp only [const_disc_iterator.multy, const_disc_iterator.advance, field_set.begin_disc,
    field_set.raw_to_disc_idx, field_set.disc_and_bit, hb, he, hlen]
  have h1 : T + (T + pre.length - T) ≥ T ∧ T + (T + pre.length - T) < T + (pre.length + rest.length + 1) := by
    omega
  have h2 : T + (T + pre.length - T) - T = pre.length := by omega
  simp only [h1, and_self, if_true, h2, hget]


theorem to_unsigned_of_lt (x : Nat) (h : x < 2 ^ 32) : to_unsigned x = x :=
  Nat.mod_eq_of_lt h

theorem to_size_t_of_lt (x : Nat) (h : x < 2 ^ 64) : to_size_t x = x :=
  Nat.mod_eq_of_lt h

theorem to_unsigned_multy_pred (m : Nat) (h1 : 1 ≤ m) (h2 : m < 2 ^ 32) :
    to_unsigned (m + 2 ^ 32 - 1) = m - 1 := by
  unfold to_unsigned
  omega

theorem count_from_index_zone (fs : field_set) (inst : Instance) (max_count T k : Nat) :
    ∀ (rest pre : List Nat), has_zones fs T (pre ++ rest) k →
      (∀ m ∈ rest, 1 ≤ m ∧ m < 2 ^ 32) →
      ∀ d fuel : Nat, exact_binomials k d rest.length →
        rest.length < fuel →
        ∃ r, count_neighborhood_size_from_index fuel fs inst d (T + pre.length) max_count
              = .ok r ∧
          (zone_count rest k d < 2 ^ 64 →
            r = zone_count rest k d ∨ (max_count < r ∧ r ≤ zone_count rest k d)) := by
  intro rest
  induction rest with
  | nil =>
    intro pre hz _ d fuel hbin hfuel
    obtain ⟨f, rfl⟩ : ∃ f, fuel = f + 1 := ⟨fuel - 1, by omega⟩
    cases d with
    | zero =>
      exact ⟨1, by simp [count_neighborhood_size_from_index], fun _ => Or.inl (by simp [zone_count])⟩
    | succ d =>
      have hsmall := hz.small
      have hlen : (pre ++ ([] : List Nat)).length = pre.length := by simp
      simp only [count_neighborhood_size_from_index, hz.end_term, hz.begin_disc, hz.end_disc,
        hz.begin_bit, hz.end_bit, field_set.begin_term_raw_idx, hlen]
      rw [hlen] at hsmall
      have c0 : ¬ (d + 1 = 0) := by omega
      have c1 : ¬ (0 ≤ T + pre.length ∧ T + pre.length < T) := by omega
      have c2 : ¬ (T ≤ T + pre.length ∧ T + pre.length < T + pre.length) := by omega
      have hrb : to_unsigned (T + pre.length + k - (T + pre.length)) = k := by
        rw [Nat.add_sub_cancel_left]
        exact to_unsigned_of_lt k (by omega)
      simp only [c0, c1, c2, if_false, hrb, zone_count]
      by_cases hk : T + pre.length ≤ T + pre.length ∧ T + pre.length < T + pre.length + k
      · simp only [hk, and_self, if_true]
        by_cases hdk : d + 1 ≤ k
        · rw [if_pos hdk, safe_binomial_coefficient_exact k (d + 1) hdk
            (by have : SIZE_MAX = 2 ^ 64 - 1 := rfl; omega) (hbin _ le_rfl (by simp) hdk)]
          exact ⟨_, rfl, fun _ => Or.inl rfl⟩
        · rw [if_neg hdk]
          exact ⟨0, rfl, fun _ => Or.inl (Nat.choose_eq_zero_of_lt (by omega)).symm⟩
      · rw [if_neg hk]
        exact ⟨0, rfl, fun _ => Or.inl (Nat.choose_eq_zero_of_lt (by omega)).symm⟩
  | cons m rest ih =>
    intro pre hz hm d fuel hbin hfuel
    obtain ⟨f, rfl⟩ : ∃ f, fuel = f + 1 := ⟨fuel - 1, by omega⟩
    cases d with
    | zero =>
      exact ⟨1, by simp [count_neighborhood_size_from_index], fun _ => Or.inl (by simp [zone_count])⟩
    | succ d =>
      have hsmall := hz.small
      have hlen : (pre ++ m :: rest).length = pre.length + rest.length + 1 := by simp; omega
      have hz2 : has_zones fs T ((pre ++ [m]) ++ rest) k := by simpa using hz
      have hm2 : ∀ x ∈ rest, 1 ≤ x ∧ x < 2 ^ 32 := fun x hx => hm x (List.mem_cons_of_mem _ hx)
      have hmm := hm m (List.mem_cons_self _ _)
      have hlen2 : T + (pre ++ [m]).length = T + pre.length + 1 := by simp; omega
      have hflen : rest.length < f := by simp at hfuel; omega
      have hb1 : exact_binomials k (d + 1) rest.length :=
        fun j h1 h2 h3 => hbin j h1 (by simp only [List.length_cons]; omega) h3
      have hb2 : exact_binomials k d rest.length :=
        fun j h1 h2 h3 => hbin j (by omega) (by simp only [List.length_cons]; omega) h3
      obtain ⟨r1, hr1, p1⟩ := ih (pre ++ [m]) hz2 hm2 (d + 1) f hb1 hflen
      obtain ⟨r2, hr2, p2⟩ := ih (pre ++ [m]) hz2 hm2 d f hb2 hflen
      rw [hlen2] at hr1 hr2
      rw [hlen] at hsmall
      have hmul := multy_at_disc fs inst T k m pre rest hz
      rw [hz.begin_disc] at hmul
      have c0 : ¬ (d + 1 = 0) := by omega
      have c1 : ¬ (0 ≤ T + pre.length ∧ T + pre.length < T) := by omega
      have c2 : T ≤ T + pre.length ∧ T + pre.length < T + (pre.length + rest.length + 1) := by
        omega
      have hs : to_unsigned (T + pre.length + 1) = T + pre.length + 1 :=
        to_unsigned_of_lt _ (by omega)
      simp only [count_neighborhood_size_from_index, hz.end_term, hz.begin_disc, hz.end_disc,
        field_set.begin_term_raw_idx, hlen, c0, c1, c2, if_false, if_true, and_self, hs, hr1,
        hmul, Nat.add_sub_cancel, hr2, to_unsigned_multy_pred m hmm.1 hmm.2]
      by_cases hover : r1 > max_count
      · rw [if_pos hover]
        refine ⟨r1, rfl, fun hE => Or.inr ⟨hover, ?_⟩⟩
        simp only [zone_count] at hE ⊢
        have hE1 : zone_count rest k (d + 1) < 2 ^ 64 := by omega
        rcases p1 hE1 with h | h <;> omega
      · rw [if_neg hover]
        refine ⟨_, rfl, fun hE => ?_⟩
        simp only [zone_count] at hE ⊢
        have hE1 : zone_count rest k (d + 1) < 2 ^ 64 := by omega
        have hr1e : r1 = zone_count rest k (d + 1) := by
          rcases p1 hE1 with h | h
          · exact h
          · omega
        by_cases hm1 : m = 1
        · subst hm1
          left
          simp only [Nat.sub_self, Nat.zero_mul, Nat.add_zero]
          rw [hr1e]
          exact to_size_t_of_lt _ hE1
        · have hpos : 0 < m - 1 := by omega
          have hle : zone_count rest k d ≤ (m - 1) * zone_count rest k d :=
            Nat.le_mul_of_pos_left _ hpos
          have hE2 : zone_count rest k d < 2 ^ 64 := by omega
          rcases p2 hE2 with h | h
          · left
            rw [hr1e, h]
            exact to_size_t_of_lt _ hE
          · right
            have hle2 : (m - 1) * r2 ≤ (m - 1) * zone_count rest k d :=
              Nat.mul_le_mul_left _ h.2
            have hle3 : r2 ≤ (m - 1) * r2 := Nat.le_mul_of_pos_left _ hpos
            rw [to_size_t_of_lt _ (by omega)]
            omega

theorem has_zones_of_tables (fields : List field) (term : List term_spec)
    (contin : List contin_spec) (ms : List Nat) (k : Nat) (tail : List disc_spec)
    (hlen : fields.length = (term.map term_spec.depth).sum + ms.length + k)
    (hsmall : fields.length < 2 ^ 32) :
    has_zones (field_set.of_tables fields term contin (ms.map disc_spec.mk ++ tail) k)
      (term.map term_spec.depth).sum ms k := by
  constructor
  · rfl
  · rfl
  · show fields.length - k = _
    omega
  · show fields.length - k = _
    omega
  · show fields.length = _
    omega
  · exact ⟨tail, rfl⟩
  · omega

theorem count_from_index_top (fs : field_set) (inst : Instance) (max_count T k : Nat)
    (ms : List Nat) (hz : has_zones fs T ms k) (hm : ∀ m ∈ ms, 1 ≤ m ∧ m < 2 ^ 32)
    (d fuel : Nat) (hbin : exact_binomials k d ms.length)
    (hfuel : ms.length + 1 < fuel) :
    ∃ r, count_neighborhood_size_from_index fuel fs inst d 0 max_count = .ok r ∧
      (zone_count ms k d < 2 ^ 64 →
        r = zone_count ms k d ∨ (max_count < r ∧ r ≤ zone_count ms k d)) := by
  by_cases hT : T = 0
  · subst hT
    have := count_from_index_zone fs inst max_count 0 k ms [] (by simpa using hz) hm d fuel hbin
      (by omega)
    simpa using this
  · obtain ⟨f, rfl⟩ : ∃ f, fuel = f + 1 := ⟨fuel - 1, by omega⟩
    cases d with
    | zero =>
      exact ⟨1, by simp [count_neighborhood_size_from_index],
        fun _ => Or.inl (by simp [zone_count])⟩
    | succ d =>
      have hsmall := hz.small
      have := count_from_index_zone fs inst max_count T k ms [] (by simpa using hz) hm (d + 1) f
        hbin (by omega)
      have hT2 : to_unsigned T = T := to_unsigned_of_lt T (by omega)
      have c1 : 0 ≤ 0 ∧ 0 < T := ⟨le_rfl, by omega⟩
      simp only [count_neighborhood_size_from_index, hz.end_term, field_set.begin_term_raw_idx,
        c1, and_self, if_true, Nat.zero_add, hT2]
      simpa using this

theorem double_exponent_aux_spec (fuel : Nat) :
    ∀ x e : Nat, x / 2 ^ (e + fuel) < 2 ^ 53 → (∀ e2, e2 < e → 2 ^ 53 ≤ x / 2 ^ e2) →
      x / 2 ^ double_exponent_aux fuel x e < 2 ^ 53 ∧
        ∀ e2, e2 < double_exponent_aux fuel x e → 2 ^ 53 ≤ x / 2 ^ e2 := by
  induction fuel with
  | zero => intro x e h1 h2; exact ⟨by simpa [double_exponent_aux] using h1, h2⟩
  | succ n ih =>
    intro x e h1 h2
    by_cases h : x / 2 ^ e < 2 ^ 53
    · rw [double_exponent_aux, if_pos h]
      exact ⟨h, h2⟩
    · rw [double_exponent_aux, if_neg h]
      refine ih x (e + 1) (by rwa [Nat.add_assoc, Nat.add_comm 1 n]) ?_
      intro e2 he2
      by_cases h3 : e2 < e
      · exact h2 e2 h3
      · have : e2 = e := by omega
        subst this
        omega

theorem double_exponent_spec (x : Nat) :
    x / 2 ^ double_exponent_aux x x 0 < 2 ^ 53 ∧
      ∀ e2, e2 < double_exponent_aux x x 0 → 2 ^ 53 ≤ x / 2 ^ e2 := by
  apply double_exponent_aux_spec
  · rw [Nat.zero_add, Nat.div_eq_of_lt (Nat.lt_two_pow x)]
    decide
  · intro e2 h; omega

theorem round_to_double_le (x : Nat) :
    round_to_double x ≤ (x / 2 ^ double_exponent_aux x x 0 + 1) * 2 ^ double_exponent_aux x x 0 := by
  simp only [round_to_double]
  have : x / 2 ^ double_exponent_aux x x 0 * 2 ^ double_exponent_aux x x 0 ≤
      (x / 2 ^ double_exponent_aux x x 0 + 1) * 2 ^ double_exponent_aux x x 0 :=
    Nat.mul_le_mul_right _ (Nat.le_succ _)
  split_ifs <;> first | exact this | exact le_rfl

theorem round_to_double_ge (x : Nat) :
    x / 2 ^ double_exponent_aux x x 0 * 2 ^ double_exponent_aux x x 0 ≤ round_to_double x := by
  simp only [round_to_double]
  have : x / 2 ^ double_exponent_aux x x 0 * 2 ^ double_exponent_aux x x 0 ≤
      (x / 2 ^ double_exponent_aux x x 0 + 1) * 2 ^ double_exponent_aux x x 0 :=
    Nat.mul_le_mul_right _ (Nat.le_succ _)
  split_ifs <;> first | exact this | exact le_rfl

/-- Rounding to double never takes a value below a power of two that it
reaches. -/
theorem round_to_double_ge_pow (x N : Nat) (h : 2 ^ N ≤ x) : 2 ^ N ≤ round_to_double x := by
  by_cases hx : x < 2 ^ 53
  · rw [round_to_double_of_lt x hx]; exact h
  · obtain ⟨h1, h2⟩ := double_exponent_spec x
    set e := double_exponent_aux x x 0 with he
    have hge := round_to_double_ge x
    rw [← he] at hge
    by_cases hN : N ≤ 52 + e
    · -- the significand is at least 2 ^ 52
      have he0 : e ≠ 0 := by
        intro h0
        rw [h0] at h1
        simp at h1
        omega
      have h3 := h2 (e - 1) (by omega)
      have hq : 2 ^ 52 ≤ x / 2 ^ e := by
        have : x / 2 ^ e = x / 2 ^ (e - 1) / 2 := by
          rw [Nat.div_div_eq_div_mul, ← pow_succ]
          congr 2
          omega
        rw [this]
        omega
      calc 2 ^ N ≤ 2 ^ (52 + e) := Nat.pow_le_pow_right (by decide) hN
        _ = 2 ^ 52 * 2 ^ e := pow_add 2 52 e
        _ ≤ x / 2 ^ e * 2 ^ e := Nat.mul_le_mul_right _ hq
        _ ≤ round_to_double x := hge
    · -- impossible: x / 2 ^ e would reach 2 ^ 53
      exfalso
      have h5 : 2 ^ (53 + e) ≤ x := le_trans (Nat.pow_le_pow_right (by decide) (by omega)) h
      have h6 : 2 ^ 53 ≤ x / 2 ^ e := by
        rw [Nat.le_div_iff_mul_le (Nat.two_pow_pos e), ← pow_add]
        exact h5
      omega


theorem DBL_MAX_eq : DBL_MAX = (2 ^ 53 - 1) * 2 ^ 971 := by
  unfold DBL_MAX
  rw [← pow_mul, ← pow_add]

theorem DBL_OVERFLOW_eq : DBL_OVERFLOW = 2 ^ 53 * 2 ^ 971 := by
  unfold DBL_OVERFLOW
  rw [← pow_mul, ← pow_add]

/-- A value up to the largest finite double rounds to a finite double. -/
theorem round_to_double_finite (x : Nat) (h : x ≤ DBL_MAX) : round_to_double x < DBL_OVERFLOW := by
  rw [DBL_MAX_eq] at h
  rw [DBL_OVERFLOW_eq]
  generalize (971 : Nat) = n at h ⊢
  have hP : 0 < 2 ^ n := Nat.two_pow_pos n
  obtain ⟨h1, h2⟩ := double_exponent_spec x
  have hle := round_to_double_le x
  have hqP : x / 2 ^ n ≤ 2 ^ 53 - 1 := by
    calc x / 2 ^ n ≤ (2 ^ 53 - 1) * 2 ^ n / 2 ^ n := Nat.div_le_div_right h
      _ = 2 ^ 53 - 1 := Nat.mul_div_cancel _ hP
  have he : double_exponent_aux x x 0 ≤ n := by
    by_contra hc
    have := h2 n (by omega)
    omega
  by_cases he2 : double_exponent_aux x x 0 < n
  · have hpow : 2 ^ double_exponent_aux x x 0 < 2 ^ n :=
      Nat.pow_lt_pow_right (by decide) he2
    calc round_to_double x
        ≤ (x / 2 ^ double_exponent_aux x x 0 + 1) * 2 ^ double_exponent_aux x x 0 := hle
      _ ≤ 2 ^ 53 * 2 ^ double_exponent_aux x x 0 := Nat.mul_le_mul_right _ (by omega)
      _ < 2 ^ 53 * 2 ^ n := Nat.mul_lt_mul_of_pos_left hpow (by decide)
  · have he3 : double_exponent_aux x x 0 = n := by omega
    rw [he3] at hle
    by_cases hq : x / 2 ^ n + 1 ≤ 2 ^ 53 - 1
    · calc round_to_double x ≤ (x / 2 ^ n + 1) * 2 ^ n := hle
        _ ≤ (2 ^ 53 - 1) * 2 ^ n := Nat.mul_le_mul_right _ hq
        _ < 2 ^ 53 * 2 ^ n := Nat.mul_lt_mul_of_pos_right (by decide) hP
    · have hq2 : x / 2 ^ n = 2 ^ 53 - 1 := by omega
      have hmod : x % 2 ^ n = 0 := by
        have hdm := Nat.div_add_mod x (2 ^ n)
        rw [hq2, Nat.mul_comm] at hdm
        omega
      have hval : round_to_double x = x / 2 ^ n * 2 ^ n := by
        simp only [round_to_double, he3, hmod]
        rw [if_pos (by omega)]
      rw [hval, hq2]
      exact Nat.mul_lt_mul_of_pos_right (by decide) hP

/-- C6 (failing input): four discs of multiplicity 65537 at distance 4.  The
true count is `65536 ^ 4 = 2 ^ 64`, one more than `size_t` can hold; the
recursion returns 0, a wrapped value that is not above the budget 100, and so
does `count_neighborhood_size`. -/
theorem count_from_index_wraps :
    neighborhood_size [65537, 65537, 65537, 65537] (raw_values fs_wrap (Instance.zero 2 0)) 4
        = 2 ^ 64 ∧
      count_neighborhood_size_from_index 5 fs_wrap (Instance.zero 2 0) 4 0 100 = .ok 0 ∧
      count_neighborhood_size 5 fs_wrap (Instance.zero 2 0) 4 100 = .ok 0 := by
  refine ⟨?_, rfl, rfl⟩
  have h := neighborhood_size_eq_zone_count [65537, 65537, 65537, 65537] 0
    (raw_values fs_wrap (Instance.zero 2 0)) 4 (by decide)
  rw [List.replicate_zero, List.append_nil] at h
  rw [h]
  decide

/-! ### The binomial coefficient -/

theorem safe_binomial_coefficient_of_double (a b x : Nat)
    (h : binomial_coefficient_double a b = .ok x) :
    safe_binomial_coefficient a b = .ok (if x ≤ SIZE_MAX then x else SIZE_MAX) := by
  simp only [safe_binomial_coefficient, h, numeric_cast_size_t]
  split_ifs <;> rfl

/-- C7 (amended): for every pair with `b ≤ a` whose coefficient is within the
finite range of `double`, `safe_binomial_coefficient(a, b)` returns a value
(at most the largest `size_t`) without raising. -/
theorem safe_binomial_coefficient_returns (a b : Nat) (hb : b ≤ a)
    (hfin : Nat.choose a b ≤ DBL_MAX) :
    ∃ v, safe_binomial_coefficient a b = .ok v ∧ v ≤ SIZE_MAX := by
  have h1 : ¬ b > a := by omega
  have h2 := round_to_double_finite _ hfin
  have h3 : ∃ x, binomial_coefficient_double a b = .ok x := by
    simp only [binomial_coefficient_double, if_neg h1, if_pos h2]
    split_ifs
    · exact ⟨_, rfl⟩
    · exact ⟨_, rfl⟩
    · exact ⟨_, rfl⟩
    · exact ⟨_, rfl⟩
  obtain ⟨x, hx⟩ := h3
  rw [safe_binomial_coefficient_of_double a b _ hx]
  refine ⟨_, rfl, ?_⟩
  split_ifs with h
  · exact h
  · exact le_rfl

/-- C7 (witness): `safe_binomial_coefficient(68, 34)` returns a value. -/
theorem safe_binomial_coefficient_returns_68_34 :
    ∃ v, safe_binomial_coefficient 68 34 = .ok v ∧ v ≤ SIZE_MAX :=
  safe_binomial_coefficient_returns 68 34 (by decide) (by decide)

/-- C7 (counterexample): with the second argument above the first the Boost
call reports a domain error, which `safe_binomial_coefficient` does not catch:
`safe_binomial_coefficient(0, 1)` raises instead of returning a value. -/
theorem safe_binomial_coefficient_raises :
    safe_binomial_coefficient 0 1 = .error .domain_error ∧
      ¬ ∃ v, safe_binomial_coefficient 0 1 = .ok v := by
  have h : safe_binomial_coefficient 0 1 = .error .domain_error := rfl
  refine ⟨h, ?_⟩
  rintro ⟨v, hv⟩
  rw [h] at hv
  cases hv

/-- Beyond the factorial table and away from the four special cases, the
Boost binomial is the double nearest to the coefficient, or an overflow error. -/
theorem binomial_coefficient_double_large (r d : Nat) (hr : max_factorial < r)
    (hd1 : 1 < d) (hd2 : d + 1 < r) :
    binomial_coefficient_double r d =
      if round_to_double (Nat.choose r d) < DBL_OVERFLOW
      then .ok (round_to_double (Nat.choose r d)) else .error .overflow_error := by
  simp only [binomial_coefficient_double]
  rw [if_neg (by omega), if_neg (by omega), if_neg (by omega), if_neg (by omega)]

/-- Saturation of `safe_binomial_coefficient` beyond the factorial table: a
coefficient above the largest `size_t` and within the finite range of `double`
yields exactly `SIZE_MAX`. -/
theorem safe_binomial_coefficient_saturates (r d : Nat) (hr : max_factorial < r)
    (hd1 : 1 < d) (hd2 : d + 1 < r)
    (hbig : SIZE_MAX < Nat.choose r d) (hfin : Nat.choose r d ≤ DBL_MAX) :
    safe_binomial_coefficient r d = .ok SIZE_MAX := by
  have h2 := round_to_double_finite _ hfin
  have h3 : binomial_coefficient_double r d = .ok (round_to_double (Nat.choose r d)) := by
    rw [binomial_coefficient_double_large r d hr hd1 hd2, if_pos h2]
  have h4 : 2 ^ 64 ≤ round_to_double (Nat.choose r d) :=
    round_to_double_ge_pow _ 64 (by have : SIZE_MAX = 2 ^ 64 - 1 := rfl; omega)
  have h5 : ¬ round_to_double (Nat.choose r d) ≤ SIZE_MAX := by
    have : SIZE_MAX = 2 ^ 64 - 1 := rfl
    omega
  rw [safe_binomial_coefficient_of_double r d _ h3, if_neg h5]

/-- Beyond the factorial table a coefficient that fits `size_t` is returned as
the double nearest to it, or as `SIZE_MAX` when that double is `2 ^ 64`: never
as a wrapped value. -/
theorem safe_binomial_coefficient_rounds (r d : Nat) (hr : max_factorial < r)
    (hd1 : 1 < d) (hd2 : d + 1 < r)
    (hfit : Nat.choose r d ≤ SIZE_MAX) :
    safe_binomial_coefficient r d =
      .ok (if round_to_double (Nat.choose r d) ≤ SIZE_MAX
        then round_to_double (Nat.choose r d) else SIZE_MAX) := by
  have hmax : SIZE_MAX ≤ DBL_MAX := by decide
  have h2 := round_to_double_finite _ (le_trans hfit hmax)
  have h3 : binomial_coefficient_double r d = .ok (round_to_double (Nat.choose r d)) := by
    rw [binomial_coefficient_double_large r d hr hd1 hd2, if_pos h2]
  exact safe_binomial_coefficient_of_double r d _ h3

theorem two_pow_le_central_choose (n : Nat) (h : 4 ≤ n) : 2 ^ n ≤ Nat.choose (2 * n) n := by
  have h1 := Nat.four_pow_lt_mul_centralBinom n h
  rw [Nat.centralBinom_eq_two_mul_choose] at h1
  have h2 : n < 2 ^ n := Nat.lt_two_pow n
  have h4 : (4 : Nat) ^ n = 2 ^ n * 2 ^ n := by
    rw [show (4 : Nat) = 2 * 2 from rfl, Nat.mul_pow]
  by_contra hc
  have hc2 : Nat.choose (2 * n) n < 2 ^ n := Nat.lt_of_not_le hc
  have h5 : n * Nat.choose (2 * n) n < 2 ^ n * 2 ^ n :=
    Nat.mul_lt_mul_of_le_of_lt (le_of_lt h2) hc2 (Nat.two_pow_pos n)
  rw [h4] at h1
  exact absurd h1 (Nat.lt_asymm h5)

theorem DBL_OVERFLOW_pow : DBL_OVERFLOW = 2 ^ 1024 := by
  unfold DBL_OVERFLOW
  rw [← pow_mul]

theorem safe_binomial_coefficient_raises_aux (N r d : Nat) (hN : DBL_OVERFLOW = 2 ^ N)
    (hr : max_factorial < r) (hd1 : 1 < d) (hd2 : d + 1 < r)
    (h : DBL_OVERFLOW ≤ Nat.choose r d) :
    safe_binomial_coefficient r d = .error .overflow_error := by
  rw [hN] at h
  have h2 := round_to_double_ge_pow _ N h
  rw [← hN] at h2
  have h3 : ¬ round_to_double (Nat.choose r d) < DBL_OVERFLOW := Nat.not_lt.mpr h2
  simp only [safe_binomial_coefficient, binomial_coefficient_double_large r d hr hd1 hd2,
    if_neg h3]

/-- A coefficient beyond the finite range of `double` makes the Boost call
report an overflow error, which `safe_binomial_coefficient` lets through. -/
theorem safe_binomial_coefficient_raises_of_ge (r d : Nat) (hr : max_factorial < r)
    (hd1 : 1 < d) (hd2 : d + 1 < r)
    (h : DBL_OVERFLOW ≤ Nat.choose r d) :
    safe_binomial_coefficient r d = .error .overflow_error :=
  safe_binomial_coefficient_raises_aux 1024 r d DBL_OVERFLOW_pow hr hd1 hd2 h

/-- C8 (failing input): `C(2048, 1024)` is above `2 ^ 1024`, hence above the
largest `size_t` and beyond the range of `double`; the Boost call reports an
overflow error from outside the `try` block, and
`safe_binomial_coefficient(2048, 1024)` raises instead of returning the
saturated maximum. -/
theorem safe_binomial_coefficient_overflow_error :
    SIZE_MAX < Nat.choose (2 * 1024) 1024 ∧
      safe_binomial_coefficient (2 * 1024) 1024 = .error .overflow_error := by
  have hge : DBL_OVERFLOW ≤ Nat.choose (2 * 1024) 1024 := by
    rw [DBL_OVERFLOW_pow]
    exact two_pow_le_central_choose 1024 (by decide)
  have hlt : SIZE_MAX < DBL_OVERFLOW := by decide
  exact ⟨lt_of_lt_of_le hlt hge,
    safe_binomial_coefficient_raises_of_ge (2 * 1024) 1024 (by decide) (by decide) (by decide)
      hge⟩

/-! ### The continuous factor -/

/-- C9 (failing input): 63 continuous knobs, distance 1, base count 2 and the
largest budget.  The budget converts to the double `2 ^ 64`, the test
`63 > 64 - 1` fails, so the call does not report over-budget; the product
`2 * 2 ^ 63` is above the budget and the shift wraps to 0.  Two boolean discs
with 63 continuous knobs reach this call from `count_neighborhood_size`. -/
theorem count_contin_neighborhood_wraps :
    exceeds_log2_budget 63 SIZE_MAX 2 = false ∧
      count_contin_neighborhood (fs_bits 0 63) 1 2 SIZE_MAX = .ok 0 ∧
      SIZE_MAX < 2 * 2 ^ (63 * 1) ∧
      count_neighborhood_size 1 (fs_bits 2 63) (Instance.zero 1 63) 1 SIZE_MAX = .ok 0 := by
  refine ⟨by decide, rfl, by decide, rfl⟩

/-- C10 (failing input): 65 continuous knobs, distance 1, base count 1 and the
largest budget.  The over-budget branch is taken and returns `max_count + 1`,
which wraps to 0 and is not greater than `max_count`; `count_neighborhood_size`
on one boolean disc and 65 continuous knobs returns that 0. -/
theorem count_contin_neighborhood_over_budget_wraps :
    exceeds_log2_budget 65 SIZE_MAX 1 = true ∧
      count_contin_neighborhood (fs_bits 0 65) 1 1 SIZE_MAX = .ok 0 ∧
      ¬ SIZE_MAX < 0 ∧
      count_neighborhood_size 1 (fs_bits 1 65) (Instance.zero 1 65) 1 SIZE_MAX = .ok 0 := by
  refine ⟨by decide, rfl, by decide, rfl⟩

/-! ### Raw fields: reading and writing one word -/

theorem testBit_field_mask (w k : Nat) :
    ((1 <<< w) % 2 ^ 64 - 1).testBit k = decide (k < w ∧ w < 64) := by
  by_cases h : w < 64
  · have h2 : (1 <<< w) % 2 ^ 64 = 2 ^ w := by
      rw [Nat.one_shiftLeft]
      exact Nat.mod_eq_of_lt (Nat.pow_lt_pow_right (by decide) h)
    rw [h2, Nat.testBit_two_pow_sub_one]
    simp [h]
  · have h2 : (1 <<< w) % 2 ^ 64 = 0 := by
      rw [Nat.one_shiftLeft]
      obtain ⟨c, rfl⟩ := Nat.exists_eq_add_of_le (show 64 ≤ w by omega)
      rw [pow_add]
      exact Nat.mul_mod_right _ _
    rw [h2]
    simp [h]

/-- Bit `k` of the word that `set_raw` writes: inside the field's span it is
the matching bit of `v`, everywhere else the old bit. -/
theorem testBit_set_word (w v k : Nat) (f : field) :
    (w ^^^ ((w ^^^ ((v <<< f.minor_offset) % 2 ^ 64)) &&&
        ((((1 <<< f.width) % 2 ^ 64 - 1) <<< f.minor_offset) % 2 ^ 64))).testBit k =
      if f.minor_offset ≤ k ∧ k < f.minor_offset + f.width ∧ k < 64 ∧ f.width < 64
      then v.testBit (k - f.minor_offset) else w.testBit k := by
  simp only [Nat.testBit_xor, Nat.testBit_and, Nat.testBit_mod_two_pow,
    Nat.testBit_shiftLeft, testBit_field_mask]
  by_cases h1 : f.minor_offset ≤ k <;> by_cases h2 : k < 64 <;>
    by_cases h3 : k - f.minor_offset < f.width <;> by_cases h4 : f.width < 64 <;>
    by_cases h5 : k < f.minor_offset + f.width <;>
    simp [h1, h2, h3, h4, h5] <;> omega

theorem testBit_get_word (w k : Nat) (f : field) :
    ((w >>> f.minor_offset) &&& ((1 <<< f.width) % 2 ^ 64 - 1)).testBit k =
      (decide (k < f.width ∧ f.width < 64) && w.testBit (f.minor_offset + k)) := by
  simp only [Nat.testBit_and, Nat.testBit_shiftRight, testBit_field_mask]
  rw [Bool.and_comm]

theorem get_raw_eq (fs : field_set) (inst : packed_vec) (i : Nat) :
    fs.get_raw inst i =
      (inst.getD (field_at fs i).major_offset 0 >>> (field_at fs i).minor_offset) &&&
        ((1 <<< (field_at fs i).width) % 2 ^ 64 - 1) := rfl

theorem set_raw_eq (fs : field_set) (inst : packed_vec) (i v : Nat) :
    fs.set_raw inst i v =
      inst.set (field_at fs i).major_offset
        (inst.getD (field_at fs i).major_offset 0 ^^^
          ((inst.getD (field_at fs i).major_offset 0 ^^^
              ((v <<< (field_at fs i).minor_offset) % 2 ^ 64)) &&&
            ((((1 <<< (field_at fs i).width) % 2 ^ 64 - 1) <<<
              (field_at fs i).minor_offset) % 2 ^ 64))) := rfl

theorem getD_set_same (l : List Nat) (m x : Nat) (h : m < l.length) :
    (l.set m x).getD m 0 = x := by
  simp [List.getD_eq_getElem?_getD, List.getElem?_set_self h]

theorem getD_set_other (l : List Nat) (m n x : Nat) (h : m ≠ n) :
    (l.set m x).getD n 0 = l.getD n 0 := by
  simp [List.getD_eq_getElem?_getD, List.getElem?_set_ne h]

theorem getD_set_beyond (l : List Nat) (m x : Nat) (h : l.length ≤ m) :
    l.set m x = l := List.set_eq_of_length_le h

/-- A raw value read by `get_raw` is below `2 ^ width`. -/
theorem get_raw_lt (fs : field_set) (inst : packed_vec) (i : Nat) :
    fs.get_raw inst i < 2 ^ (field_at fs i).width := by
  rw [get_raw_eq]
  apply Nat.lt_pow_two_of_testBit
  intro k hk
  rw [testBit_get_word]
  have : ¬ (k < (field_at fs i).width ∧ (field_at fs i).width < 64) := by omega
  simp [this]

/-- Reading a field back after `set_raw` wrote `v < 2 ^ width` into it. -/
theorem get_raw_set_raw_same (fs : field_set) (inst : packed_vec) (i v : Nat)
    (hw : (field_at fs i).width < 64)
    (hfit : (field_at fs i).minor_offset + (field_at fs i).width ≤ 64)
    (hmaj : (field_at fs i).major_offset < inst.length)
    (hv : v < 2 ^ (field_at fs i).width) :
    fs.get_raw (fs.set_raw inst i v) i = v := by
  rw [get_raw_eq, set_raw_eq, getD_set_same _ _ _ hmaj]
  apply Nat.eq_of_testBit_eq
  intro k
  rw [testBit_get_word, testBit_set_word]
  by_cases hk : k < (field_at fs i).width
  · have h1 : (field_at fs i).minor_offset ≤ (field_at fs i).minor_offset + k ∧
        (field_at fs i).minor_offset + k < (field_at fs i).minor_offset + (field_at fs i).width ∧
        (field_at fs i).minor_offset + k < 64 ∧ (field_at fs i).width < 64 := by omega
    simp [hk, hw, h1]
  · have h2 : v.testBit k = false :=
      Nat.testBit_lt_two_pow
        (lt_of_lt_of_le hv (Nat.pow_le_pow_right (by decide) (by omega)))
    simp [hk, h2]

/-- A field that does not overlap the one `set_raw` writes keeps its value. -/
theorem get_raw_set_raw_other (fs : field_set) (inst : packed_vec) (i j v : Nat)
    (hd : fields_disjoint (field_at fs i) (field_at fs j)) :
    fs.get_raw (fs.set_raw inst i v) j = fs.get_raw inst j := by
  rw [get_raw_eq, get_raw_eq, set_raw_eq]
  by_cases hm : (field_at fs i).major_offset = (field_at fs j).major_offset
  · by_cases hlen : (field_at fs i).major_offset < inst.length
    · rw [← hm, getD_set_same _ _ _ hlen]
      apply Nat.eq_of_testBit_eq
      intro k
      rw [testBit_get_word, testBit_get_word, testBit_set_word]
      by_cases hk : k < (field_at fs j).width ∧ (field_at fs j).width < 64
      · have hno : ¬ ((field_at fs i).minor_offset ≤ (field_at fs j).minor_offset + k ∧
            (field_at fs j).minor_offset + k <
              (field_at fs i).minor_offset + (field_at fs i).width ∧
            (field_at fs j).minor_offset + k < 64 ∧ (field_at fs i).width < 64) := by
          rcases hd with h | h | h
          · exact absurd hm h
          · omega
          · omega
        rw [if_neg hno]
      · simp [hk]
    · rw [getD_set_beyond _ _ _ (by omega)]
  · rw [getD_set_other _ _ _ _ hm]

/-! ### Hamming distance -/

theorem countP_range_congr (n : Nat) (p q : Nat → Bool) (h : ∀ j, j < n → q j = p j) :
    (List.range n).countP q = (List.range n).countP p := by
  induction n with
  | zero => rfl
  | succ n ih =>
    rw [List.range_succ, List.countP_append, List.countP_append,
      ih (fun j hj => h j (Nat.lt_succ_of_lt hj))]
    simp [List.countP_cons, h n (Nat.lt_succ_self n)]

theorem countP_range_update (n i : Nat) (p q : Nat → Bool) (hi : i < n) (hp : p i = false)
    (hq : q i = true) (h : ∀ j, j < n → j ≠ i → q j = p j) :
    (List.range n).countP q = (List.range n).countP p + 1 := by
  induction n with
  | zero => omega
  | succ n ih =>
    rw [List.range_succ, List.countP_append, List.countP_append]
    by_cases hin : i = n
    · subst hin
      rw [countP_range_congr i p q (fun j hj => h j (Nat.lt_succ_of_lt hj) (by omega))]
      simp [List.countP_cons, hp, hq]
    · rw [ih (by omega) (fun j hj hne => h j (Nat.lt_succ_of_lt hj) hne)]
      have hn : q n = p n := h n (Nat.lt_succ_self n) (fun e => hin e.symm)
      simp [List.countP_cons, hn]
      omega

theorem hamming_loop_eq (fs : field_set) (a b : packed_vec) :
    ∀ n s d : Nat, d ≤ INT_MAX → field_set.hamming_loop n ⟨fs, s, a⟩ ⟨fs, s, b⟩ d =
      if d + ((List.range n).countP fun i =>
          decide (fs.get_raw a (s + i) ≠ fs.get_raw b (s + i))) ≤ INT_MAX
      then .ok (d + (List.range n).countP fun i =>
          decide (fs.get_raw a (s + i) ≠ fs.get_raw b (s + i)))
      else .error .undefined := by
  intro n
  induction n with
  | zero =>
    intro s d hd
    simp [field_set.hamming_loop, hd]
  | succ n ih =>
    intro s d hd
    simp only [field_set.hamming_loop, const_disc_iterator.advance, const_disc_iterator.deref]
    rw [List.range_succ_eq_map, List.countP_cons, List.countP_map]
    have hfun : ((fun i => decide (fs.get_raw a (s + i) ≠ fs.get_raw b (s + i))) ∘ Nat.succ) =
        fun i => decide (fs.get_raw a (s + 1 + i) ≠ fs.get_raw b (s + 1 + i)) := by
      funext i
      simp only [Function.comp, Nat.succ_eq_add_one]
      rw [show s + (i + 1) = s + 1 + i by omega]
    rw [hfun]
    by_cases hne : fs.get_raw a s = fs.get_raw b s
    · simp only [hne, ne_eq, not_true_eq_false, if_false, Nat.add_zero, if_pos hd,
        decide_False, Bool.false_eq_true]
      rw [ih (s + 1) d hd]
    · simp only [ne_eq, hne, not_false_eq_true, if_true, Nat.add_zero, decide_True]
      by_cases h1 : d + 1 ≤ INT_MAX
      · rw [if_pos h1, ih (s + 1) (d + 1) h1]
        have e : ∀ c : Nat, d + 1 + c = d + (c + 1) := fun c => by omega
        rw [e]
      · rw [if_neg h1, if_neg (by omega)]

theorem hamming_distance_eq (fs : field_set) (a b : Instance) :
    fs.hamming_distance a b =
      if differing_fields fs a._bit_disc b._bit_disc ≤ INT_MAX
      then .ok (differing_fields fs a._bit_disc b._bit_disc) else .error .undefined := by
  simp only [field_set.hamming_distance, field_set.end_raw, field_set.begin_raw, if_true,
    Nat.sub_zero]
  rw [hamming_loop_eq fs a._bit_disc b._bit_disc fs._fields.length 0 0 (Nat.zero_le _)]
  simp [differing_fields, field_set.raw_size]

theorem differing_fields_le (fs : field_set) (a b : packed_vec) :
    differing_fields fs a b ≤ fs.raw_size := by
  have h := List.countP_le_length
    (fun i => decide (fs.get_raw a i ≠ fs.get_raw b i)) (l := List.range fs.raw_size)
  simpa [differing_fields] using h

theorem fs_bits_raw_size (k c : Nat) : (fs_bits k c).raw_size = k := by
  simp [fs_bits, field_set.of_tables, field_set.compute_starts, field_set.raw_size]

theorem fs_bits_field_at (k c i : Nat) (hi : i < k) :
    field_at (fs_bits k c) i = ⟨1, i / 64, i % 64⟩ := by
  simp [field_at, fs_bits, field_set.of_tables, field_set.compute_starts,
    List.getD_eq_getElem?_getD, hi]

theorem fs_bits_get_raw (k c : Nat) (inst : packed_vec) (i : Nat) (hi : i < k) :
    (fs_bits k c).get_raw inst i = (inst.getD (i / 64) 0 >>> (i % 64)) &&& 1 := by
  rw [get_raw_eq, fs_bits_field_at k c i hi]
  rfl

theorem fs_bits_well_packed (k c : Nat) : well_packed (fs_bits k c) := by
  refine ⟨?_, ?_⟩
  · intro i hi
    rw [fs_bits_raw_size] at hi
    rw [fs_bits_field_at k c i hi]
    simp only
    omega
  · intro i hi j hj hij
    rw [fs_bits_raw_size] at hi hj
    rw [fs_bits_field_at k c i hi, fs_bits_field_at k c j hj]
    simp only [fields_disjoint]
    omega

theorem fs_bits_covers (k c : Nat) (inst : packed_vec) (h : k ≤ 64 * inst.length) :
    covers (fs_bits k c) inst := by
  intro i hi
  rw [fs_bits_raw_size] at hi
  rw [fs_bits_field_at k c i hi]
  simp only
  omega

theorem ones_bit : ∀ r, r < 64 → ((2 ^ 64 - 1) >>> r) &&& 1 = 1 := by decide

theorem ones_but_first_bit : ∀ r, r < 64 → ((2 ^ 64 - 2) >>> r) &&& 1 = if r = 0 then 0 else 1 := by
  decide

theorem fs_bits_get_raw_zeros (k c n i : Nat) (hi : i < k) :
    (fs_bits k c).get_raw (List.replicate n 0) i = 0 := by
  rw [fs_bits_get_raw k c _ i hi]
  have : (List.replicate n 0).getD (i / 64) 0 = 0 := by
    simp only [List.getD_eq_getElem?_getD, List.getElem?_replicate]
    split_ifs <;> rfl
  rw [this]
  simp

theorem fs_bits_get_raw_ones (k c n i : Nat) (hi : i < k) (hn : k ≤ 64 * n) :
    (fs_bits k c).get_raw (List.replicate n (2 ^ 64 - 1)) i = 1 := by
  rw [fs_bits_get_raw k c _ i hi]
  have : (List.replicate n (2 ^ 64 - 1)).getD (i / 64) 0 = 2 ^ 64 - 1 := by
    have : i / 64 < n := by omega
    simp [List.getD_eq_getElem?_getD, List.getElem?_replicate, this]
  rw [this]
  exact ones_bit _ (Nat.mod_lt _ (by decide))

theorem fs_bits_get_raw_ones_but_first (k c n i : Nat) (hi : i < k) (hn : k ≤ 64 * (n + 1)) :
    (fs_bits k c).get_raw ((2 ^ 64 - 2) :: List.replicate n (2 ^ 64 - 1)) i =
      if i = 0 then 0 else 1 := by
  rw [fs_bits_get_raw k c _ i hi]
  by_cases h64 : i < 64
  · have h0 : i / 64 = 0 := Nat.div_eq_of_lt h64
    rw [h0, Nat.mod_eq_of_lt h64]
    exact ones_but_first_bit i h64
  · have : ((2 ^ 64 - 2) :: List.replicate n (2 ^ 64 - 1)).getD (i / 64) 0 = 2 ^ 64 - 1 := by
      obtain ⟨q, hq⟩ : ∃ q, i / 64 = q + 1 := ⟨i / 64 - 1, by omega⟩
      have hqn : q < n := by omega
      rw [hq]
      simp [List.getD_eq_getElem?_getD, List.getElem?_replicate, hqn]
    rw [this, if_neg (by omega)]
    exact ones_bit _ (Nat.mod_lt _ (by decide))

theorem countP_range_true (n : Nat) (p : Nat → Bool) (h : ∀ j, j < n → p j = true) :
    (List.range n).countP p = n := by
  rw [countP_range_congr n (fun _ => true) p h]
  simp

/-- All-zero words against all-one words, in a layout of `k` single-bit
fields: every field differs. -/
theorem differing_fields_zeros_ones (k c n m : Nat) (hm : k ≤ 64 * m) :
    differing_fields (fs_bits k c) (List.replicate n 0) (List.replicate m (2 ^ 64 - 1)) = k := by
  unfold differing_fields
  rw [fs_bits_raw_size]
  apply countP_range_true
  intro j hj
  rw [fs_bits_get_raw_zeros k c n j hj, fs_bits_get_raw_ones k c m j hj hm]
  decide

/-- All-zero words against words that are all ones but for the first bit: every
field but the first differs. -/
theorem differing_fields_zeros_ones_but_first (k c n m : Nat) (hk : 0 < k)
    (hm : k ≤ 64 * (m + 1)) :
    differing_fields (fs_bits k c) (List.replicate n 0)
      ((2 ^ 64 - 2) :: List.replicate m (2 ^ 64 - 1)) = k - 1 := by
  unfold differing_fields
  rw [fs_bits_raw_size]
  have h := countP_range_update k 0
    (fun i => decide ((fs_bits k c).get_raw (List.replicate n 0) i ≠
      (fs_bits k c).get_raw ((2 ^ 64 - 2) :: List.replicate m (2 ^ 64 - 1)) i))
    (fun _ => true) hk
    (by
      simp only
      rw [fs_bits_get_raw_zeros k c n 0 hk, fs_bits_get_raw_ones_but_first k c m 0 hk hm]
      decide)
    rfl
    (by
      intro j hj hj0
      simp only
      rw [fs_bits_get_raw_zeros k c n j hj, fs_bits_get_raw_ones_but_first k c m j hj hm,
        if_neg hj0]
      decide)
  have h2 : (List.range k).countP (fun _ => true) = k := by simp
  omega


theorem hamming_distance_mk_eq (fs : field_set) (a b : packed_vec) (ca cb : List contin_t) :
    fs.hamming_distance ⟨a, ca⟩ ⟨b, cb⟩ =
      if differing_fields fs a b ≤ INT_MAX
      then .ok (differing_fields fs a b) else .error .undefined :=
  hamming_distance_eq fs ⟨a, ca⟩ ⟨b, cb⟩

/-- C12 (amended): `hamming_distance(a, b)` returns the number of raw indices
`i` in `[0, raw_size())` at which `get_raw(a, i)` and `get_raw(b, i)` differ, a
number between 0 and `raw_size()`, provided that number is at most `INT_MAX`,
the largest value of the `int` it is counted in; this holds for every layout
and every two instances. -/
theorem hamming_distance_counts (fs : field_set) (a b : Instance)
    (hfit : ((List.range fs.raw_size).countP fun i =>
      decide (fs.get_raw a._bit_disc i ≠ fs.get_raw b._bit_disc i)) ≤ INT_MAX) :
    fs.hamming_distance a b =
        .ok ((List.range fs.raw_size).countP fun i =>
          decide (fs.get_raw a._bit_disc i ≠ fs.get_raw b._bit_disc i)) ∧
      ((List.range fs.raw_size).countP fun i =>
          decide (fs.get_raw a._bit_disc i ≠ fs.get_raw b._bit_disc i)) ≤ fs.raw_size := by
  refine ⟨?_, differing_fields_le fs a._bit_disc b._bit_disc⟩
  rw [hamming_distance_eq]
  exact if_pos hfit

/-- C12 (witness): in `fs_full` the instances with words `[0, 22]` and `[5, 1]`
differ in 5 of the 6 raw fields, and 5 is returned. -/
theorem hamming_distance_counts_full :
    fs_full.hamming_distance ⟨[0, 22], [0]⟩ ⟨[5, 1], [7]⟩ = .ok 5 ∧
      (fs_full.hamming_distance ⟨[0, 22], [0]⟩ ⟨[5, 1], [7]⟩ =
          .ok ((List.range fs_full.raw_size).countP fun i =>
            decide (fs_full.get_raw [0, 22] i ≠ fs_full.get_raw [5, 1] i)) ∧
        ((List.range fs_full.raw_size).countP fun i =>
            decide (fs_full.get_raw [0, 22] i ≠ fs_full.get_raw [5, 1] i))
          ≤ fs_full.raw_size) :=
  ⟨rfl, hamming_distance_counts fs_full ⟨[0, 22], [0]⟩ ⟨[5, 1], [7]⟩ (by decide)⟩

/-- C12 (counterexample): a layout of `2 ^ 31` boolean fields in `2 ^ 25` words,
an instance of all zeros against one of all ones.  The two differ in all
`2 ^ 31` raw fields, a number between 0 and `raw_size()`, yet
`hamming_distance` does not return it: the `int` accumulator overflows at the
last field, which is undefined. -/
theorem hamming_distance_int_overflow :
    (fs_bits (2 ^ 31) 0).raw_size = 2 ^ 31 ∧
      ((List.range (fs_bits (2 ^ 31) 0).raw_size).countP fun i =>
        decide ((fs_bits (2 ^ 31) 0).get_raw (List.replicate (2 ^ 25) 0) i ≠
          (fs_bits (2 ^ 31) 0).get_raw (List.replicate (2 ^ 25) (2 ^ 64 - 1)) i)) = 2 ^ 31 ∧
      (fs_bits (2 ^ 31) 0).hamming_distance ⟨List.replicate (2 ^ 25) 0, []⟩
        ⟨List.replicate (2 ^ 25) (2 ^ 64 - 1), []⟩ = .error .undefined := by
  have h : differing_fields (fs_bits (2 ^ 31) 0) (List.replicate (2 ^ 25) 0)
      (List.replicate (2 ^ 25) (2 ^ 64 - 1)) = 2 ^ 31 :=
    differing_fields_zeros_ones (2 ^ 31) 0 (2 ^ 25) (2 ^ 25) (by decide)
  have h2 : ¬ 2 ^ 31 ≤ INT_MAX := by decide
  refine ⟨fs_bits_raw_size (2 ^ 31) 0, h, ?_⟩
  rw [hamming_distance_mk_eq, h, if_neg h2]

theorem differing_fields_self (fs : field_set) (a : packed_vec) :
    differing_fields fs a a = 0 := by
  simp [differing_fields]

theorem differing_fields_set_raw (fs : field_set) (a b : packed_vec) (i v : Nat)
    (hwp : well_packed fs) (hcov : covers fs b) (hi : i < fs.raw_size)
    (heq : fs.get_raw a i = fs.get_raw b i)
    (hv : v < 2 ^ (field_at fs i).width) (hne : v ≠ fs.get_raw b i) :
    differing_fields fs a (fs.set_raw b i v) = differing_fields fs a b + 1 := by
  unfold differing_fields
  have hsame : fs.get_raw (fs.set_raw b i v) i = v :=
    get_raw_set_raw_same fs b i v (hwp.1 i hi).2 (hwp.1 i hi).1 (hcov i hi) hv
  apply countP_range_update fs.raw_size i _ _ hi
  · simp [heq]
  · rw [hsame, heq]
    simpa using fun e => hne e.symm
  · intro j hj hji
    rw [get_raw_set_raw_other fs b i j v (hwp.2 i hi j hj (fun e => hji e.symm))]

/-- C13 (amended): in a layout whose fields lie within their words, are
narrower than a word and do not overlap, let `a` and `b` agree on raw field `i`
and let `v < 2 ^ width(i)` differ from that value; if the Hamming distance
before is below `INT_MAX`, then after `set_raw(b, i, v)` the Hamming distance
from `a` is exactly one more than before.  In particular `hamming_distance(a,
a)` is 0 and becomes 1 when `b` starts as `a`. -/
theorem hamming_distance_set_raw (fs : field_set) (a b : Instance) (i v : Nat)
    (hwp : well_packed fs) (hcov : covers fs b._bit_disc) (hi : i < fs.raw_size)
    (heq : fs.get_raw a._bit_disc i = fs.get_raw b._bit_disc i)
    (hv : v < 2 ^ (field_at fs i).width) (hne : v ≠ fs.get_raw b._bit_disc i) :
    (∀ d, fs.hamming_distance a b = .ok d → d < INT_MAX →
        fs.hamming_distance a ⟨fs.set_raw b._bit_disc i v, b._contin⟩ = .ok (d + 1)) ∧
      (differing_fields fs a._bit_disc b._bit_disc < INT_MAX →
        ∃ d, fs.hamming_distance a b = .ok d ∧ d < INT_MAX) ∧
      fs.hamming_distance a a = .ok 0 ∧
      (b = a → fs.hamming_distance a ⟨fs.set_raw b._bit_disc i v, b._contin⟩ = .ok 1) := by
  have hstep := differing_fields_set_raw fs a._bit_disc b._bit_disc i v hwp hcov hi heq hv hne
  have h0 : (0 : Nat) ≤ INT_MAX := Nat.zero_le _
  have h1 : (0 : Nat) + 1 ≤ INT_MAX := by decide
  refine ⟨?_, ?_, ?_, ?_⟩
  · intro d hd hlt
    rw [hamming_distance_eq] at hd
    split_ifs at hd with hc
    injection hd with hd
    rw [hamming_distance_eq, hstep, hd, if_pos (by omega)]
  · intro hlt
    refine ⟨_, ?_, hlt⟩
    rw [hamming_distance_eq, if_pos (le_of_lt hlt)]
  · rw [hamming_distance_eq, differing_fields_self, if_pos h0]
  · intro hba
    rw [hamming_distance_eq, hstep, hba, differing_fields_self, if_pos h1]

/-- C13 (witness): in the layout `fs_full`, changing the four-valued disc of
an instance from 2 to 3 takes the distance to the original from 0 to 1. -/
theorem hamming_distance_set_raw_full :
    fs_full.hamming_distance ⟨[0, 22], [0]⟩ ⟨[0, 22], [0]⟩ = .ok 0 ∧
      fs_full.hamming_distance ⟨[0, 22], [0]⟩ ⟨fs_full.set_raw [0, 22] 2 3, [0]⟩ = .ok (0 + 1) :=
  ⟨rfl, (hamming_distance_set_raw fs_full ⟨[0, 22], [0]⟩ ⟨[0, 22], [0]⟩ 2 3 (by decide)
    (by decide) (by decide) (by decide) (by decide) (by decide)).1 0 rfl (by decide)⟩

/-- C13 (counterexample): a layout of `2 ^ 31` boolean fields in `2 ^ 25` words,
whose fields do not overlap; `a` is all zeros and `b` is all ones but for raw
field 0, on which the two agree.  The distance before is `2 ^ 31 - 1`, the
largest `int`; after `set_raw(b, 0, 1)` the `int` accumulator overflows and no
distance is returned, instead of one more than before. -/
theorem hamming_distance_set_raw_overflow :
    well_packed (fs_bits (2 ^ 31) 0) ∧
      covers (fs_bits (2 ^ 31) 0) ((2 ^ 64 - 2) :: List.replicate (2 ^ 25 - 1) (2 ^ 64 - 1)) ∧
      0 < (fs_bits (2 ^ 31) 0).raw_size ∧
      (fs_bits (2 ^ 31) 0).get_raw (List.replicate (2 ^ 25) 0) 0 =
        (fs_bits (2 ^ 31) 0).get_raw
          ((2 ^ 64 - 2) :: List.replicate (2 ^ 25 - 1) (2 ^ 64 - 1)) 0 ∧
      1 < 2 ^ (field_at (fs_bits (2 ^ 31) 0) 0).width ∧
      1 ≠ (fs_bits (2 ^ 31) 0).get_raw
        ((2 ^ 64 - 2) :: List.replicate (2 ^ 25 - 1) (2 ^ 64 - 1)) 0 ∧
      (fs_bits (2 ^ 31) 0).hamming_distance ⟨List.replicate (2 ^ 25) 0, []⟩
        ⟨(2 ^ 64 - 2) :: List.replicate (2 ^ 25 - 1) (2 ^ 64 - 1), []⟩ = .ok (2 ^ 31 - 1) ∧
      (fs_bits (2 ^ 31) 0).hamming_distance ⟨List.replicate (2 ^ 25) 0, []⟩
        ⟨(fs_bits (2 ^ 31) 0).set_raw
          ((2 ^ 64 - 2) :: List.replicate (2 ^ 25 - 1) (2 ^ 64 - 1)) 0 1, []⟩
        = .error .undefined := by
  have hk : 0 < 2 ^ 31 := by decide
  have hwp := fs_bits_well_packed (2 ^ 31) 0
  have hcov : covers (fs_bits (2 ^ 31) 0)
      ((2 ^ 64 - 2) :: List.replicate (2 ^ 25 - 1) (2 ^ 64 - 1)) :=
    fs_bits_covers (2 ^ 31) 0 ((2 ^ 64 - 2) :: List.replicate (2 ^ 25 - 1) (2 ^ 64 - 1))
      (by rw [List.length_cons, List.length_replicate]; decide)
  have hsize : 0 < (fs_bits (2 ^ 31) 0).raw_size := by
    rw [fs_bits_raw_size (2 ^ 31) 0]; exact hk
  have ha := fs_bits_get_raw_zeros (2 ^ 31) 0 (2 ^ 25) 0 hk
  have hb := fs_bits_get_raw_ones_but_first (2 ^ 31) 0 (2 ^ 25 - 1) 0 hk (by decide)
  rw [if_pos rfl] at hb
  have hw : (field_at (fs_bits (2 ^ 31) 0) 0).width = 1 := by
    rw [fs_bits_field_at (2 ^ 31) 0 0 hk]
  have hd0 : differing_fields (fs_bits (2 ^ 31) 0) (List.replicate (2 ^ 25) 0)
      ((2 ^ 64 - 2) :: List.replicate (2 ^ 25 - 1) (2 ^ 64 - 1)) = 2 ^ 31 - 1 :=
    differing_fields_zeros_ones_but_first (2 ^ 31) 0 (2 ^ 25) (2 ^ 25 - 1) hk (by decide)
  have hstep := differing_fields_set_raw (fs_bits (2 ^ 31) 0) (List.replicate (2 ^ 25) 0)
    ((2 ^ 64 - 2) :: List.replicate (2 ^ 25 - 1) (2 ^ 64 - 1)) 0 1 hwp hcov hsize
    (by rw [ha, hb]) (by rw [hw]; decide) (by rw [hb]; decide)
  have h1 : 2 ^ 31 - 1 ≤ INT_MAX := by decide
  have h2 : ¬ 2 ^ 31 - 1 + 1 ≤ INT_MAX := by decide
  refine ⟨hwp, hcov, hsize, by rw [ha, hb], by rw [hw]; decide, by rw [hb]; decide, ?_, ?_⟩
  · rw [hamming_distance_mk_eq, hd0, if_pos h1]
  · have hd3 : differing_fields (fs_bits (2 ^ 31) 0) (List.replicate (2 ^ 25) 0)
        ((fs_bits (2 ^ 31) 0).set_raw
          ((2 ^ 64 - 2) :: List.replicate (2 ^ 25 - 1) (2 ^ 64 - 1)) 0 1)
          = 2 ^ 31 - 1 + 1 := hstep.trans (congrArg (fun x => x + 1) hd0)
    rw [hamming_distance_mk_eq, hd3, if_neg h2]

/-- C14 (failing input): an instance of one packed word against an instance of
two.  Their sizes differ, yet `hamming_distance` returns a distance (0) instead
of failing: its assertion compares `inst1.size()` with itself. -/
theorem hamming_distance_size_mismatch :
    (⟨[1], []⟩ : Instance).size ≠ (⟨[1, 0], []⟩ : Instance).size ∧
      (fs_bits 1 0).hamming_distance ⟨[1], []⟩ ⟨[1, 0], []⟩ = .ok 0 ∧
      ∀ (fs : field_set) (inst1 inst2 : Instance),
        fs.hamming_distance inst1 inst2 ≠ .error .assertion := by
  refine ⟨by decide, rfl, ?_⟩
  intro fs inst1 inst2
  rw [hamming_distance_eq]
  split_ifs <;> simp

/-! ### Merging instances -/

theorem covers_set_raw (fs : field_set) (inst : packed_vec) (i v : Nat) (h : covers fs inst) :
    covers fs (fs.set_raw inst i v) := by
  intro j hj
  rw [set_raw_eq, List.length_set]
  exact h j hj

theorem get_raw_merge_loop (fs : field_set) (base reference : packed_vec)
    (hwp : well_packed fs) :
    ∀ (n s : Nat) (target : packed_vec), s + n ≤ fs.raw_size → covers fs target →
      ∀ j, j < fs.raw_size →
        fs.get_raw (field_set.merge_loop n fs target base reference s) j =
          if s ≤ j ∧ j < s + n ∧ fs.get_raw base j ≠ fs.get_raw reference j
          then fs.get_raw reference j else fs.get_raw target j := by
  intro n
  induction n with
  | zero =>
    intro s target _ _ j _
    have : ¬ (s ≤ j ∧ j < s + 0 ∧ fs.get_raw base j ≠ fs.get_raw reference j) := by omega
    rw [if_neg this]
    rfl
  | succ n ih =>
    intro s target hs hcov j hj
    have hsr : s < fs.raw_size := by omega
    simp only [field_set.merge_loop]
    by_cases hdiff : fs.get_raw base s ≠ fs.get_raw reference s
    · rw [if_pos hdiff,
        ih (s + 1) _ (by omega) (covers_set_raw fs target s _ hcov) j hj]
      by_cases hjs : j = s
      · subst hjs
        have h1 : ¬ (j + 1 ≤ j ∧ j < j + 1 + n ∧ fs.get_raw base j ≠ fs.get_raw reference j) := by
          omega
        have h2 : j ≤ j ∧ j < j + (n + 1) ∧ fs.get_raw base j ≠ fs.get_raw reference j :=
          ⟨le_rfl, by omega, hdiff⟩
        rw [if_neg h1, if_pos h2]
        exact get_raw_set_raw_same fs target j _ (hwp.1 j hj).2 (hwp.1 j hj).1 (hcov j hj)
          (get_raw_lt fs reference j)
      · rw [get_raw_set_raw_other fs target s j _
          (hwp.2 s hsr j hj (fun e => hjs e.symm))]
        by_cases hc : s + 1 ≤ j ∧ j < s + 1 + n ∧ fs.get_raw base j ≠ fs.get_raw reference j
        · have hc2 : s ≤ j ∧ j < s + (n + 1) ∧ fs.get_raw base j ≠ fs.get_raw reference j :=
            ⟨by omega, by omega, hc.2.2⟩
          rw [if_pos hc, if_pos hc2]
        · have hc2 : ¬ (s ≤ j ∧ j < s + (n + 1) ∧
              fs.get_raw base j ≠ fs.get_raw reference j) := by
            intro h
            exact hc ⟨by omega, by omega, h.2.2⟩
          rw [if_neg hc, if_neg hc2]
    · rw [if_neg hdiff, ih (s + 1) _ (by omega) hcov j hj]
      by_cases hc : s + 1 ≤ j ∧ j < s + 1 + n ∧ fs.get_raw base j ≠ fs.get_raw reference j
      · have hc2 : s ≤ j ∧ j < s + (n + 1) ∧ fs.get_raw base j ≠ fs.get_raw reference j :=
          ⟨by omega, by omega, hc.2.2⟩
        rw [if_pos hc, if_pos hc2]
      · have hc2 : ¬ (s ≤ j ∧ j < s + (n + 1) ∧
            fs.get_raw base j ≠ fs.get_raw reference j) := by
          intro h
          by_cases hjs : j = s
          · subst hjs; exact hdiff h.2.2
          · exact hc ⟨by omega, by omega, h.2.2⟩
        rw [if_neg hc, if_neg hc2]

/-- The raw fields of the target after `merge_instance` returned. -/
theorem get_raw_merge_instance (fs : field_set) (target base reference : Instance)
    (hwp : well_packed fs) (hcov : covers fs target._bit_disc)
    (hs : base.size = reference.size ∧ base.size = target.size) :
    ∀ i, i < fs.raw_size →
      fs.get_raw (fs.merge_instance target base reference).1._bit_disc i =
        if fs.get_raw base._bit_disc i ≠ fs.get_raw reference._bit_disc i
        then fs.get_raw reference._bit_disc i else fs.get_raw target._bit_disc i := by
  intro i hi
  unfold field_set.merge_instance
  rw [if_pos hs]
  show fs.get_raw (field_set.merge_loop fs.raw_size fs target._bit_disc base._bit_disc
    reference._bit_disc 0) i = _
  rw [get_raw_merge_loop fs _ _ hwp fs.raw_size 0 _ (by omega) hcov i hi]
  by_cases hd : fs.get_raw base._bit_disc i ≠ fs.get_raw reference._bit_disc i
  · rw [if_pos ⟨Nat.zero_le i, by omega, hd⟩, if_pos hd]
  · rw [if_neg (fun h => hd h.2.2), if_neg hd]

/-- The merge on values: for a layout whose fields lie within their words, are
narrower than a word and do not overlap, and equal-size target, base and
reference, the target holding the word of every field, the call returns, the
target's raw field `i` is the reference's where base and reference differed at
`i` and the target's previous field otherwise, and the target's continuous
vector is the reference's. -/
theorem merge_instance_fields (fs : field_set) (target base reference : Instance)
    (hwp : well_packed fs) (hcov : covers fs target._bit_disc)
    (hbr : base.size = reference.size) (hbt : base.size = target.size) :
    (fs.merge_instance target base reference).2 = .ok () ∧
      (∀ i, i < fs.raw_size →
        fs.get_raw (fs.merge_instance target base reference).1._bit_disc i =
          if fs.get_raw base._bit_disc i ≠ fs.get_raw reference._bit_disc i
          then fs.get_raw reference._bit_disc i else fs.get_raw target._bit_disc i) ∧
      (fs.merge_instance target base reference).1._contin = reference._contin := by
  refine ⟨?_, get_raw_merge_instance fs target base reference hwp hcov ⟨hbr, hbt⟩, ?_⟩
  · unfold field_set.merge_instance
    rw [if_pos ⟨hbr, hbt⟩]
  · unfold field_set.merge_instance
    rw [if_pos ⟨hbr, hbt⟩]

theorem getD_set_self_inst (heap : List Instance) (t : Nat) (x : Instance) (h : t < heap.length) :
    (heap.set t x).getD t ⟨[], []⟩ = x := by
  simp [List.getD_eq_getElem?_getD, List.getElem?_set_self h]

theorem getD_set_ne_inst (heap : List Instance) (t j : Nat) (x : Instance) (h : t ≠ j) :
    (heap.set t x).getD j ⟨[], []⟩ = heap.getD j ⟨[], []⟩ := by
  simp [List.getD_eq_getElem?_getD, List.getElem?_set_ne h]

/-- With the target a different object from `base` and `reference`, the loop on
the store is the loop on values, written back to the target's place. -/
theorem merge_loop_at_eq (fs : field_set) (t b r : Nat) (htb : t ≠ b) (htr : t ≠ r) :
    ∀ (n : Nat) (heap : List Instance) (idx : Nat), t < heap.length →
      field_set.merge_loop_at n fs heap t b r idx =
        heap.set t
          ⟨field_set.merge_loop n fs (heap.getD t ⟨[], []⟩)._bit_disc
              (heap.getD b ⟨[], []⟩)._bit_disc (heap.getD r ⟨[], []⟩)._bit_disc idx,
            (heap.getD t ⟨[], []⟩)._contin⟩ := by
  intro n
  induction n with
  | zero =>
    intro heap idx ht
    simp only [field_set.merge_loop_at, field_set.merge_loop]
    apply List.ext_getElem?
    intro j
    by_cases hj : t = j
    · subst hj
      rw [List.getElem?_set_self ht]
      simp [List.getD_eq_getElem?_getD, List.getElem?_eq_getElem ht]
    · rw [List.getElem?_set_ne hj]
  | succ n ih =>
    intro heap idx ht
    simp only [field_set.merge_loop_at, field_set.merge_loop]
    by_cases hd : fs.get_raw (heap.getD b ⟨[], []⟩)._bit_disc idx ≠
        fs.get_raw (heap.getD r ⟨[], []⟩)._bit_disc idx
    · rw [if_pos hd, if_pos hd, ih _ _ (by rw [List.length_set]; exact ht),
        getD_set_self_inst _ _ _ ht, getD_set_ne_inst _ _ _ _ htb, getD_set_ne_inst _ _ _ _ htr,
        List.set_set]
    · rw [if_neg hd, if_neg hd, ih _ _ ht]

theorem merge_instance_at_eq (fs : field_set) (heap : List Instance) (t b r : Nat)
    (ht : t < heap.length) (htb : t ≠ b) (htr : t ≠ r)
    (hbr : (heap.getD b ⟨[], []⟩).size = (heap.getD r ⟨[], []⟩).size)
    (hbt : (heap.getD b ⟨[], []⟩).size = (heap.getD t ⟨[], []⟩).size) :
    fs.merge_instance_at heap t b r =
      (heap.set t (fs.merge_instance (heap.getD t ⟨[], []⟩) (heap.getD b ⟨[], []⟩)
        (heap.getD r ⟨[], []⟩)).1, .ok ()) := by
  unfold field_set.merge_instance_at field_set.merge_instance
  rw [if_pos ⟨hbr, hbt⟩, if_pos ⟨hbr, hbt⟩, merge_loop_at_eq fs t b r htb htr _ heap 0 ht,
    getD_set_self_inst _ _ _ ht, getD_set_ne_inst _ _ _ _ htr, List.set_set]

/-- Writing back the word a packed vector holds leaves it as it is. -/
theorem set_getD_self_words (inst : packed_vec) (m : Nat) :
    inst.set m (inst.getD m 0) = inst := by
  by_cases h : m < inst.length
  · apply List.ext_getElem?
    intro j
    by_cases hj : m = j
    · subst hj
      rw [List.getElem?_set_self h, List.getD_eq_getElem _ _ h, List.getElem?_eq_getElem h]
    · rw [List.getElem?_set_ne hj]
  · exact List.set_eq_of_length_le (by omega)

/-- Writing back the object a store holds leaves the store as it is. -/
theorem set_getD_self_inst (heap : List Instance) (t : Nat) :
    heap.set t (heap.getD t ⟨[], []⟩) = heap := by
  by_cases h : t < heap.length
  · apply List.ext_getElem?
    intro j
    by_cases hj : t = j
    · subst hj
      rw [List.getElem?_set_self h, List.getD_eq_getElem _ _ h, List.getElem?_eq_getElem h]
    · rw [List.getElem?_set_ne hj]
  · exact List.set_eq_of_length_le (by omega)

/-- The branchless update with the value the field already holds changes no bit. -/
theorem branchless_self (w o M : Nat) :
    w ^^^ ((w ^^^ ((((w >>> o) &&& M) <<< o) % 2 ^ 64)) &&& ((M <<< o) % 2 ^ 64)) = w := by
  apply Nat.eq_of_testBit_eq
  intro j
  simp only [Nat.testBit_xor, Nat.testBit_and, Nat.testBit_mod_two_pow, Nat.testBit_shiftLeft,
    Nat.testBit_shiftRight]
  by_cases h1 : j < 64 <;> by_cases h2 : o ≤ j
  · have : o + (j - o) = j := by omega
    rw [this]
    simp only [h1, h2, decide_True, Bool.true_and, ge_iff_le]
    cases w.testBit j <;> cases M.testBit (j - o) <;> rfl
  · simp [h1, h2]
  · simp [h1, h2]
  · simp [h1, h2]

/-- Method `set_raw` with the value `get_raw` reads at the same index leaves
the instance as it is, in every layout. -/
theorem set_raw_get_raw_self (fs : field_set) (inst : packed_vec) (i : Nat) :
    fs.set_raw inst i (fs.get_raw inst i) = inst := by
  unfold field_set.set_raw field_set.get_raw
  simp only
  rw [branchless_self]
  exact set_getD_self_words _ _

/-- With the target and the reference the same object, every write of the loop
puts back the value the field holds: the store is unchanged. -/
theorem merge_loop_at_self (fs : field_set) (t b : Nat) :
    ∀ (n : Nat) (heap : List Instance) (idx : Nat),
      field_set.merge_loop_at n fs heap t b t idx = heap := by
  intro n
  induction n with
  | zero => intro heap idx; rfl
  | succ n ih =>
    intro heap idx
    simp only [field_set.merge_loop_at]
    rw [ih, set_raw_get_raw_self, set_getD_self_inst]
    exact ite_self _

/-- The call `merge_instance(x, base, x)` leaves every object as it is. -/
theorem merge_instance_at_self (fs : field_set) (heap : List Instance) (t b : Nat)
    (hbr : (heap.getD b ⟨[], []⟩).size = (heap.getD t ⟨[], []⟩).size) :
    fs.merge_instance_at heap t b t = (heap, .ok ()) := by
  unfold field_set.merge_instance_at
  rw [if_pos ⟨hbr, hbr⟩, merge_loop_at_self]
  show (heap.set t (heap.getD t ⟨[], []⟩), _) = _
  rw [set_getD_self_inst]

/-- C15 (amended): for every layout whose fields lie within their words, are
narrower than a word and do not overlap, and equal-size target, base and
reference, the target being a different object from the base (it may be the
reference itself) and holding the word of every field:
`merge_instance(target, base, reference)` returns, after it the target's raw
field `i` is the reference's where base and reference differed at `i` and the
target's previous field otherwise, the target's continuous vector is the
reference's, and every other object, base and reference among them, is
unchanged. -/
theorem merge_instance_at_fields (fs : field_set) (heap : List Instance) (t b r : Nat)
    (ht : t < heap.length) (htb : t ≠ b)
    (hwp : well_packed fs) (hcov : covers fs (heap.getD t ⟨[], []⟩)._bit_disc)
    (hbr : (heap.getD b ⟨[], []⟩).size = (heap.getD r ⟨[], []⟩).size)
    (hbt : (heap.getD b ⟨[], []⟩).size = (heap.getD t ⟨[], []⟩).size) :
    (fs.merge_instance_at heap t b r).2 = .ok () ∧
      (∀ i, i < fs.raw_size →
        fs.get_raw ((fs.merge_instance_at heap t b r).1.getD t ⟨[], []⟩)._bit_disc i =
          if fs.get_raw (heap.getD b ⟨[], []⟩)._bit_disc i ≠
              fs.get_raw (heap.getD r ⟨[], []⟩)._bit_disc i
          then fs.get_raw (heap.getD r ⟨[], []⟩)._bit_disc i
          else fs.get_raw (heap.getD t ⟨[], []⟩)._bit_disc i) ∧
      ((fs.merge_instance_at heap t b r).1.getD t ⟨[], []⟩)._contin =
        (heap.getD r ⟨[], []⟩)._contin ∧
      (fs.merge_instance_at heap t b r).1.getD b ⟨[], []⟩ = heap.getD b ⟨[], []⟩ ∧
      (fs.merge_instance_at heap t b r).1.getD r ⟨[], []⟩ = heap.getD r ⟨[], []⟩ ∧
      ∀ j, j ≠ t → (fs.merge_instance_at heap t b r).1.getD j ⟨[], []⟩ = heap.getD j ⟨[], []⟩ := by
  by_cases htr : t = r
  · subst htr
    rw [merge_instance_at_self fs heap t b hbt]
    exact ⟨rfl, fun i _ => (ite_self _).symm, rfl, rfl, rfl, fun _ _ => rfl⟩
  rw [merge_instance_at_eq fs heap t b r ht htb htr hbr hbt]
  obtain ⟨_, h2, h3⟩ := merge_instance_fields fs (heap.getD t ⟨[], []⟩) (heap.getD b ⟨[], []⟩)
    (heap.getD r ⟨[], []⟩) hwp hcov hbr hbt
  refine ⟨rfl, ?_, ?_, ?_, ?_, ?_⟩
  · intro i hi
    show fs.get_raw ((heap.set t _).getD t ⟨[], []⟩)._bit_disc i = _
    rw [getD_set_self_inst _ _ _ ht]
    exact h2 i hi
  · show ((heap.set t _).getD t ⟨[], []⟩)._contin = _
    rw [getD_set_self_inst _ _ _ ht]
    exact h3
  · exact getD_set_ne_inst _ _ _ _ htb
  · exact getD_set_ne_inst _ _ _ _ htr
  · exact fun j hj => getD_set_ne_inst _ _ _ _ (fun e => hj e.symm)

/-- C15 (witness): in `fs_full`, with the target, the base (all zero) and the
reference as three objects, the reference differing from the base in the two
term fields and the disc: the target takes those three fields and the
reference's continuous value and keeps its three boolean fields; base and
reference are as they were. -/
theorem merge_instance_at_fields_full :
    (fs_full.merge_instance_at [⟨[0, 22], [0]⟩, ⟨[0, 0], [3]⟩, ⟨[5, 1], [7]⟩] 0 1 2).1 =
        [⟨[5, 21], [7]⟩, ⟨[0, 0], [3]⟩, ⟨[5, 1], [7]⟩] ∧
      (fs_full.merge_instance_at [⟨[0, 22], [0]⟩, ⟨[0, 0], [3]⟩, ⟨[5, 1], [7]⟩] 0 1 2).2
        = .ok () :=
  ⟨by decide, (merge_instance_at_fields fs_full [⟨[0, 22], [0]⟩, ⟨[0, 0], [3]⟩, ⟨[5, 1], [7]⟩]
    0 1 2 (by decide) (by decide) (by decide) (by decide) (by decide) (by decide)).1⟩

/-- C15 (counterexample): in `fs_full`, `merge_instance(x, x, r)`: the target
and the base are the same object `x`, of the same size as the reference `r`.
The base differs from the reference in five raw fields before the call; the
call rewrites them through the target, and after it the object that `base`
names holds the reference's fields and continuous value: the base is not
unchanged. -/
theorem merge_instance_at_aliased :
    well_packed fs_full ∧
    (fs_full.merge_instance_at [⟨[0, 22], [0]⟩, ⟨[5, 1], [7]⟩] 0 0 1).2 = .ok () ∧
      (fs_full.merge_instance_at [⟨[0, 22], [0]⟩, ⟨[5, 1], [7]⟩] 0 0 1).1 =
        [⟨[5, 1], [7]⟩, ⟨[5, 1], [7]⟩] ∧
      (fs_full.merge_instance_at [⟨[0, 22], [0]⟩, ⟨[5, 1], [7]⟩] 0 0 1).1.getD 0 ⟨[], []⟩ ≠
        ([⟨[0, 22], [0]⟩, ⟨[5, 1], [7]⟩] : List Instance).getD 0 ⟨[], []⟩ :=
  ⟨by decide, rfl, by decide, by decide⟩

/-- C16: `merge_instance` fails its assertion if and only if the three
instances do not all have the same size, and a failed call leaves the target
as it was. -/
theorem merge_instance_asserts (fs : field_set) (target base reference : Instance) :
    ((fs.merge_instance target base reference).2 = .error .assertion ↔
        ¬ (base.size = reference.size ∧ base.size = target.size)) ∧
      ((fs.merge_instance target base reference).2 = .error .assertion →
        (fs.merge_instance target base reference).1 = target) := by
  unfold field_set.merge_instance
  by_cases h : base.size = reference.size ∧ base.size = target.size
  · rw [if_pos h]
    refine ⟨⟨?_, fun hn => absurd h hn⟩, ?_⟩
    · intro e; cases e
    · intro e; cases e
  · rw [if_neg h]
    exact ⟨⟨fun _ => h, fun _ => rfl⟩, fun _ => rfl⟩

/-! ### Round trip and frame of `set_raw` -/

/-- C17: for every raw field as a layout has them, at most 32 bits wide (the
width of a 32-bit multiplicity or branching) and within one storage word
(`offset + w ≤ 64`), every packed vector that holds the field's word and every
value `v < 2 ^ w`, `get_raw(i)` after `set_raw(i, v)` returns `v`. -/
theorem set_raw_get_raw_round_trip (fs : field_set) (inst : packed_vec) (i v : Nat)
    (hw : (field_at fs i).width ≤ 32)
    (hfit : (field_at fs i).minor_offset + (field_at fs i).width ≤ 64)
    (hmaj : (field_at fs i).major_offset < inst.length)
    (hv : v < 2 ^ (field_at fs i).width) :
    fs.get_raw (fs.set_raw inst i v) i = v :=
  get_raw_set_raw_same fs inst i v (by omega) hfit hmaj hv

/-- C17 (witness): writing 3 into the two-bit disc field of `fs_full` and
reading it back. -/
theorem set_raw_get_raw_round_trip_full :
    fs_full.get_raw (fs_full.set_raw [0, 22] 2 3) 2 = 3 :=
  set_raw_get_raw_round_trip fs_full [0, 22] 2 3 (by decide) (by decide) (by decide)
    (by decide)

/-- C18: `set_raw(i, v)`, for every packed vector, raw index and value (also
one of `2 ^ width` or more), keeps the number of words, changes no word other
than the one at the field's word index, and in that word changes no bit outside
`[offset, offset + width)`; so every field that does not overlap field `i`
reads the same value as before. -/
theorem set_raw_frame (fs : field_set) (inst : packed_vec) (i v : Nat) :
    (fs.set_raw inst i v).length = inst.length ∧
      (∀ m, m ≠ (field_at fs i).major_offset → (fs.set_raw inst i v).getD m 0 = inst.getD m 0) ∧
      (∀ k, ¬ ((field_at fs i).minor_offset ≤ k ∧
            k < (field_at fs i).minor_offset + (field_at fs i).width) →
        ((fs.set_raw inst i v).getD (field_at fs i).major_offset 0).testBit k =
          (inst.getD (field_at fs i).major_offset 0).testBit k) ∧
      (∀ j, fields_disjoint (field_at fs i) (field_at fs j) →
        fs.get_raw (fs.set_raw inst i v) j = fs.get_raw inst j) := by
  refine ⟨?_, ?_, ?_, ?_⟩
  · rw [set_raw_eq, List.length_set]
  · intro m hm
    rw [set_raw_eq]
    exact getD_set_other _ _ _ _ (fun e => hm e.symm)
  · intro k hk
    rw [set_raw_eq]
    by_cases hlen : (field_at fs i).major_offset < inst.length
    · rw [getD_set_same _ _ _ hlen, testBit_set_word]
      rw [if_neg (fun h => hk ⟨h.1, h.2.1⟩)]
    · rw [getD_set_beyond _ _ _ (by omega)]
  · intro j hd
    exact get_raw_set_raw_other fs inst i j v hd

/-! ### The empty layout -/

/-- C11: for a layout with no raw fields and no continuous knobs, every
distance `d > 0`, every instance and every `max_count`,
`count_neighborhood_size` returns 0; one call frame is all it needs. -/
theorem count_neighborhood_size_empty (fuel : Nat) (term : List term_spec)
    (disc : List disc_spec) (nbool : Nat) (inst : Instance) (d max_count : Nat)
    (hterm : (term.map term_spec.depth).sum = 0) (hd : 0 < d) :
    count_neighborhood_size (fuel + 1) (field_set.of_tables [] term [] disc nbool) inst d
      max_count = .ok 0 := by
  have h0 : ¬ d = 0 := by omega
  have e1 : (field_set.of_tables [] term [] disc nbool).end_term_raw_idx = 0 := hterm
  have e2 : (field_set.of_tables [] term [] disc nbool).end_disc_raw_idx = 0 :=
    Nat.zero_sub nbool
  have e3 : (field_set.of_tables [] term [] disc nbool).end_bit_raw_idx = 0 := rfl
  have e4 : (field_set.of_tables [] term [] disc nbool).n_contin_fields = 0 := rfl
  simp [count_neighborhood_size, count_neighborhood_size_from_index, h0, e1, e2, e3, e4,
    count_contin_neighborhood, to_size_t]

/-- C11 (witness): the default-constructed layout at distance 3 with budget
100. -/
theorem count_neighborhood_size_default :
    count_neighborhood_size 1 field_set.ctor_default (Instance.zero 0 0) 3 100 = .ok 0 :=
  count_neighborhood_size_empty 0 [] [] 0 (Instance.zero 0 0) 3 100 rfl (by decide)

/-! ### Zone boundaries and dimension -/

/-- C19: for a layout whose raw table holds `depth` fields for each term spec
followed by one field for each disc spec, and whose `_nbool` counts the disc
specs of multiplicity 2, `dim_size()` is the number of boolean disc specs plus
the number of other disc specs plus the number of contin specs plus the number
of term specs, and `n_disc_fields()` is `|disc_and_bit()| - n_bits()`. -/
theorem dim_size_counts (fields : List field) (term : List term_spec)
    (contin : List contin_spec) (disc : List disc_spec) (nbool : Nat)
    (hlen : fields.length = (term.map term_spec.depth).sum + disc.length)
    (hbool : nbool = disc.countP fun s => decide (s.multy = 2)) :
    (field_set.of_tables fields term contin disc nbool).dim_size =
        (disc.countP fun s => decide (s.multy = 2)) +
          (disc.countP fun s => decide (s.multy ≠ 2)) + contin.length + term.length ∧
      (field_set.of_tables fields term contin disc nbool).n_disc_fields =
        (field_set.of_tables fields term contin disc nbool).disc_and_bit.length -
          (field_set.of_tables fields term contin disc nbool).n_bits := by
  have hsplit := List.length_eq_countP_add_countP (fun s : disc_spec => decide (s.multy = 2)) disc
  have hneg : (disc.countP fun s => decide (s.multy ≠ 2)) =
      disc.countP fun s => ¬ (decide (s.multy = 2)) = true := by
    congr 1
    funext s
    simp
  have hnd : (field_set.of_tables fields term contin disc nbool).n_disc_fields =
      fields.length - nbool - (term.map term_spec.depth).sum := rfl
  have hnb : (field_set.of_tables fields term contin disc nbool).n_bits = nbool := rfl
  have hda : (field_set.of_tables fields term contin disc nbool).disc_and_bit = disc := rfl
  have hle : (disc.countP fun s => decide (s.multy = 2)) ≤ disc.length := List.countP_le_length _
  refine ⟨?_, ?_⟩
  · show nbool + (field_set.of_tables fields term contin disc nbool).n_disc_fields +
      contin.length + term.length = _
    rw [hnd, hneg]
    omega
  · rw [hnd, hnb, hda]
    omega

/-- C19 (witness): `fs_full` has three boolean discs, one four-valued disc, one
continuous knob and one term spec: its dimension is 6. -/
theorem dim_size_counts_full :
    fs_full.dim_size = 6 ∧
      (fs_full.dim_size =
          ([⟨4⟩, ⟨2⟩, ⟨2⟩, ⟨2⟩].countP fun s : disc_spec => decide (s.multy = 2)) +
            ([⟨4⟩, ⟨2⟩, ⟨2⟩, ⟨2⟩].countP fun s : disc_spec => decide (s.multy ≠ 2)) + 1 + 1 ∧
        fs_full.n_disc_fields = fs_full.disc_and_bit.length - fs_full.n_bits) :=
  ⟨by decide, dim_size_counts
    [⟨2, 0, 0⟩, ⟨2, 0, 2⟩, ⟨2, 1, 0⟩, ⟨1, 1, 2⟩, ⟨1, 1, 3⟩, ⟨1, 1, 4⟩]
    [⟨0, 2, 4⟩] [⟨1, 1, []⟩] [⟨4⟩, ⟨2⟩, ⟨2⟩, ⟨2⟩] 3 (by decide) (by decide)⟩

/-- C20: after `compute_starts`, as every constructor runs it, a layout whose
raw table holds `depth` fields for each term spec followed by one field for
each disc spec, the last `_nbool` of them boolean, has
`0 = begin_term ≤ end_term = begin_disc ≤ end_disc = begin_bit ≤ end_bit =
raw_size()`, with `end_term` the sum of the term specs' depths and
`end_bit - begin_bit = n_bits()`. -/
theorem zone_boundaries (fields : List field) (term : List term_spec)
    (contin : List contin_spec) (disc : List disc_spec) (nbool : Nat)
    (hlen : fields.length = (term.map term_spec.depth).sum + disc.length)
    (hbool : nbool ≤ disc.length) :
    (field_set.of_tables fields term contin disc nbool).begin_term_raw_idx = 0 ∧
      (field_set.of_tables fields term contin disc nbool).begin_term_raw_idx ≤
        (field_set.of_tables fields term contin disc nbool).end_term_raw_idx ∧
      (field_set.of_tables fields term contin disc nbool).end_term_raw_idx =
        (field_set.of_tables fields term contin disc nbool).begin_disc_raw_idx ∧
      (field_set.of_tables fields term contin disc nbool).begin_disc_raw_idx ≤
        (field_set.of_tables fields term contin disc nbool).end_disc_raw_idx ∧
      (field_set.of_tables fields term contin disc nbool).end_disc_raw_idx =
        (field_set.of_tables fields term contin disc nbool).begin_bit_raw_idx ∧
      (field_set.of_tables fields term contin disc nbool).begin_bit_raw_idx ≤
        (field_set.of_tables fields term contin disc nbool).end_bit_raw_idx ∧
      (field_set.of_tables fields term contin disc nbool).end_bit_raw_idx =
        (field_set.of_tables fields term contin disc nbool).raw_size ∧
      (field_set.of_tables fields term contin disc nbool).end_term_raw_idx =
        (term.map term_spec.depth).sum ∧
      (field_set.of_tables fields term contin disc nbool).end_bit_raw_idx -
          (field_set.of_tables fields term contin disc nbool).begin_bit_raw_idx =
        (field_set.of_tables fields term contin disc nbool).n_bits := by
  refine ⟨rfl, Nat.zero_le _, rfl, ?_, rfl, ?_, rfl, rfl, ?_⟩
  · show (term.map term_spec.depth).sum ≤ fields.length - nbool
    omega
  · show fields.length - nbool ≤ fields.length
    omega
  · show fields.length - (fields.length - nbool) = nbool
    omega

/-- C20 (witness): the boundaries of `fs_full` (two term fields, one disc
field, three boolean fields), which its copy shares, and those of the
default-constructed layout. -/
theorem zone_boundaries_full :
    (fs_full.begin_term_raw_idx = 0 ∧
      fs_full.begin_term_raw_idx ≤ fs_full.end_term_raw_idx ∧
      fs_full.end_term_raw_idx = fs_full.begin_disc_raw_idx ∧
      fs_full.begin_disc_raw_idx ≤ fs_full.end_disc_raw_idx ∧
      fs_full.end_disc_raw_idx = fs_full.begin_bit_raw_idx ∧
      fs_full.begin_bit_raw_idx ≤ fs_full.end_bit_raw_idx ∧
      fs_full.end_bit_raw_idx = fs_full.raw_size ∧
      fs_full.end_term_raw_idx = ([⟨0, 2, 4⟩].map term_spec.depth).sum ∧
      fs_full.end_bit_raw_idx - fs_full.begin_bit_raw_idx = fs_full.n_bits) ∧
      (fs_full.end_term_raw_idx, fs_full.end_disc_raw_idx, fs_full.end_bit_raw_idx) = (2, 3, 6) ∧
      field_set.ctor_copy fs_full = fs_full ∧
      field_set.ctor_default = field_set.of_tables [] [] [] [] 0 :=
  ⟨zone_boundaries [⟨2, 0, 0⟩, ⟨2, 0, 2⟩, ⟨2, 1, 0⟩, ⟨1, 1, 2⟩, ⟨1, 1, 3⟩, ⟨1, 1, 4⟩]
    [⟨0, 2, 4⟩] [⟨1, 1, []⟩] [⟨4⟩, ⟨2⟩, ⟨2⟩, ⟨2⟩] 3 (by decide) (by decide),
    by decide, by decide, rfl⟩

/-! ### The branchless update and the clear-then-OR update -/

theorem testBit_clear_or_word (w v k : Nat) (f : field) (hw : w < 2 ^ 64) :
    ((w &&& (2 ^ 64 - 1 - ((2 ^ f.width - 1) <<< f.minor_offset) % 2 ^ 64)) |||
        ((v <<< f.minor_offset) % 2 ^ 64)).testBit k =
      ((w.testBit k && !(decide (f.minor_offset ≤ k) && decide (k < f.minor_offset + f.width)))
        || (decide (k < 64) && decide (f.minor_offset ≤ k) && v.testBit (k - f.minor_offset))) := by
  have hm : ((2 ^ f.width - 1) <<< f.minor_offset) % 2 ^ 64 < 2 ^ 64 :=
    Nat.mod_lt _ (Nat.two_pow_pos 64)
  have hc : 2 ^ 64 - 1 - ((2 ^ f.width - 1) <<< f.minor_offset) % 2 ^ 64 =
      2 ^ 64 - (((2 ^ f.width - 1) <<< f.minor_offset) % 2 ^ 64 + 1) := by omega
  rw [hc]
  simp only [Nat.testBit_or, Nat.testBit_and, Nat.testBit_two_pow_sub_succ hm,
    Nat.testBit_mod_two_pow, Nat.testBit_shiftLeft, Nat.testBit_two_pow_sub_one]
  by_cases h64 : k < 64
  · by_cases h1 : f.minor_offset ≤ k <;> by_cases h2 : k < f.minor_offset + f.width <;>
      by_cases h3 : k - f.minor_offset < f.width <;>
      simp [h64, h1, h2, h3] <;> omega
  · have : w.testBit k = false := Nat.testBit_lt_two_pow (lt_of_lt_of_le hw
      (Nat.pow_le_pow_right (by decide) (by omega)))
    simp [h64, this]

theorem testBit_branchless_update (word v o mask k : Nat) :
    (branchless_update word v o mask).testBit k =
      if k < 64 ∧ o ≤ k ∧ mask.testBit (k - o) = true
      then v.testBit (k - o) else word.testBit k := by
  unfold branchless_update
  simp only [Nat.testBit_xor, Nat.testBit_and, Nat.testBit_mod_two_pow,
    Nat.testBit_shiftLeft]
  by_cases h1 : o ≤ k <;> by_cases h2 : k < 64 <;>
    by_cases h3 : mask.testBit (k - o) = true <;> simp [h1, h2, h3]

theorem testBit_clear_or_update (word v o w k : Nat) (hw : word < 2 ^ 64) :
    (clear_or_update word v o (2 ^ w - 1)).testBit k =
      ((word.testBit k && !(decide (o ≤ k) && decide (k < o + w)))
        || (decide (k < 64) && decide (o ≤ k) && v.testBit (k - o))) :=
  testBit_clear_or_word word v k ⟨w, 0, o⟩ hw

/-! ### Fuel and termination of the counting recursion -/

theorem multy_ne_out_of_fuel (it : const_disc_iterator) :
    it.multy ≠ .error .out_of_fuel := by
  unfold const_disc_iterator.multy field_set.raw_to_disc_idx
  simp only
  by_cases h : it._idx ≥ it._fs.begin_disc_raw_idx ∧ it._idx < it._fs.end_disc_raw_idx
  · rw [if_pos h]
    simp only
    cases it._fs.disc_and_bit.get? (it._idx - it._fs.begin_disc_raw_idx) <;> simp
  · rw [if_neg h]
    simp

theorem binomial_coefficient_double_ne_out_of_fuel (a b : Nat) :
    binomial_coefficient_double a b ≠ .error .out_of_fuel := by
  intro h
  unfold binomial_coefficient_double at h
  by_cases h1 : b > a
  · rw [if_pos h1] at h
    injection h with h
    cases h
  · rw [if_neg h1] at h
    by_cases h2 : b = 0 ∨ b = a
    · rw [if_pos h2] at h
      cases h
    · rw [if_neg h2] at h
      by_cases h3 : b = 1 ∨ b = a - 1
      · rw [if_pos h3] at h
        cases h
      · rw [if_neg h3] at h
        by_cases h4 : a ≤ max_factorial
        · rw [if_pos h4] at h
          cases h
        · rw [if_neg h4] at h
          simp only at h
          by_cases h5 : round_to_double (a.choose b) < DBL_OVERFLOW
          · rw [if_pos h5] at h
            cases h
          · rw [if_neg h5] at h
            injection h with h
            cases h

theorem safe_binomial_coefficient_ne_out_of_fuel (a b : Nat) :
    safe_binomial_coefficient a b ≠ .error .out_of_fuel := by
  unfold safe_binomial_coefficient
  cases h : binomial_coefficient_double a b with
  | error e =>
    simp only
    intro hc
    injection hc with hc
    subst hc
    exact binomial_coefficient_double_ne_out_of_fuel a b h
  | ok x =>
    simp only [numeric_cast_size_t]
    split_ifs <;> simp

/-- One more unit of fuel does not change a result that was not cut off. -/
theorem count_from_index_fuel_succ (fs : field_set) (inst : Instance) (max_count : Nat) :
    ∀ (fuel d s : Nat) (x : Except fault Nat),
      count_neighborhood_size_from_index fuel fs inst d s max_count = x →
      x ≠ .error .out_of_fuel →
      count_neighborhood_size_from_index (fuel + 1) fs inst d s max_count = x := by
  intro fuel
  induction fuel with
  | zero =>
    intro d s x h hx
    rw [count_neighborhood_size_from_index] at h
    exact absurd h.symm hx
  | succ n ih =>
    intro d s x h hx
    rw [count_neighborhood_size_from_index] at h ⊢
    by_cases hd : d = 0
    · rw [if_pos hd] at h ⊢; exact h
    rw [if_neg hd] at h ⊢
    by_cases ht : fs.begin_term_raw_idx ≤ s ∧ s < fs.end_term_raw_idx
    · rw [if_pos ht] at h ⊢
      exact ih _ _ _ h hx
    rw [if_neg ht] at h ⊢
    by_cases hdisc : fs.begin_disc_raw_idx ≤ s ∧ s < fs.end_disc_raw_idx
    · rw [if_pos hdisc] at h ⊢
      cases h1 : count_neighborhood_size_from_index n fs inst d (to_unsigned (s + 1)) max_count with
      | error e =>
        rw [h1] at h
        have he : x = .error e := h.symm
        subst he
        rw [ih _ _ _ h1 hx]
      | ok r =>
        rw [h1] at h
        rw [ih _ _ _ h1 (by simp)]
        simp only at h ⊢
        by_cases hr : r > max_count
        · rw [if_pos hr] at h ⊢; exact h
        rw [if_neg hr] at h ⊢
        cases hm : ((fs.begin_disc inst).advance (s - fs.begin_disc_raw_idx)).multy with
        | error e => rw [hm] at h; simpa using h
        | ok m =>
          rw [hm] at h
          simp only at h ⊢
          cases h2 : count_neighborhood_size_from_index n fs inst (d - 1) (to_unsigned (s + 1))
              max_count with
          | error e =>
            rw [h2] at h
            have he : x = .error e := h.symm
            subst he
            rw [ih _ _ _ h2 hx]
          | ok c =>
            rw [h2] at h
            rw [ih _ _ _ h2 (by simp)]
            exact h
    rw [if_neg hdisc] at h ⊢
    exact h

theorem count_from_index_returns (fs : field_set) (inst : Instance) (max_count : Nat)
    (hT : fs.end_term_raw_idx < 2 ^ 32) (hD : fs.end_disc_raw_idx < 2 ^ 32) :
    ∀ (fuel d s : Nat), frames_ahead fs s < fuel →
      count_neighborhood_size_from_index fuel fs inst d s max_count ≠ .error .out_of_fuel := by
  intro fuel
  induction fuel with
  | zero => intro d s h; omega
  | succ n ih =>
    intro d s hfuel
    rw [count_neighborhood_size_from_index]
    by_cases hd : d = 0
    · rw [if_pos hd]; simp
    rw [if_neg hd]
    by_cases ht : fs.begin_term_raw_idx ≤ s ∧ s < fs.end_term_raw_idx
    · rw [if_pos ht]
      apply ih
      have hs := ht.2
      unfold frames_ahead at hfuel ⊢
      rw [if_pos hs] at hfuel
      unfold to_unsigned
      split_ifs <;> omega
    rw [if_neg ht]
    have hns : ¬ s < fs.end_term_raw_idx := fun h => ht ⟨Nat.zero_le _, h⟩
    by_cases hdisc : fs.begin_disc_raw_idx ≤ s ∧ s < fs.end_disc_raw_idx
    · rw [if_pos hdisc]
      have hnext : frames_ahead fs (to_unsigned (s + 1)) < n := by
        unfold frames_ahead at hfuel ⊢
        rw [if_neg hns] at hfuel
        have h1 : to_unsigned (s + 1) = s + 1 := to_unsigned_of_lt _ (by omega)
        rw [h1, if_neg (by omega)]
        omega
      have h1 := ih d _ hnext
      have h2 := ih (d - 1) _ hnext
      cases e1 : count_neighborhood_size_from_index n fs inst d (to_unsigned (s + 1)) max_count with
      | error e => rw [e1] at h1; simpa using h1
      | ok r =>
        simp only
        by_cases hr : r > max_count
        · rw [if_pos hr]; simp
        rw [if_neg hr]
        have hm := multy_ne_out_of_fuel ((fs.begin_disc inst).advance (s - fs.begin_disc_raw_idx))
        cases em : ((fs.begin_disc inst).advance (s - fs.begin_disc_raw_idx)).multy with
        | error e => rw [em] at hm; simpa using hm
        | ok m =>
          simp only
          cases e2 : count_neighborhood_size_from_index n fs inst (d - 1) (to_unsigned (s + 1))
              max_count with
          | error e => rw [e2] at h2; simpa using h2
          | ok c => simp
    rw [if_neg hdisc]
    by_cases hbit : fs.begin_bit_raw_idx ≤ s ∧ s < fs.end_bit_raw_idx
    · rw [if_pos hbit]
      simp only
      split_ifs
      · exact safe_binomial_coefficient_ne_out_of_fuel _ _
      · simp
    · rw [if_neg hbit]; simp

theorem count_from_index_fuel_le (fs : field_set) (inst : Instance) (max_count d s : Nat)
    (fuel fuel2 : Nat) (hle : fuel ≤ fuel2)
    (h : count_neighborhood_size_from_index fuel fs inst d s max_count ≠ .error .out_of_fuel) :
    count_neighborhood_size_from_index fuel2 fs inst d s max_count =
      count_neighborhood_size_from_index fuel fs inst d s max_count := by
  induction fuel2 with
  | zero =>
    have : fuel = 0 := by omega
    rw [this]
  | succ n ih =>
    by_cases hn : fuel = n + 1
    · rw [hn]
    · have h1 := ih (by omega)
      exact count_from_index_fuel_succ fs inst max_count n d s _ h1 h

/-! ### Layouts of 2 ^ 32 raw fields -/

theorem fs_ternary_zones (n : Nat) :
    (fs_ternary n).end_term_raw_idx = 0 ∧ (fs_ternary n).begin_disc_raw_idx = 0 ∧
      (fs_ternary n).end_disc_raw_idx = n ∧ (fs_ternary n).raw_size = n := by
  simp [fs_ternary, field_set.of_tables, field_set.compute_starts,
    field_set.end_term_raw_idx, field_set.begin_disc_raw_idx, field_set.end_disc_raw_idx,
    field_set.raw_size]

theorem fs_ternary_never_returns (n : Nat) (hn : 2 ^ 32 ≤ n) (inst : Instance)
    (max_count : Nat) :
    ∀ (fuel d s : Nat), 0 < d → s < 2 ^ 32 →
      count_neighborhood_size_from_index fuel (fs_ternary n) inst d s max_count
        = .error .out_of_fuel := by
  obtain ⟨hT, hB, hD, _⟩ := fs_ternary_zones n
  intro fuel
  induction fuel with
  | zero => intro d s _ _; rfl
  | succ k ih =>
    intro d s hd hs
    rw [count_neighborhood_size_from_index]
    rw [if_neg (by omega), hT, hB, hD]
    rw [if_neg (by omega), if_pos ⟨Nat.zero_le _, by omega⟩]
    rw [ih d (to_unsigned (s + 1)) hd (Nat.mod_lt _ (by decide))]

theorem fs_term_ternary_zones (n : Nat) :
    (fs_term_ternary n).end_term_raw_idx = 1 ∧ (fs_term_ternary n).begin_disc_raw_idx = 1 ∧
      (fs_term_ternary n).end_disc_raw_idx = n + 1 ∧ (fs_term_ternary n).raw_size = n + 1 := by
  simp [fs_term_ternary, field_set.of_tables, field_set.compute_starts,
    field_set.end_term_raw_idx, field_set.begin_disc_raw_idx, field_set.end_disc_raw_idx,
    field_set.raw_size]

theorem fs_term_ternary_never_returns (n : Nat) (hn : 2 ^ 32 ≤ n + 1) (inst : Instance)
    (max_count : Nat) :
    ∀ (fuel d s : Nat), 0 < d → s < 2 ^ 32 →
      count_neighborhood_size_from_index fuel (fs_term_ternary n) inst d s max_count
        = .error .out_of_fuel := by
  obtain ⟨hT, hB, hD, _⟩ := fs_term_ternary_zones n
  intro fuel
  induction fuel with
  | zero => intro d s _ _; rfl
  | succ k ih =>
    intro d s hd hs
    rw [count_neighborhood_size_from_index]
    rw [if_neg (by omega), hT, hB, hD]
    by_cases h0 : s = 0
    · subst h0
      rw [if_pos ⟨Nat.zero_le _, by omega⟩]
      exact ih d _ hd (Nat.mod_lt _ (by decide))
    · rw [if_neg (by omega), if_pos ⟨by omega, by omega⟩]
      rw [ih d (to_unsigned (s + 1)) hd (Nat.mod_lt _ (by decide))]

/-! ### The term zone -/

theorem multy_without_term (fields : List field) (term : List term_spec)
    (contin : List contin_spec) (disc : List disc_spec) (nbool : Nat) (inst : Instance)
    (s : Nat) (h : s + (term.map term_spec.depth).sum < fields.length - nbool) :
    (((field_set.of_tables fields term contin disc nbool).without_term.begin_disc inst).advance
        (s - (field_set.of_tables fields term contin disc nbool).without_term.begin_disc_raw_idx)).multy =
      (((field_set.of_tables fields term contin disc nbool).begin_disc inst).advance
        (s + (term.map term_spec.depth).sum -
          (field_set.of_tables fields term contin disc nbool).begin_disc_raw_idx)).multy := by
  simp only [const_disc_iterator.multy, const_disc_iterator.advance, field_set.begin_disc,
    field_set.raw_to_disc_idx, field_set.without_term, field_set.of_tables,
    field_set.compute_starts, field_set.begin_disc_raw_idx, field_set.end_disc_raw_idx,
    field_set.end_term_raw_idx, field_set.disc_and_bit, List.map_nil, List.sum_nil,
    List.length_drop]
  have c1 : (0 + (s - 0) ≥ 0 ∧ 0 + (s - 0) <
      fields.length - (term.map term_spec.depth).sum - nbool) := ⟨Nat.zero_le _, by omega⟩
  have c2 : ((term.map term_spec.depth).sum + (s + (term.map term_spec.depth).sum -
      (term.map term_spec.depth).sum) ≥ (term.map term_spec.depth).sum ∧
      (term.map term_spec.depth).sum + (s + (term.map term_spec.depth).sum -
      (term.map term_spec.depth).sum) < fields.length - nbool) := ⟨by omega, by omega⟩
  rw [if_pos c1, if_pos c2]
  have e : 0 + (s - 0) - 0 = (term.map term_spec.depth).sum + (s + (term.map term_spec.depth).sum -
      (term.map term_spec.depth).sum) - (term.map term_spec.depth).sum := by omega
  rw [e]

theorem of_tables_zones (fields : List field) (term : List term_spec)
    (contin : List contin_spec) (disc : List disc_spec) (nbool : Nat) :
    (field_set.of_tables fields term contin disc nbool).end_term_raw_idx
        = (term.map term_spec.depth).sum ∧
      (field_set.of_tables fields term contin disc nbool).begin_disc_raw_idx
        = (term.map term_spec.depth).sum ∧
      (field_set.of_tables fields term contin disc nbool).end_disc_raw_idx
        = fields.length - nbool ∧
      (field_set.of_tables fields term contin disc nbool).begin_bit_raw_idx
        = fields.length - nbool ∧
      (field_set.of_tables fields term contin disc nbool).end_bit_raw_idx = fields.length :=
  ⟨rfl, rfl, rfl, rfl, rfl⟩

theorem without_term_zones (fields : List field) (term : List term_spec)
    (contin : List contin_spec) (disc : List disc_spec) (nbool : Nat) :
    (field_set.of_tables fields term contin disc nbool).without_term.end_term_raw_idx = 0 ∧
      (field_set.of_tables fields term contin disc nbool).without_term.begin_disc_raw_idx = 0 ∧
      (field_set.of_tables fields term contin disc nbool).without_term.end_disc_raw_idx
        = fields.length - (term.map term_spec.depth).sum - nbool ∧
      (field_set.of_tables fields term contin disc nbool).without_term.begin_bit_raw_idx
        = fields.length - (term.map term_spec.depth).sum - nbool ∧
      (field_set.of_tables fields term contin disc nbool).without_term.end_bit_raw_idx
        = fields.length - (term.map term_spec.depth).sum := by
  simp [field_set.without_term, field_set.of_tables, field_set.compute_starts,
    field_set.end_term_raw_idx, field_set.begin_disc_raw_idx, field_set.end_disc_raw_idx,
    field_set.begin_bit_raw_idx, field_set.end_bit_raw_idx]

/-- Counting in the layout without its term fields is counting in the layout
itself with every raw index moved up by the number of term fields. -/
theorem count_from_index_without_term (fields : List field) (term : List term_spec)
    (contin : List contin_spec) (disc : List disc_spec) (nbool : Nat) (inst : Instance)
    (max_count : Nat) (hsmall : fields.length < 2 ^ 32) :
    ∀ (fuel d s : Nat),
      count_neighborhood_size_from_index fuel
          (field_set.of_tables fields term contin disc nbool).without_term inst d s max_count =
        count_neighborhood_size_from_index fuel
          (field_set.of_tables fields term contin disc nbool) inst d
          (s + (term.map term_spec.depth).sum) max_count := by
  obtain ⟨a1, a2, a3, a4, a5⟩ := of_tables_zones fields term contin disc nbool
  obtain ⟨b1, b2, b3, b4, b5⟩ := without_term_zones fields term contin disc nbool
  intro fuel
  induction fuel with
  | zero => intro d s; rfl
  | succ n ih =>
    intro d s
    rw [count_neighborhood_size_from_index, count_neighborhood_size_from_index]
    by_cases hd : d = 0
    · rw [if_pos hd, if_pos hd]
    rw [if_neg hd, if_neg hd]
    have t1 : ¬ ((field_set.of_tables fields term contin disc nbool).without_term.begin_term_raw_idx
        ≤ s ∧ s < 0) := by omega
    have t2 : ¬ ((field_set.of_tables fields term contin disc nbool).begin_term_raw_idx
        ≤ s + (term.map term_spec.depth).sum ∧
        s + (term.map term_spec.depth).sum < (term.map term_spec.depth).sum) := by omega
    rw [b1, a1, if_neg t1, if_neg t2, b2, b3, a2, a3, b4, b5, a4, a5]
    by_cases hdisc : s + (term.map term_spec.depth).sum < fields.length - nbool
    · have hm := multy_without_term fields term contin disc nbool inst s hdisc
      rw [b2, a2] at hm
      have d1 : 0 ≤ s ∧ s < fields.length - (term.map term_spec.depth).sum - nbool :=
        ⟨Nat.zero_le _, by omega⟩
      have d2 : (term.map term_spec.depth).sum ≤ s + (term.map term_spec.depth).sum ∧
          s + (term.map term_spec.depth).sum < fields.length - nbool := ⟨by omega, hdisc⟩
      rw [if_pos d1, if_pos d2]
      have e1 : to_unsigned (s + (term.map term_spec.depth).sum + 1) =
          to_unsigned (s + 1) + (term.map term_spec.depth).sum := by
        rw [to_unsigned_of_lt _ (by omega), to_unsigned_of_lt _ (by omega)]
        omega
      rw [e1, ih d, ih (d - 1)]
      simp only [hm]
    · have d1 : ¬ (0 ≤ s ∧ s < fields.length - (term.map term_spec.depth).sum - nbool) := by
        omega
      have d2 : ¬ ((term.map term_spec.depth).sum ≤ s + (term.map term_spec.depth).sum ∧
          s + (term.map term_spec.depth).sum < fields.length - nbool) := fun h => hdisc h.2
      rw [if_neg d1, if_neg d2]
      by_cases hbit : fields.length - nbool ≤ s + (term.map term_spec.depth).sum ∧
          s + (term.map term_spec.depth).sum < fields.length
      · have g1 : fields.length - (term.map term_spec.depth).sum - nbool ≤ s ∧
            s < fields.length - (term.map term_spec.depth).sum := ⟨by omega, by omega⟩
        rw [if_pos g1, if_pos hbit]
        have e2 : fields.length - (term.map term_spec.depth).sum - s =
            fields.length - (s + (term.map term_spec.depth).sum) := by omega
        rw [e2]
      · have g1 : ¬ (fields.length - (term.map term_spec.depth).sum - nbool ≤ s ∧
            s < fields.length - (term.map term_spec.depth).sum) := by omega
        rw [if_neg g1, if_neg hbit]

/-! ### Lower bounds -/

theorem size_resize (deme : instance_set) (n : Nat) : (deme.resize n).size = n := by
  simp only [instance_set.resize, instance_set.size, List.length_append, List.length_take,
    List.length_replicate]
  omega

theorem size_write_range (deme : instance_set) (first : Nat) (w : slot_writer) :
    (deme.write_range first w).size = deme.size := by
  simp only [instance_set.write_range, instance_set.size, List.length_append, List.length_take,
    List.length_mapIdx, List.length_drop]
  omega

theorem take_write_range_resize (deme : instance_set) (n : Nat) (w : slot_writer)
    (h : deme.size ≤ n) :
    ((deme.resize n).write_range deme.size w).instances.take deme.size = deme.instances := by
  simp only [instance_set.write_range, instance_set.resize, instance_set.size] at h ⊢
  rw [List.take_of_length_le h, List.take_left, List.take_left]

/-- The total that `sample_new_instances` settles on: the estimate, or a fresh
count when twice the request exceeds the estimate. -/
theorem sample_new_instances_error (fuel : Nat) (ext : neighborhood_routines)
    (est req cur : Nat) (center : Instance) (deme : instance_set) (d : Nat)
    (markers : marker_vec) (e : fault)
    (ht : (if to_size_t (2 * req) > est then
        count_neighborhood_size fuel deme.fields center d req else .ok est) = .error e) :
    sample_new_instances fuel ext est req cur center deme d markers = (deme, .error e) := by
  unfold sample_new_instances
  rw [ht]

theorem sample_new_instances_ok (fuel : Nat) (ext : neighborhood_routines)
    (est req cur : Nat) (center : Instance) (deme : instance_set) (d : Nat)
    (markers : marker_vec) (t : Nat)
    (ht : (if to_size_t (2 * req) > est then
        count_neighborhood_size fuel deme.fields center d req else .ok est) = .ok t)
    (hcur : cur + req < 2 ^ 64) :
    sample_new_instances fuel ext est req cur center deme d markers =
      if req < t then
        ((deme.resize (cur + req)).write_range cur
          (ext.sample_from_neighborhood deme.fields d req center markers cur), .ok req)
      else
        ((deme.resize (cur + t)).write_range cur
          (ext.generate_all_in_neighborhood deme.fields d center), .ok t) := by
  unfold sample_new_instances
  rw [ht]
  simp only
  by_cases h : req < t
  · rw [if_pos h, if_pos h, to_size_t_of_lt _ hcur, size_resize, if_pos (Nat.le_add_right _ _)]
  · rw [if_neg h, if_neg h, to_size_t_of_lt _ (by omega), size_resize,
      if_pos (Nat.le_add_right _ _)]

/-- C30: for every 64-bit word, width `w` and offset `o` with `o + w ≤ 64`
(the full word included) and every value `v < 2 ^ w`, the branchless update
`word ^ ((word ^ (v << o)) & (mask << o))` and the clear-then-OR update
`(word & ~(mask << o)) | (v << o)`, both with `mask = 2 ^ w - 1`, give the same
word; and the word `set_raw` writes for a field narrower than the word is the
branchless update with that mask. -/
theorem branchless_update_eq_clear_or (word w o v : Nat) (hword : word < 2 ^ 64)
    (hfit : o + w ≤ 64) (hv : v < 2 ^ w) :
    branchless_update word v o (2 ^ w - 1) = clear_or_update word v o (2 ^ w - 1) ∧
    (w < 64 → ∀ (fs : field_set) (inst : packed_vec) (i : Nat),
      (field_at fs i).width = w → (field_at fs i).minor_offset = o →
        fs.set_raw inst i v =
          inst.set (field_at fs i).major_offset
            (branchless_update (inst.getD (field_at fs i).major_offset 0) v o (2 ^ w - 1))) := by
  refine ⟨?_, ?_⟩
  · apply Nat.eq_of_testBit_eq
    intro k
    rw [testBit_branchless_update, testBit_clear_or_update _ _ _ _ _ hword]
    by_cases h1 : o ≤ k
    · by_cases h2 : k < o + w
      · have h64 : k < 64 := by omega
        have h3 : k - o < w := by omega
        simp [h1, h2, h64, h3]
      · have hvb : v.testBit (k - o) = false :=
          Nat.testBit_lt_two_pow (lt_of_lt_of_le hv (Nat.pow_le_pow_right (by decide) (by omega)))
        have h3 : ¬ k - o < w := by omega
        simp [h1, h2, hvb, h3]
    · simp [h1]
  · intro hw fs inst i h1 h2
    rw [set_raw_eq, h1, h2]
    have hm : (1 <<< w) % 2 ^ 64 = 2 ^ w := by
      rw [Nat.one_shiftLeft]
      exact Nat.mod_eq_of_lt (Nat.pow_lt_pow_right (by decide) hw)
    rw [hm]
    rfl

/-- C30 (witness): writing 1 over the two-bit field at offset 0 of the word
22, and 5 over all 64 bits of it, both ways. -/
theorem branchless_update_eq_clear_or_word :
    branchless_update 22 1 0 (2 ^ 2 - 1) = 21 ∧
      branchless_update 22 5 0 (2 ^ 64 - 1) = 5 ∧
      branchless_update 22 1 0 (2 ^ 2 - 1) = clear_or_update 22 1 0 (2 ^ 2 - 1) ∧
      branchless_update 22 5 0 (2 ^ 64 - 1) = clear_or_update 22 5 0 (2 ^ 64 - 1) :=
  ⟨by decide, by decide,
    (branchless_update_eq_clear_or 22 2 0 1 (by decide) (by decide) (by decide)).1,
    (branchless_update_eq_clear_or 22 64 0 5 (by decide) (by decide) (by decide)).1⟩

/-- C29 (amended): for every layout with fewer than 2 ^ 32 raw fields (its term
fields among them), every instance, distance, starting index and budget,
`count_neighborhood_size_from_index` terminates: twice the number of raw fields
plus two call frames are enough, and more fuel does not change the outcome. -/
theorem count_from_index_terminates (fields : List field) (term : List term_spec)
    (contin : List contin_spec) (disc : List disc_spec) (nbool : Nat) (inst : Instance)
    (d s max_count fuel : Nat)
    (hterm : (term.map term_spec.depth).sum ≤ fields.length)
    (hsmall : fields.length < 2 ^ 32)
    (hfuel : 2 * fields.length + 2 ≤ fuel) :
    count_neighborhood_size_from_index fuel
        (field_set.of_tables fields term contin disc nbool) inst d s max_count
      ≠ .error .out_of_fuel ∧
    ∀ fuel2, fuel ≤ fuel2 →
      count_neighborhood_size_from_index fuel2
          (field_set.of_tables fields term contin disc nbool) inst d s max_count =
        count_neighborhood_size_from_index fuel
          (field_set.of_tables fields term contin disc nbool) inst d s max_count := by
  obtain ⟨a1, _, a3, _, _⟩ := of_tables_zones fields term contin disc nbool
  have hret := count_from_index_returns (field_set.of_tables fields term contin disc nbool)
    inst max_count (by rw [a1]; omega) (by rw [a3]; omega) fuel d s
    (by
      unfold frames_ahead
      rw [a1, a3]
      split_ifs <;> omega)
  exact ⟨hret, fun fuel2 h2 => count_from_index_fuel_le _ inst max_count d s fuel fuel2 h2 hret⟩

/-- C29 (witness): in `fs_full` (two term fields, a four-valued disc and three
boolean fields) the count at distance 2 from index 0 passes the term zone,
recurses through the disc field and reaches the bit zone; with 14 call frames
it returns 12, and more fuel gives the same. -/
theorem count_from_index_terminates_full :
    count_neighborhood_size_from_index 14 fs_full ⟨[0, 22], [0]⟩ 2 0 100 = .ok 12 ∧
    (count_neighborhood_size_from_index 14 fs_full ⟨[0, 22], [0]⟩ 2 0 100
        ≠ .error .out_of_fuel ∧
    ∀ fuel2, 14 ≤ fuel2 →
      count_neighborhood_size_from_index fuel2 fs_full ⟨[0, 22], [0]⟩ 2 0 100 =
        count_neighborhood_size_from_index 14 fs_full ⟨[0, 22], [0]⟩ 2 0 100) :=
  ⟨rfl, count_from_index_terminates
    [⟨2, 0, 0⟩, ⟨2, 0, 2⟩, ⟨2, 1, 0⟩, ⟨1, 1, 2⟩, ⟨1, 1, 3⟩, ⟨1, 1, 4⟩]
    [⟨0, 2, 4⟩] [⟨1, 1, []⟩] [⟨4⟩, ⟨2⟩, ⟨2⟩, ⟨2⟩] 3 ⟨[0, 22], [0]⟩ 2 0 100 14 (by decide)
    (by decide) (by decide)⟩

/-- C29 (counterexample): a layout of 2 ^ 32 three-valued discs.  Every
`unsigned` index lies in its disc zone, so the index that follows 2 ^ 32 - 1
is 0 again and the "unchanged" recursion at distance 1 never leaves the zone:
no amount of fuel makes the call return. -/
theorem count_from_index_never_returns :
    (fs_ternary (2 ^ 32)).raw_size = 2 ^ 32 ∧
      (fs_ternary (2 ^ 32)).end_disc_raw_idx = 2 ^ 32 ∧
      to_unsigned (2 ^ 32 - 1 + 1) = 0 ∧
      ∀ fuel, count_neighborhood_size_from_index fuel (fs_ternary (2 ^ 32))
        (Instance.zero (2 ^ 27) 0) 1 0 100 = .error .out_of_fuel :=
  ⟨(fs_ternary_zones (2 ^ 32)).2.2.2, (fs_ternary_zones (2 ^ 32)).2.2.1, by decide,
    fun fuel => fs_ternary_never_returns (2 ^ 32) le_rfl _ 100 fuel 1 0 (by decide) (by decide)⟩

/-- C28 (amended): for every layout with `T > 0` term raw fields, every
distance and budget, the call at index 0 is the call at `begin_disc_raw_idx`
one frame further down; and when the layout has fewer than 2 ^ 32 raw fields
(the term fields among them) both calls return, with the same outcome, which
is also the outcome on the same layout with its term fields removed. -/
theorem count_from_index_skips_term_zone (fields : List field) (term : List term_spec)
    (contin : List contin_spec) (disc : List disc_spec) (nbool : Nat) (inst : Instance)
    (d max_count : Nat) (hT : 0 < (term.map term_spec.depth).sum) :
    (∀ fuel, count_neighborhood_size_from_index (fuel + 1)
          (field_set.of_tables fields term contin disc nbool) inst d 0 max_count =
        if d = 0 then .ok 1
        else count_neighborhood_size_from_index fuel
          (field_set.of_tables fields term contin disc nbool) inst d
          (to_unsigned (field_set.of_tables fields term contin disc nbool).begin_disc_raw_idx)
          max_count) ∧
    ((term.map term_spec.depth).sum ≤ fields.length → fields.length < 2 ^ 32 →
      ∀ fuel, 2 * fields.length + 3 ≤ fuel →
        count_neighborhood_size_from_index fuel
            (field_set.of_tables fields term contin disc nbool) inst d 0 max_count
          ≠ .error .out_of_fuel ∧
        count_neighborhood_size_from_index fuel
            (field_set.of_tables fields term contin disc nbool) inst d 0 max_count =
          count_neighborhood_size_from_index fuel
            (field_set.of_tables fields term contin disc nbool) inst d
            (field_set.of_tables fields term contin disc nbool).begin_disc_raw_idx max_count ∧
        count_neighborhood_size_from_index fuel
            (field_set.of_tables fields term contin disc nbool) inst d 0 max_count =
          count_neighborhood_size_from_index fuel
            (field_set.of_tables fields term contin disc nbool).without_term inst d 0
            max_count) := by
  obtain ⟨a1, a2, a3, _, _⟩ := of_tables_zones fields term contin disc nbool
  have hstep : ∀ fuel, count_neighborhood_size_from_index (fuel + 1)
        (field_set.of_tables fields term contin disc nbool) inst d 0 max_count =
      if d = 0 then .ok 1
      else count_neighborhood_size_from_index fuel
        (field_set.of_tables fields term contin disc nbool) inst d
        (to_unsigned (field_set.of_tables fields term contin disc nbool).begin_disc_raw_idx)
        max_count := by
    intro fuel
    rw [count_neighborhood_size_from_index]
    by_cases hd : d = 0
    · rw [if_pos hd, if_pos hd]
    · have c : (field_set.of_tables fields term contin disc nbool).begin_term_raw_idx ≤ 0 ∧
          0 < (field_set.of_tables fields term contin disc nbool).end_term_raw_idx :=
        ⟨Nat.le_refl _, by rw [a1]; exact hT⟩
      rw [if_neg hd, if_neg hd, if_pos c, Nat.zero_add, a1, a2]
  refine ⟨hstep, ?_⟩
  intro hterm hsmall fuel hfuel
  obtain ⟨f, rfl⟩ : ∃ f, fuel = f + 1 := ⟨fuel - 1, by omega⟩
  have hbd : to_unsigned (field_set.of_tables fields term contin disc nbool).begin_disc_raw_idx
      = (field_set.of_tables fields term contin disc nbool).begin_disc_raw_idx :=
    to_unsigned_of_lt _ (by rw [a2]; omega)
  -- the call at `begin_disc_raw_idx` returns with `f` frames
  have hret : ∀ s, count_neighborhood_size_from_index f
      (field_set.of_tables fields term contin disc nbool) inst d s max_count
        ≠ .error .out_of_fuel := fun s =>
    count_from_index_returns (field_set.of_tables fields term contin disc nbool)
      inst max_count (by rw [a1]; omega) (by rw [a3]; omega) f d s
      (by
        unfold frames_ahead
        rw [a1, a3]
        split_ifs <;> omega)
  have hup : ∀ s, count_neighborhood_size_from_index (f + 1)
      (field_set.of_tables fields term contin disc nbool) inst d s max_count =
      count_neighborhood_size_from_index f
        (field_set.of_tables fields term contin disc nbool) inst d s max_count := fun s =>
    count_from_index_fuel_le _ inst max_count d s f (f + 1) (Nat.le_succ f) (hret s)
  have h0 : count_neighborhood_size_from_index (f + 1)
      (field_set.of_tables fields term contin disc nbool) inst d 0 max_count =
      count_neighborhood_size_from_index (f + 1)
        (field_set.of_tables fields term contin disc nbool) inst d
        (field_set.of_tables fields term contin disc nbool).begin_disc_raw_idx max_count := by
    by_cases hd : d = 0
    · subst hd
      rw [count_neighborhood_size_from_index, count_neighborhood_size_from_index]
      simp
    · rw [hstep f, if_neg hd, hbd, hup]
  refine ⟨?_, h0, ?_⟩
  · rw [hup]; exact hret 0
  · rw [h0, count_from_index_without_term fields term contin disc nbool inst max_count hsmall
      (f + 1) d 0, Nat.zero_add, a2]

/-- C28 (witness): in `fs_full` (two term fields) the count at distance 1 from
index 0 returns 6, as does the count from `begin_disc_raw_idx` and that of the
layout without its term fields. -/
theorem count_from_index_skips_term_zone_full :
    count_neighborhood_size_from_index 15 fs_full ⟨[0, 22], [0]⟩ 1 0 100 = .ok 6 ∧
      (count_neighborhood_size_from_index 15 fs_full ⟨[0, 22], [0]⟩ 1 0 100
          ≠ .error .out_of_fuel ∧
        count_neighborhood_size_from_index 15 fs_full ⟨[0, 22], [0]⟩ 1 0 100 =
          count_neighborhood_size_from_index 15 fs_full ⟨[0, 22], [0]⟩ 1
            fs_full.begin_disc_raw_idx 100 ∧
        count_neighborhood_size_from_index 15 fs_full ⟨[0, 22], [0]⟩ 1 0 100 =
          count_neighborhood_size_from_index 15 fs_full.without_term ⟨[0, 22], [0]⟩ 1 0
            100) :=
  ⟨rfl, (count_from_index_skips_term_zone
    [⟨2, 0, 0⟩, ⟨2, 0, 2⟩, ⟨2, 1, 0⟩, ⟨1, 1, 2⟩, ⟨1, 1, 3⟩, ⟨1, 1, 4⟩]
    [⟨0, 2, 4⟩] [⟨1, 1, []⟩] [⟨4⟩, ⟨2⟩, ⟨2⟩, ⟨2⟩] 3 ⟨[0, 22], [0]⟩ 1 100 (by decide)).2
    (by decide) (by decide) 15 (by decide)⟩

/-- C28 (counterexample): one term field followed by 2 ^ 32 - 1 three-valued
discs, 2 ^ 32 raw fields in all.  From index 0 (and from `begin_disc_raw_idx`)
the index runs through the disc zone, wraps to 0 and re-enters the term zone,
so the count at distance 1 never returns; the same layout without its term
field has 2 ^ 32 - 1 raw fields and its count returns. -/
theorem count_from_index_term_zone_wraps :
    0 < (fs_term_ternary (2 ^ 32 - 1)).end_term_raw_idx ∧
      (fs_term_ternary (2 ^ 32 - 1)).raw_size = 2 ^ 32 ∧
      (∀ fuel, count_neighborhood_size_from_index fuel (fs_term_ternary (2 ^ 32 - 1))
        (Instance.zero (2 ^ 27 + 1) 0) 1 0 100 = .error .out_of_fuel) ∧
      ∃ fuel r, count_neighborhood_size_from_index fuel
        (fs_term_ternary (2 ^ 32 - 1)).without_term (Instance.zero (2 ^ 27 + 1) 0) 1 0 100
          = .ok r := by
  obtain ⟨z1, z2, z3, z4⟩ := fs_term_ternary_zones (2 ^ 32 - 1)
  refine ⟨by rw [z1]; decide, by rw [z4]; decide,
    fun fuel => fs_term_ternary_never_returns (2 ^ 32 - 1) (by decide) _ 100 fuel 1 0
      (by decide) (by decide), ?_⟩
  have hz : has_zones (fs_term_ternary (2 ^ 32 - 1)).without_term 0
      (List.replicate (2 ^ 32 - 1) 3) 0 := by
    obtain ⟨b1, b2, b3, b4, b5⟩ := without_term_zones
      (⟨1, 0, 0⟩ :: (List.range (2 ^ 32 - 1)).map fun i => ⟨2, 1 + i / 32, 2 * (i % 32)⟩)
      [⟨0, 1, 2⟩] [] (List.replicate (2 ^ 32 - 1) ⟨3⟩) 0
    have hlen : ((⟨1, 0, 0⟩ : field) ::
        (List.range (2 ^ 32 - 1)).map fun i => ⟨2, 1 + i / 32, 2 * (i % 32)⟩).length
        = 2 ^ 32 - 1 + 1 := by
      rw [List.length_cons, List.length_map, List.length_range]
    have hsum : (([⟨0, 1, 2⟩] : List term_spec).map term_spec.depth).sum = 1 := rfl
    rw [hlen, hsum] at b3 b4 b5
    constructor
    · exact b1
    · exact b2
    · rw [List.length_replicate]; exact b3
    · rw [List.length_replicate]; exact b4
    · rw [List.length_replicate]; exact b5
    · exact ⟨[], by
        show List.replicate (2 ^ 32 - 1) (⟨3⟩ : disc_spec) = _
        rw [List.map_replicate, List.append_nil]⟩
    · rw [List.length_replicate]; decide
  obtain ⟨r, hr, _⟩ := count_from_index_top _ (Instance.zero (2 ^ 27 + 1) 0) 100 0 0
    (List.replicate (2 ^ 32 - 1) 3) hz
    (by
      intro m hm
      rw [List.eq_of_mem_replicate hm]
      decide)
    1 (2 ^ 32 + 1)
    (by
      intro j hj _
      interval_cases j <;> decide)
    (by rw [List.length_replicate]; decide)
  exact ⟨_, r, hr⟩

/-! ### Claims on over-budget results and on the sampling dispatcher -/

/-- C24 (amended): for every deme, center, distance, requested count and
estimate, when `current_number_of_instances` is the deme's size before the call
and `current + requested` fits `size_t`: if the call returns `n`, the deme's
size after it is its size before plus `n`, the instances it held come first,
unchanged, and its layout is the same; if the call fails, the deme is as it
was. -/
theorem sample_new_instances_appends (fuel : Nat) (ext : neighborhood_routines)
    (est req cur : Nat) (center_inst : Instance) (deme : instance_set) (d : Nat)
    (markers : marker_vec)
    (hcur : cur = deme.size) (hfit : cur + req < 2 ^ 64) :
    (∀ n, (sample_new_instances fuel ext est req cur center_inst deme d markers).2 = .ok n →
      (sample_new_instances fuel ext est req cur center_inst deme d markers).1.size
          = deme.size + n ∧
        (sample_new_instances fuel ext est req cur center_inst deme d markers).1.instances.take
          deme.size = deme.instances ∧
        (sample_new_instances fuel ext est req cur center_inst deme d markers).1.fields
          = deme.fields) ∧
      (∀ e, (sample_new_instances fuel ext est req cur center_inst deme d markers).2 = .error e →
        (sample_new_instances fuel ext est req cur center_inst deme d markers).1 = deme) := by
  subst hcur
  cases ht : (if to_size_t (2 * req) > est then
      count_neighborhood_size fuel deme.fields center_inst d req else .ok est) with
  | error e =>
    rw [sample_new_instances_error _ _ _ _ _ _ _ _ _ e ht]
    exact ⟨fun n h => (by cases h), fun _ _ => rfl⟩
  | ok t =>
    rw [sample_new_instances_ok _ _ _ _ _ _ _ _ _ t ht hfit]
    by_cases hlt : req < t
    · rw [if_pos hlt]
      refine ⟨fun n h => ?_, fun e h => (by cases h)⟩
      injection h with h
      subst h
      exact ⟨by rw [size_write_range, size_resize],
        take_write_range_resize deme _ _ (Nat.le_add_right _ _), rfl⟩
    · rw [if_neg hlt]
      refine ⟨fun n h => ?_, fun e h => (by cases h)⟩
      injection h with h
      subst h
      exact ⟨by rw [size_write_range, size_resize],
        take_write_range_resize deme _ _ (Nat.le_add_right _ _), rfl⟩

/-- C24 (witness): a deme of two instances over the spec's scenario, with one
new instance requested at distance 1 and `current_number_of_instances = 2`: the
call returns 1 and the deme holds its two instances followed by a new one. -/
theorem sample_new_instances_appends_scenario :
    (sample_new_instances 3 idle_routines 6 1 2 ⟨[22], []⟩
        ⟨fs_scenario, [⟨[22], []⟩, ⟨[6], []⟩]⟩ 1 []).2 = .ok 1 ∧
      (sample_new_instances 3 idle_routines 6 1 2 ⟨[22], []⟩
        ⟨fs_scenario, [⟨[22], []⟩, ⟨[6], []⟩]⟩ 1 []).1.instances
          = [⟨[22], []⟩, ⟨[6], []⟩, ⟨[0], []⟩] ∧
      ((sample_new_instances 3 idle_routines 6 1 2 ⟨[22], []⟩
          ⟨fs_scenario, [⟨[22], []⟩, ⟨[6], []⟩]⟩ 1 []).1.size
          = (⟨fs_scenario, [⟨[22], []⟩, ⟨[6], []⟩]⟩ : instance_set).size + 1 ∧
        (sample_new_instances 3 idle_routines 6 1 2 ⟨[22], []⟩
          ⟨fs_scenario, [⟨[22], []⟩, ⟨[6], []⟩]⟩ 1 []).1.instances.take
            (⟨fs_scenario, [⟨[22], []⟩, ⟨[6], []⟩]⟩ : instance_set).size
          = [⟨[22], []⟩, ⟨[6], []⟩] ∧
        (sample_new_instances 3 idle_routines 6 1 2 ⟨[22], []⟩
          ⟨fs_scenario, [⟨[22], []⟩, ⟨[6], []⟩]⟩ 1 []).1.fields = fs_scenario) :=
  ⟨rfl, by decide, (sample_new_instances_appends 3 idle_routines 6 1 2 ⟨[22], []⟩
    ⟨fs_scenario, [⟨[22], []⟩, ⟨[6], []⟩]⟩ 1 [] rfl (by decide)).1 1 rfl⟩

/-- C24 (counterexample): a deme of three instances over the spec's scenario,
one new instance requested at distance 1, and `current_number_of_instances`
given as 0.  The call returns 1 and resizes the deme to `0 + 1`: its size goes
from 3 to 1, not to 4, and two of its instances are gone. -/
theorem sample_new_instances_shrinks :
    (sample_new_instances 3 idle_routines 6 1 0 ⟨[22], []⟩
        ⟨fs_scenario, [⟨[22], []⟩, ⟨[6], []⟩, ⟨[3], []⟩]⟩ 1 []).2 = .ok 1 ∧
      (sample_new_instances 3 idle_routines 6 1 0 ⟨[22], []⟩
        ⟨fs_scenario, [⟨[22], []⟩, ⟨[6], []⟩, ⟨[3], []⟩]⟩ 1 []).1.instances = [⟨[22], []⟩] ∧
      (sample_new_instances 3 idle_routines 6 1 0 ⟨[22], []⟩
        ⟨fs_scenario, [⟨[22], []⟩, ⟨[6], []⟩, ⟨[3], []⟩]⟩ 1 []).1.size ≠ 3 + 1 := by
  refine ⟨rfl, by decide, by decide⟩


theorem round_half_even_le (m : Rat) (K : Int) (h : m ≤ K) : round_half_even m ≤ K := by
  have hfl : ⌊m⌋ ≤ K := by
    have : ⌊m⌋ ≤ ⌊(K : Rat)⌋ := Int.floor_le_floor h
    simpa using this
  unfold round_half_even
  split_ifs with h1 h2
  · exact hfl
  · exact hfl
  · by_contra hc
    have hK : ⌊m⌋ = K := by omega
    have hm : m = K := by
      apply le_antisymm h
      rw [← hK]
      exact Int.floor_le m
    apply h1
    rw [hm]
    simp

theorem round_half_even_nonneg (m : Rat) (h : 0 ≤ m) : 0 ≤ round_half_even m := by
  have hfl : 0 ≤ ⌊m⌋ := Int.floor_nonneg.2 h
  unfold round_half_even
  split_ifs <;> omega

theorem round_half_even_int (K : Int) : round_half_even (K : Rat) = K := by
  unfold round_half_even
  simp

theorem ulp_exponent_neg (q : Rat) : ulp_exponent (-q) = ulp_exponent q := by
  unfold ulp_exponent
  rw [abs_neg]

theorem round_magnitude_nonneg (q : Rat) : 0 ≤ round_magnitude q := by
  unfold round_magnitude
  apply mul_nonneg
  · exact_mod_cast round_half_even_nonneg _ (div_nonneg (abs_nonneg q) (by positivity))
  · positivity

/-- The magnitude of the double nearest to `q`. -/
theorem round_contin_abs (q v : Rat) (h : round_contin q = .ok v) :
    |v| = round_magnitude q := by
  unfold round_contin at h
  have hnn := round_magnitude_nonneg q
  split_ifs at h with h1 h2
  · injection h with h
    rw [← h, abs_neg, abs_of_nonneg hnn]
  · injection h with h
    rw [← h, abs_of_nonneg hnn]

theorem significand_lt (q : Rat) : |q| / 2 ^ ulp_exponent q < 2 ^ (53 : Int) := by
  have hpos : (0 : Rat) < 2 ^ ulp_exponent q := by positivity
  rw [div_lt_iff₀ hpos, ← zpow_add₀ (by norm_num : (2 : Rat) ≠ 0)]
  have h1 : |q| < (2 : Rat) ^ (Int.log 2 |q| + 1) := by
    have := Int.lt_zpow_succ_log_self (by norm_num : 1 < 2) |q|
    exact_mod_cast this
  refine lt_of_lt_of_le h1 ?_
  apply zpow_le_zpow_right₀ (by norm_num)
  unfold ulp_exponent
  have := le_max_left (Int.log 2 |q| - 52) (-1074)
  omega

/-- A double that bounds `|q|` bounds the magnitude of the double nearest to
`q`: rounding to nearest does not step over a double. -/
theorem round_magnitude_le_double (q : Rat) (N : Nat) (E : Int)
    (hN : N ≤ 2 ^ 53) (hE : -1074 ≤ E) (hq : |q| ≤ (N : Rat) * 2 ^ E) :
    round_magnitude q ≤ (N : Rat) * 2 ^ E := by
  unfold round_magnitude
  have hpos : (0 : Rat) < 2 ^ ulp_exponent q := by positivity
  by_cases hq0 : q = 0
  · rw [hq0, abs_zero, zero_div]
    have : round_half_even 0 = 0 := round_half_even_int 0
    rw [this]
    simp only [Int.cast_zero, zero_mul]
    positivity
  by_cases he : ulp_exponent q ≤ E
  · -- the bound is a multiple of the unit
    obtain ⟨k, hk⟩ : ∃ k : Nat, E = ulp_exponent q + k :=
      ⟨(E - ulp_exponent q).toNat, by omega⟩
    have hbound : (N : Rat) * 2 ^ E = ((N * 2 ^ k : Nat) : Int) * 2 ^ ulp_exponent q := by
      rw [hk, zpow_add₀ (by norm_num : (2 : Rat) ≠ 0)]
      push_cast
      rw [zpow_natCast]
      ring
    rw [hbound]
    apply mul_le_mul_of_nonneg_right _ (le_of_lt hpos)
    have hm : |q| / 2 ^ ulp_exponent q ≤ (((N * 2 ^ k : Nat) : Int) : Rat) := by
      rw [div_le_iff₀ hpos, ← hbound]
      exact hq
    exact_mod_cast round_half_even_le _ _ hm
  · -- impossible unless `|q|` is the bound itself, a power of two
    have he2 : ulp_exponent q = Int.log 2 |q| - 52 := by
      unfold ulp_exponent at he ⊢
      rcases max_cases (Int.log 2 |q| - 52) (-1074) with ⟨h1, _⟩ | ⟨h1, _⟩
      · exact h1
      · rw [h1] at he; omega
    have hlow : (2 : Rat) ^ (ulp_exponent q + 52) ≤ |q| := by
      have := Int.zpow_log_le_self (by norm_num : 1 < 2) (abs_pos.2 hq0)
      rw [he2]
      have e : Int.log 2 |q| - 52 + 52 = Int.log 2 |q| := by omega
      rw [e]
      exact_mod_cast this
    have hup : (N : Rat) * 2 ^ E ≤ 2 ^ (ulp_exponent q + 52) := by
      have h1 : (N : Rat) ≤ 2 ^ (53 : Int) := by
        have h2 : (N : Rat) ≤ ((2 ^ 53 : Nat) : Rat) := by exact_mod_cast hN
        have h3 : ((2 ^ 53 : Nat) : Rat) = 2 ^ (53 : Int) := by norm_num
        rw [← h3]
        exact h2
      calc (N : Rat) * 2 ^ E ≤ 2 ^ (53 : Int) * 2 ^ E :=
            mul_le_mul_of_nonneg_right h1 (by positivity)
        _ = 2 ^ (53 + E) := by rw [← zpow_add₀ (by norm_num : (2 : Rat) ≠ 0)]
        _ ≤ 2 ^ (ulp_exponent q + 52) := zpow_le_zpow_right₀ (by norm_num) (by omega)
    have hqe : |q| = 2 ^ (ulp_exponent q + 52) := le_antisymm (le_trans hq hup) hlow
    have hm : |q| / 2 ^ ulp_exponent q = (((2 ^ 52 : Nat) : Int) : Rat) := by
      rw [hqe, zpow_add₀ (by norm_num : (2 : Rat) ≠ 0)]
      field_simp
      norm_num
    rw [hm, round_half_even_int]
    have : ((((2 ^ 52 : Nat) : Int) : Rat)) * 2 ^ ulp_exponent q = |q| := by
      rw [hqe, zpow_add₀ (by norm_num : (2 : Rat) ≠ 0)]
      push_cast
      norm_num
      ring
    rw [this]
    exact hq

/-- The double nearest to `q` is a double: a multiple `N * 2 ^ E` of a unit not
below that of the subnormals, with `N` at most `2 ^ 53`. -/
theorem round_contin_is_double (q v : Rat) (h : round_contin q = .ok v) :
    ∃ (N : Nat) (E : Int), N ≤ 2 ^ 53 ∧ -1074 ≤ E ∧ |v| = (N : Rat) * 2 ^ E := by
  have hnn := round_half_even_nonneg _ (div_nonneg (abs_nonneg q)
    (by positivity : (0 : Rat) ≤ 2 ^ ulp_exponent q))
  have hle := round_half_even_le (|q| / 2 ^ ulp_exponent q) (2 ^ 53)
    (by
      have h53 : (((2 ^ 53 : Int)) : Rat) = 2 ^ (53 : Int) := by norm_num
      rw [h53]
      exact le_of_lt (significand_lt q))
  refine ⟨(round_half_even (|q| / 2 ^ ulp_exponent q)).toNat, ulp_exponent q, ?_, ?_, ?_⟩
  · omega
  · unfold ulp_exponent
    exact le_max_right _ _
  · rw [round_contin_abs q v h]
    unfold round_magnitude
    congr 1
    have : ((round_half_even (|q| / 2 ^ ulp_exponent q)).toNat : Int) =
        round_half_even (|q| / 2 ^ ulp_exponent q) := Int.toNat_of_nonneg hnn
    exact_mod_cast this.symm


/-- A result bounded by a finite double rounds to a finite double. -/
theorem round_contin_returns (q : Rat) (N : Nat) (E : Int)
    (hN : N ≤ 2 ^ 53) (hE : -1074 ≤ E) (hq : |q| ≤ (N : Rat) * 2 ^ E)
    (hfin : (N : Rat) * 2 ^ E < 2 ^ (1024 : Int)) :
    ∃ v, round_contin q = .ok v ∧ |v| ≤ (N : Rat) * 2 ^ E := by
  have h := round_magnitude_le_double q N E hN hE hq
  unfold round_contin
  rw [if_pos (lt_of_le_of_lt h hfin)]
  refine ⟨_, rfl, ?_⟩
  have hnn := round_magnitude_nonneg q
  split_ifs
  · rw [abs_neg, abs_of_nonneg hnn]; exact h
  · rw [abs_of_nonneg hnn]; exact h

theorem round_contin_le_double (q v : Rat) (N : Nat) (E : Int) (h : round_contin q = .ok v)
    (hN : N ≤ 2 ^ 53) (hE : -1074 ≤ E) (hq : |q| ≤ (N : Rat) * 2 ^ E) :
    |v| ≤ (N : Rat) * 2 ^ E := by
  rw [round_contin_abs q v h]
  exact round_magnitude_le_double q N E hN hE hq

/-- A double is its own rounding. -/
theorem round_contin_of_double (z E : Int) (hz : |z| < 2 ^ 53) (hE : -1074 ≤ E)
    (hfin : |(z : Rat) * 2 ^ E| < 2 ^ (1024 : Int)) :
    round_contin ((z : Rat) * 2 ^ E) = .ok ((z : Rat) * 2 ^ E) := by
  have h2pos : (0 : Rat) < 2 ^ E := by positivity
  have habs : |(z : Rat) * 2 ^ E| = ((|z| : Int) : Rat) * 2 ^ E := by
    rw [abs_mul, abs_of_pos h2pos]
    push_cast
    rfl
  have hmag : round_magnitude ((z : Rat) * 2 ^ E) = |(z : Rat) * 2 ^ E| := by
    by_cases hz0 : z = 0
    · subst hz0
      simp only [Int.cast_zero, zero_mul, abs_zero]
      unfold round_magnitude
      rw [abs_zero, zero_div]
      have : round_half_even 0 = 0 := round_half_even_int 0
      rw [this]
      simp
    · have hq0 : (0 : Rat) < |(z : Rat) * 2 ^ E| := by
        rw [abs_pos]
        exact mul_ne_zero (by exact_mod_cast hz0) (ne_of_gt h2pos)
      have hlog : Int.log 2 |(z : Rat) * 2 ^ E| < 53 + E := by
        rw [← Int.lt_zpow_iff_log_lt (by norm_num) hq0, habs]
        have h1 : (((|z| : Int)) : Rat) < 2 ^ (53 : Int) := by
          have h2 : (((|z| : Int)) : Rat) < (((2 ^ 53 : Int)) : Rat) := by exact_mod_cast hz
          have h3 : (((2 ^ 53 : Int)) : Rat) = 2 ^ (53 : Int) := by norm_num
          rw [← h3]
          exact h2
        push_cast
        rw [zpow_add₀ (by norm_num : (2 : Rat) ≠ 0)]
        exact mul_lt_mul_of_pos_right (by exact_mod_cast h1) h2pos
      have he : ulp_exponent ((z : Rat) * 2 ^ E) ≤ E := by
        unfold ulp_exponent
        apply max_le <;> omega
      obtain ⟨k, hk⟩ : ∃ k : Nat, E = ulp_exponent ((z : Rat) * 2 ^ E) + k :=
        ⟨(E - ulp_exponent ((z : Rat) * 2 ^ E)).toNat, by omega⟩
      unfold round_magnitude
      have hpos : (0 : Rat) < 2 ^ ulp_exponent ((z : Rat) * 2 ^ E) := by positivity
      have hm : |(z : Rat) * 2 ^ E| / 2 ^ ulp_exponent ((z : Rat) * 2 ^ E) =
          (((|z| * 2 ^ k : Int)) : Rat) := by
        rw [div_eq_iff (ne_of_gt hpos), habs]
        nth_rewrite 1 [hk]
        rw [zpow_add₀ (by norm_num : (2 : Rat) ≠ 0), zpow_natCast]
        push_cast
        ring
      rw [hm, round_half_even_int, ← hm, div_mul_cancel₀ _ (ne_of_gt hpos)]
  unfold round_contin
  rw [hmag, if_pos hfin]
  congr 1
  split_ifs with hneg
  · rw [abs_of_neg hneg, neg_neg]
  · rw [abs_of_nonneg (le_of_not_lt hneg)]

/-- Below the smallest normal double the unit in the last place is that of the
subnormals, `2 ^ (-1074)`. -/
theorem round_magnitude_subnormal (q : Rat) (hq0 : q ≠ 0) (hq : |q| < 2 ^ (-1022 : Int)) :
    round_magnitude q =
      (round_half_even (|q| / 2 ^ (-1074 : Int)) : Rat) * 2 ^ (-1074 : Int) := by
  have he : ulp_exponent q = -1074 := by
    unfold ulp_exponent
    apply max_eq_right
    have := (Int.lt_zpow_iff_log_lt (by norm_num : 1 < 2) (abs_pos.2 hq0)).1
      (by exact_mod_cast hq : |q| < ((2 : Nat) : Rat) ^ (-1022 : Int))
    omega
  unfold round_magnitude
  rw [he]

/-- A value written as a double is the rounding of any expression equal to
it. -/
theorem round_contin_double (q v : Rat) (z E : Int) (hz : |z| < 2 ^ 53) (hE : -1074 ≤ E)
    (hq : q = (z : Rat) * 2 ^ E) (hv : v = (z : Rat) * 2 ^ E)
    (hfin : |v| < 2 ^ (1024 : Int)) : round_contin q = .ok v := by
  subst hq
  subst hv
  exact round_contin_of_double z E hz hE hfin

theorem generate_contin_neighbor_zero (fs : field_set) (inst : Instance) (it : Nat)
    (rng : RandGen) : generate_contin_neighbor fs inst it 0 rng = .ok (fs, inst, rng) := by
  simp [generate_contin_neighbor]

theorem generate_contin_neighbor_likely (fs : field_set) (inst : Instance) (it dist : Nat)
    (rng : RandGen) (cs : contin_spec) (current v : contin_t)
    (hd : 0 < dist) (hcs : fs._contin.get? it = some cs)
    (hcur : inst._contin.get? it = some current) (hv : cs._likely.getLast? = some v) :
    generate_contin_neighbor fs inst it dist rng =
      .ok ({ fs with _contin := fs._contin.set it { cs with _likely := cs._likely.dropLast } },
        { inst with _contin := inst._contin.set it v }, rng) := by
  have h0 : ¬ dist ≤ 0 := by omega
  simp only [generate_contin_neighbor, h0, if_false, hcs, hcur, contin_spec.get_new, hv]

theorem generate_contin_neighbor_draw (fs : field_set) (inst : Instance) (it dist : Nat)
    (rng : RandGen) (cs : contin_spec) (current x p v : contin_t)
    (hd : 0 < dist) (hcs : fs._contin.get? it = some cs)
    (hcur : inst._contin.get? it = some current) (hl : cs._likely = [])
    (hx : round_contin (cs._space * dist) = .ok x)
    (hp : round_contin (rng.doubles rng.drawn * rng.signs (rng.drawn + 1)) = .ok p)
    (hv : round_contin (p * x) = .ok v) :
    generate_contin_neighbor fs inst it dist rng =
      .ok (fs, { inst with _contin := inst._contin.set it v },
        { rng with drawn := rng.drawn + 2 }) := by
  have h0 : ¬ dist ≤ 0 := by omega
  have hl2 : cs._likely.getLast? = none := by rw [hl]; rfl
  have hset : fs._contin.set it cs = fs._contin := by
    apply List.ext_getElem?
    intro j
    by_cases hj : it = j
    · subst hj
      rw [List.getElem?_set_self (by
        have := List.get?_eq_some.1 hcs
        exact this.1)]
      simpa using hcs.symm
    · rw [List.getElem?_set_ne hj]
  simp only [generate_contin_neighbor, h0, if_false, hcs, hcur, contin_spec.get_new, hl2, hx,
    contin_spec.rand_at_space, RandGen.randdouble, RandGen.randPositiveNegative, hp, hv, hset]

/-- The magnitude of the draw: the sign draw scaled by a draw in `[0, 1)` rounds
to a double of magnitude at most 1, and the product with a double `x` rounds to
a double of magnitude at most `|x|`. -/
theorem round_draw_le (u : contin_t) (s : Int) (y x p v : contin_t) (hu : 0 ≤ u) (hu1 : u < 1)
    (hs : s = 1 ∨ s = -1) (hx : round_contin y = .ok x)
    (hp : round_contin (u * s) = .ok p) (hv : round_contin (p * x) = .ok v) :
    |v| ≤ |x| := by
  have hus : |u * (s : contin_t)| ≤ ((1 : Nat) : Rat) * 2 ^ (0 : Int) := by
    rcases hs with rfl | rfl
    · simp [abs_of_nonneg hu, le_of_lt hu1]
    · simp [abs_of_nonneg hu, le_of_lt hu1]
  have hp1 : |p| ≤ 1 := by
    have := round_contin_le_double _ p 1 0 hp (by decide) (by decide) hus
    simpa using this
  obtain ⟨N, E, hN, hE, hxe⟩ := round_contin_is_double y x hx
  rw [hxe]
  apply round_contin_le_double (p * x) v N E hv hN hE
  rw [abs_mul, ← hxe]
  calc |p| * |x| ≤ 1 * |x| := mul_le_mul_of_nonneg_right hp1 (abs_nonneg x)
    _ = |x| := one_mul _

theorem DBL_MAX_cast : ((DBL_MAX : Nat) : Rat) = ((2 ^ 53 - 1 : Nat) : Rat) * 2 ^ (971 : Int) := by
  rw [DBL_MAX_eq, Nat.cast_mul, Nat.cast_pow, ← zpow_natCast]
  rfl

theorem DBL_MAX_lt : ((2 ^ 53 - 1 : Nat) : Rat) * 2 ^ (971 : Int) < 2 ^ (1024 : Int) := by
  have h1 : ((2 ^ 53 - 1 : Nat) : Rat) < 2 ^ (53 : Int) := by norm_num
  calc ((2 ^ 53 - 1 : Nat) : Rat) * 2 ^ (971 : Int) < 2 ^ (53 : Int) * 2 ^ (971 : Int) :=
        mul_lt_mul_of_pos_right h1 (by positivity)
    _ = 2 ^ (1024 : Int) := by rw [← zpow_add₀ (by norm_num : (2 : Rat) ≠ 0)]; norm_num

/-- With a radius times distance within the finite range of `double`, the three
products of the draw are finite doubles. -/
theorem round_draw_returns (u : contin_t) (s : Int) (y : contin_t) (hu : 0 ≤ u) (hu1 : u < 1)
    (hs : s = 1 ∨ s = -1) (hy : |y| ≤ (DBL_MAX : Rat)) :
    ∃ x p v, round_contin y = .ok x ∧ round_contin (u * s) = .ok p ∧
      round_contin (p * x) = .ok v := by
  rw [DBL_MAX_cast] at hy
  obtain ⟨x, hx, hxb⟩ := round_contin_returns y (2 ^ 53 - 1) 971 (by decide) (by decide) hy
    DBL_MAX_lt
  have hus : |u * (s : contin_t)| ≤ ((1 : Nat) : Rat) * 2 ^ (0 : Int) := by
    rcases hs with rfl | rfl
    · simp [abs_of_nonneg hu, le_of_lt hu1]
    · simp [abs_of_nonneg hu, le_of_lt hu1]
  obtain ⟨p, hp, hpb⟩ := round_contin_returns (u * s) 1 0 (by decide) (by decide) hus
    (by norm_num)
  have hp1 : |p| ≤ 1 := by simpa using hpb
  have hpx : |p * x| ≤ ((2 ^ 53 - 1 : Nat) : Rat) * 2 ^ (971 : Int) := by
    rw [abs_mul]
    calc |p| * |x| ≤ 1 * |x| := mul_le_mul_of_nonneg_right hp1 (abs_nonneg x)
      _ = |x| := one_mul _
      _ ≤ _ := hxb
  obtain ⟨v, hv, _⟩ := round_contin_returns (p * x) (2 ^ 53 - 1) 971 (by decide) (by decide)
    hpx DBL_MAX_lt
  exact ⟨x, p, v, hx, hp, hv⟩

/-! ### Counting the specs of a range -/

theorem spec_counts_pair (a b : spec) :
    field_set.spec_counts [a, b] =
      if b.lt a then [(b, 1), (a, 1)]
      else if a.lt b then [(a, 1), (b, 1)] else [(a, 2)] := by
  simp only [field_set.spec_counts, Counter.of_range, List.foldl, Counter.add]

theorem spec_counts_pair_merged (a b : spec) :
    (field_set.spec_counts [a, b]).length = 1 ↔ (a.lt b = false ∧ b.lt a = false) := by
  rw [spec_counts_pair]
  cases h1 : b.lt a <;> cases h2 : a.lt b <;> simp

theorem spec_lt_of_eq (a b : spec) (h : a.eq b = true) : a.lt b = false ∧ b.lt a = false := by
  cases a <;> cases b <;> simp only [spec.eq, Bool.false_eq_true] at h
  · simp only [term_spec.eq, decide_eq_true_eq] at h
    simp only [spec.lt, term_spec.lt, h.1, h.2.1, gt_iff_lt, lt_self_iff_false, decide_False,
      and_self]
  · simp only [contin_spec.eq, decide_eq_true_eq] at h
    simp only [spec.lt, contin_spec.lt, h, gt_iff_lt, lt_self_iff_false, decide_False, and_self]
  · simp only [disc_spec.eq, decide_eq_true_eq] at h
    simp only [spec.lt, disc_spec.lt, h, gt_iff_lt, lt_self_iff_false, decide_False, and_self]

/-! ### The walk of `pack` -/

theorem testBit_or_shift (w v o k : Nat) :
    ((w ||| (v <<< o) % 2 ^ 64).testBit k = true) ↔
      (w.testBit k = true ∨ (o ≤ k ∧ k < 64 ∧ v.testBit (k - o) = true)) := by
  simp only [Nat.testBit_or, Nat.testBit_mod_two_pow, Nat.testBit_shiftLeft, Bool.or_eq_true,
    Bool.and_eq_true, decide_eq_true_eq, ge_iff_le]
  tauto

theorem pack_state_store_eq (v : Nat) (rest : List Nat) (words : packed_vec) (c : pack_cursor)
    (ho : c.offset < 64) (hw : c.out < words.length) :
    pack_state.store ⟨v :: rest, words, c⟩ =
      .ok ⟨rest, words.set c.out (words.getD c.out 0 ||| (v <<< c.offset) % 2 ^ 64), c⟩ := by
  simp only [pack_state.store, bits_per_packed_t, ho, hw, and_self, if_true]

theorem packed_bit_nil (m k : Nat) : ¬ packed_bit [] m k := by
  simp [packed_bit]

theorem packed_bit_cons (f : field) (v : Nat) (fv : List (field × Nat)) (m k : Nat) :
    packed_bit ((f, v) :: fv) m k ↔
      ((f.major_offset = m ∧ f.minor_offset ≤ k ∧ k < 64 ∧
          v.testBit (k - f.minor_offset) = true) ∨ packed_bit fv m k) := by
  simp [packed_bit]

theorem packed_bit_append (a b : List (field × Nat)) (m k : Nat) :
    packed_bit (a ++ b) m k ↔ (packed_bit a m k ∨ packed_bit b m k) := by
  simp only [packed_bit, List.mem_append]
  constructor
  · rintro ⟨p, hp | hp, h⟩
    · exact Or.inl ⟨p, hp, h⟩
    · exact Or.inr ⟨p, hp, h⟩
  · rintro (⟨p, hp, h⟩ | ⟨p, hp, h⟩)
    · exact ⟨p, Or.inl hp, h⟩
    · exact ⟨p, Or.inr hp, h⟩

theorem advance_of_fit (c : pack_cursor) (w : Nat) (h : c.offset + w ≤ 64) :
    (c.advance w).offset < 64 ∧
      64 * (c.advance w).out + (c.advance w).offset = 64 * c.out + c.offset + w ∧
      c.out ≤ (c.advance w).out := by
  have hu : to_unsigned (c.offset + w) = c.offset + w := to_unsigned_of_lt _ (by omega)
  unfold pack_cursor.advance
  rw [hu]
  by_cases h64 : c.offset + w = bits_per_packed_t
  · rw [if_pos h64]
    simp only [bits_per_packed_t] at h64
    simp only
    omega
  · rw [if_neg h64]
    simp only [bits_per_packed_t] at h64
    simp only
    omega

/-- Running a sequence of stores: the input is consumed in order, the cursor
ends where the walk ends, and a bit of the words is set afterwards exactly if it
was set before or one of the stored values put it there. -/
theorem pack_stores_spec :
    ∀ (ws : List Nat) (vs rest : List Nat) (words : packed_vec) (c : pack_cursor),
      vs.length = ws.length → c.offset < 64 →
      (∀ f ∈ stores_fields ws c,
        f.minor_offset + f.width ≤ 64 ∧ f.major_offset < words.length) →
      ∃ words2, pack_stores ws ⟨vs ++ rest, words, c⟩ = .ok ⟨rest, words2, stores_end ws c⟩ ∧
        words2.length = words.length ∧
        ∀ m k, (words2.getD m 0).testBit k = true ↔
          ((words.getD m 0).testBit k = true ∨
            packed_bit (List.zip (stores_fields ws c) vs) m k) := by
  intro ws
  induction ws with
  | nil =>
    intro vs rest words c hlen _ _
    have hvs : vs = [] := List.eq_nil_of_length_eq_zero hlen
    subst hvs
    refine ⟨words, rfl, rfl, fun m k => ?_⟩
    simp [stores_fields, packed_bit_nil]
  | cons w ws ih =>
    intro vs rest words c hlen hoff hf
    obtain ⟨v, vs, rfl⟩ : ∃ v vs', vs = v :: vs' := by
      cases vs with
      | nil => simp at hlen
      | cons v vs' => exact ⟨v, vs', rfl⟩
    have hhead := hf ⟨w, c.out, c.offset⟩ (by simp [stores_fields])
    simp only at hhead
    have hadv := advance_of_fit c w hhead.1
    have hlen2 : vs.length = ws.length := by simpa using hlen
    obtain ⟨words2, hrun, hl2, hbits⟩ := ih vs rest
      (words.set c.out (words.getD c.out 0 ||| (v <<< c.offset) % 2 ^ 64)) (c.advance w)
      hlen2 hadv.1
      (by
        intro f hfm
        have := hf f (by simp [stores_fields, hfm])
        rw [List.length_set]
        exact this)
    refine ⟨words2, ?_, by rw [hl2, List.length_set], fun m k => ?_⟩
    · rw [List.cons_append, pack_stores, pack_state_store_eq v _ words c hoff hhead.2]
      exact hrun
    · rw [hbits m k]
      simp only [stores_fields, List.zip_cons_cons, packed_bit_cons]
      by_cases hm : m = c.out
      · subst hm
        rw [getD_set_same _ _ _ hhead.2, testBit_or_shift]
        tauto
      · rw [getD_set_other _ _ _ _ (fun e => hm e.symm)]
        constructor
        · rintro (h | h)
          · exact Or.inl h
          · exact Or.inr (Or.inr h)
        · rintro (h | ⟨h, _⟩ | h)
          · exact Or.inl h
          · exact absurd h.symm hm
          · exact Or.inr h

theorem pack_term_loop_eq (w : Nat) : ∀ (n : Nat) (s : pack_state),
    pack_term_loop w n s = pack_stores (List.replicate n w) s := by
  intro n
  induction n with
  | zero => intro s; rfl
  | succ n ih =>
    intro s
    rw [pack_term_loop, List.replicate_succ, pack_stores]
    cases s.store with
    | error e => rfl
    | ok s1 => exact ih _

theorem pack_discs_eq (nbits_to_pack : Nat → Nat) : ∀ (ds : List disc_spec) (s : pack_state),
    pack_discs nbits_to_pack ds s = pack_stores (ds.map fun d => nbits_to_pack d.multy) s := by
  intro ds
  induction ds with
  | nil => intro s; rfl
  | cons d ds ih =>
    intro s
    rw [pack_discs, List.map_cons, pack_stores]
    cases s.store with
    | error e => rfl
    | ok s1 => exact ih _

theorem stores_fields_length : ∀ (ws : List Nat) (c : pack_cursor),
    (stores_fields ws c).length = ws.length := by
  intro ws
  induction ws with
  | nil => intro c; rfl
  | cons w ws ih => intro c; simp [stores_fields, ih]

/-- Where a sequence of stores that fit their words leaves the cursor, and
where it puts the fields: in increasing bit order, one after the other. -/
theorem stores_positions :
    ∀ (ws : List Nat) (c : pack_cursor), c.offset < 64 →
      (∀ f ∈ stores_fields ws c, f.minor_offset + f.width ≤ 64) →
      (stores_end ws c).offset < 64 ∧
        64 * (stores_end ws c).out + (stores_end ws c).offset
          = 64 * c.out + c.offset + ws.sum ∧
        (∀ f ∈ stores_fields ws c,
          64 * c.out + c.offset ≤ 64 * f.major_offset + f.minor_offset ∧
          64 * f.major_offset + f.minor_offset + f.width
            ≤ 64 * (stores_end ws c).out + (stores_end ws c).offset) ∧
        (stores_fields ws c).Pairwise fun f g =>
          64 * f.major_offset + f.minor_offset + f.width
            ≤ 64 * g.major_offset + g.minor_offset := by
  intro ws
  induction ws with
  | nil =>
    intro c hc _
    simp [stores_end, stores_fields, hc]
  | cons w ws ih =>
    intro c hc hf
    have hhead := hf ⟨w, c.out, c.offset⟩ (by simp [stores_fields])
    simp only at hhead
    obtain ⟨a1, a2, _⟩ := advance_of_fit c w hhead
    obtain ⟨b1, b2, b3, b4⟩ := ih (c.advance w) a1
      (fun f hfm => hf f (by simp [stores_fields, hfm]))
    refine ⟨b1, ?_, ?_, ?_⟩
    · simp only [stores_end, List.sum_cons]
      omega
    · intro f hfm
      simp only [stores_fields, List.mem_cons] at hfm
      simp only [stores_end]
      rcases hfm with rfl | hfm
      · simp only
        omega
      · have := b3 f hfm
        omega
    · simp only [stores_fields, List.pairwise_cons]
      refine ⟨?_, b4⟩
      intro g hg
      have := b3 g hg
      omega

theorem stores_last :
    ∀ (ws : List Nat) (c : pack_cursor) (f : field), c.offset < 64 →
      (∀ g ∈ stores_fields ws c, 0 < g.width ∧ g.minor_offset + g.width ≤ 64) →
      (stores_fields ws c).getLast? = some f →
      (stores_end ws c).one_past_end = f.major_offset + 1 := by
  intro ws
  induction ws with
  | nil => intro c f _ _ h; simp [stores_fields] at h
  | cons w ws ih =>
    intro c f hc hf hlast
    have hhead := hf ⟨w, c.out, c.offset⟩ (by simp [stores_fields])
    simp only at hhead
    obtain ⟨a1, a2, a3⟩ := advance_of_fit c w hhead.2
    cases ws with
    | nil =>
      simp only [stores_fields, List.getLast?_singleton, Option.some.injEq] at hlast
      subst hlast
      simp only [stores_end, pack_cursor.one_past_end]
      split_ifs <;> omega
    | cons w2 ws2 =>
      simp only [stores_end]
      apply ih (c.advance w) f a1 (fun g hg => hf g (by simp [stores_fields] at hg ⊢; tauto))
      simpa [stores_fields] using hlast

theorem term_pad_closes (nbits_to_pack : Nat → Nat) (o : term_spec) (c e : pack_cursor)
    (hc : c.offset = 0) (heo : e.offset < 64)
    (hlin : 64 * e.out + e.offset = 64 * c.out + c.offset + o.depth * nbits_to_pack o.branching) :
    e.advance (term_pad nbits_to_pack o) = ⟨e.one_past_end, 0⟩ := by
  have hcomm : nbits_to_pack o.branching * o.depth = o.depth * nbits_to_pack o.branching :=
    Nat.mul_comm _ _
  unfold term_pad pack_cursor.advance pack_cursor.one_past_end to_size_t to_unsigned
    bits_per_packed_t
  rw [hcomm]
  generalize o.depth * nbits_to_pack o.branching = x at hlin ⊢
  rw [hc] at hlin
  by_cases h0 : e.offset = 0
  · have hx0 : x % 64 = 0 := by omega
    have hpad2 : (((x % 2 ^ 64 + 2 ^ 64 - 1) % 2 ^ 64 / 64 + 1) * 64 % 2 ^ 64 + 2 ^ 64 -
        x % 2 ^ 64) % 2 ^ 64 = 0 := by omega
    rw [hpad2, h0]
    simp
  · have hpad2 : (((x % 2 ^ 64 + 2 ^ 64 - 1) % 2 ^ 64 / 64 + 1) * 64 % 2 ^ 64 + 2 ^ 64 -
        x % 2 ^ 64) % 2 ^ 64 = 64 - e.offset := by omega
    rw [hpad2]
    have h64 : (e.offset + (64 - e.offset)) % 2 ^ 32 = 64 := by omega
    rw [h64, if_pos rfl, if_pos (by omega)]

theorem one_past_end_ge (c : pack_cursor) (h : c.offset < 64) :
    64 * c.out + c.offset ≤ 64 * c.one_past_end ∧ c.out ≤ c.one_past_end := by
  unfold pack_cursor.one_past_end
  split_ifs <;> omega

/-- Where the walk over the term specs puts the fields and leaves the cursor:
each spec starts and ends on a word boundary. -/
theorem terms_positions (nbits_to_pack : Nat → Nat) :
    ∀ (ts : List term_spec) (c : pack_cursor), c.offset = 0 →
      (∀ f ∈ terms_fields nbits_to_pack ts c, 0 < f.width ∧ f.minor_offset + f.width ≤ 64) →
      (terms_end nbits_to_pack ts c).offset = 0 ∧
        c.out ≤ (terms_end nbits_to_pack ts c).out ∧
        (∀ f ∈ terms_fields nbits_to_pack ts c,
          64 * c.out ≤ 64 * f.major_offset + f.minor_offset ∧
          64 * f.major_offset + f.minor_offset + f.width
            ≤ 64 * (terms_end nbits_to_pack ts c).out) ∧
        ((terms_fields nbits_to_pack ts c).Pairwise fun f g =>
          64 * f.major_offset + f.minor_offset + f.width
            ≤ 64 * g.major_offset + g.minor_offset) ∧
        (∀ f, (terms_fields nbits_to_pack ts c).getLast? = some f →
          (terms_end nbits_to_pack ts c).out = f.major_offset + 1) ∧
        (terms_fields nbits_to_pack ts c = [] → (terms_end nbits_to_pack ts c).out = c.out) := by
  intro ts
  induction ts with
  | nil =>
    intro c hc _
    simp [terms_end, terms_fields, hc]
  | cons o os ih =>
    intro c hc hf
    have hf1 : ∀ f ∈ stores_fields (List.replicate o.depth (nbits_to_pack o.branching)) c,
        0 < f.width ∧ f.minor_offset + f.width ≤ 64 :=
      fun f hfm => hf f (by simp only [terms_fields, List.mem_append]; exact Or.inl hfm)
    obtain ⟨p1, p2, p3, p4⟩ := stores_positions
      (List.replicate o.depth (nbits_to_pack o.branching)) c (by omega) (fun f h => (hf1 f h).2)
    rw [List.sum_replicate, smul_eq_mul] at p2
    have hclose := term_pad_closes nbits_to_pack o c _ hc p1 p2
    have hge := one_past_end_ge _ p1
    have hf2 : ∀ f ∈ terms_fields nbits_to_pack os
        ⟨(stores_end (List.replicate o.depth (nbits_to_pack o.branching)) c).one_past_end, 0⟩,
        0 < f.width ∧ f.minor_offset + f.width ≤ 64 :=
      fun f hfm => hf f (by
        simp only [terms_fields, List.mem_append, hclose]; exact Or.inr hfm)
    obtain ⟨q1, q2, q3, q4, q5, q6⟩ := ih
      ⟨(stores_end (List.replicate o.depth (nbits_to_pack o.branching)) c).one_past_end, 0⟩ rfl
      hf2
    simp only at q2 q3 q6
    simp only [terms_end, terms_fields, hclose]
    refine ⟨q1, by omega, ?_, ?_, ?_, ?_⟩
    · intro f hfm
      rw [List.mem_append] at hfm
      rcases hfm with h | h
      · have := p3 f h
        omega
      · have := q3 f h
        omega
    · rw [List.pairwise_append]
      refine ⟨p4, q4, ?_⟩
      intro f hfm g hgm
      have := p3 f hfm
      have := q3 g hgm
      omega
    · intro f hlast
      rw [List.getLast?_append] at hlast
      cases h2 : (terms_fields nbits_to_pack os
          ⟨(stores_end (List.replicate o.depth (nbits_to_pack o.branching)) c).one_past_end,
            0⟩).getLast? with
      | some g =>
        rw [h2] at hlast
        simp only [Option.or_some, Option.some.injEq] at hlast
        subst hlast
        exact q5 g h2
      | none =>
        rw [h2] at hlast
        simp only [Option.none_or] at hlast
        rw [q6 (List.getLast?_eq_none_iff.1 h2)]
        exact stores_last _ c f (by omega) hf1 hlast
    · intro hnil
      rw [List.append_eq_nil] at hnil
      rw [q6 hnil.2]
      have hzero : o.depth = 0 := by
        have := congrArg List.length hnil.1
        rw [stores_fields_length] at this
        simpa using this
      rw [hzero]
      simp [stores_end, pack_cursor.one_past_end, hc]

theorem terms_fields_length (nbits_to_pack : Nat → Nat) :
    ∀ (ts : List term_spec) (c : pack_cursor),
      (terms_fields nbits_to_pack ts c).length = (ts.map term_spec.depth).sum := by
  intro ts
  induction ts with
  | nil => intro c; rfl
  | cons o os ih =>
    intro c
    simp [terms_fields, stores_fields_length, ih]

/-- Running the loop over the term specs: as for a sequence of stores, with the
padding after each spec. -/
theorem pack_terms_spec (nbits_to_pack : Nat → Nat) :
    ∀ (ts : List term_spec) (vs rest : List Nat) (words : packed_vec) (c : pack_cursor),
      vs.length = (terms_fields nbits_to_pack ts c).length → c.offset = 0 →
      (∀ f ∈ terms_fields nbits_to_pack ts c,
        0 < f.width ∧ f.minor_offset + f.width ≤ 64 ∧ f.major_offset < words.length) →
      ∃ words2, pack_terms nbits_to_pack ts ⟨vs ++ rest, words, c⟩
            = .ok ⟨rest, words2, terms_end nbits_to_pack ts c⟩ ∧
        words2.length = words.length ∧
        ∀ m k, (words2.getD m 0).testBit k = true ↔
          ((words.getD m 0).testBit k = true ∨
            packed_bit (List.zip (terms_fields nbits_to_pack ts c) vs) m k) := by
  intro ts
  induction ts with
  | nil =>
    intro vs rest words c hlen _ _
    have hvs : vs = [] := List.eq_nil_of_length_eq_zero hlen
    subst hvs
    refine ⟨words, rfl, rfl, fun m k => ?_⟩
    simp [terms_fields, packed_bit_nil]
  | cons o os ih =>
    intro vs rest words c hlen hc hf
    have hf1 : ∀ f ∈ stores_fields (List.replicate o.depth (nbits_to_pack o.branching)) c,
        0 < f.width ∧ f.minor_offset + f.width ≤ 64 ∧ f.major_offset < words.length :=
      fun f hfm => hf f (by simp only [terms_fields, List.mem_append]; exact Or.inl hfm)
    obtain ⟨p1, p2, _, _⟩ := stores_positions
      (List.replicate o.depth (nbits_to_pack o.branching)) c (by omega)
      (fun f h => (hf1 f h).2.1)
    rw [List.sum_replicate, smul_eq_mul] at p2
    have hclose := term_pad_closes nbits_to_pack o c _ hc p1 p2
    -- split the input between this spec and the specs after it
    simp only [terms_fields, List.length_append, stores_fields_length,
      List.length_replicate] at hlen
    obtain ⟨v1, v2, rfl, hv1⟩ : ∃ v1 v2, vs = v1 ++ v2 ∧ v1.length = o.depth :=
      ⟨vs.take o.depth, vs.drop o.depth, (List.take_append_drop _ _).symm, by
        rw [List.length_take]; omega⟩
    have hv2 : v2.length = (terms_fields nbits_to_pack os
        ((stores_end (List.replicate o.depth (nbits_to_pack o.branching)) c).advance
          (term_pad nbits_to_pack o))).length := by
      rw [List.length_append] at hlen
      omega
    obtain ⟨words1, hrun1, hl1, hb1⟩ := pack_stores_spec
      (List.replicate o.depth (nbits_to_pack o.branching)) v1 (v2 ++ rest) words c
      (by rw [hv1, List.length_replicate]) (by omega)
      (fun f h => ⟨(hf1 f h).2.1, (hf1 f h).2.2⟩)
    obtain ⟨words2, hrun2, hl2, hb2⟩ := ih v2 rest words1
      ((stores_end (List.replicate o.depth (nbits_to_pack o.branching)) c).advance
        (term_pad nbits_to_pack o)) hv2 (by rw [hclose])
      (by
        intro f hfm
        have := hf f (by simp only [terms_fields, List.mem_append]; exact Or.inr hfm)
        rw [hl1]
        exact this)
    refine ⟨words2, ?_, by rw [hl2, hl1], fun m k => ?_⟩
    · rw [pack_terms, pack_term_loop_eq, List.append_assoc, hrun1]
      exact hrun2
    · rw [hb2 m k, hb1 m k]
      simp only [terms_fields]
      rw [List.zip_append (by rw [stores_fields_length, List.length_replicate, hv1]),
        packed_bit_append]
      tauto

/-- Reading back: when the fields come one after the other in bit order, each
within its word, and the words hold exactly the bits of the values at their
fields, `get_raw` returns the value of each field. -/
theorem get_raw_of_packed (fs : field_set) (src : List Nat) (words : packed_vec)
    (hpair : fs._fields.Pairwise fun f g =>
      64 * f.major_offset + f.minor_offset + f.width ≤ 64 * g.major_offset + g.minor_offset)
    (hfit : ∀ f ∈ fs._fields, f.width < 64 ∧ f.minor_offset + f.width ≤ 64)
    (hlen : src.length = fs._fields.length)
    (hv : ∀ i, i < fs._fields.length → src.getD i 0 < 2 ^ (field_at fs i).width)
    (hbits : ∀ m k, (words.getD m 0).testBit k = true ↔
      packed_bit (List.zip fs._fields src) m k) :
    ∀ i, i < fs._fields.length → fs.get_raw words i = src.getD i 0 := by
  intro i hi
  have hi2 : i < src.length := by omega
  have hfi : field_at fs i = fs._fields[i] := List.getD_eq_getElem _ _ hi
  have hsi : src.getD i 0 = src[i] := List.getD_eq_getElem _ _ hi2
  have hfiti := hfit _ (List.getElem_mem hi)
  have hvi := hv i hi
  rw [hfi, hsi] at hvi
  rw [get_raw_eq, hfi, hsi]
  apply Nat.eq_of_testBit_eq
  intro k
  rw [testBit_get_word]
  rw [Bool.eq_iff_iff]
  simp only [Bool.and_eq_true, decide_eq_true_eq]
  rw [hbits]
  constructor
  · rintro ⟨⟨hk, _⟩, p, hp, h1, h2, h3, h4⟩
    obtain ⟨j, hj, hpj⟩ := List.mem_iff_getElem.1 hp
    rw [List.getElem_zip] at hpj
    have hjF : j < fs._fields.length := by
      rw [List.length_zip] at hj; omega
    have hjS : j < src.length := by
      rw [List.length_zip] at hj; omega
    subst hpj
    simp only at h1 h2 h4
    have hvj := hv j hjF
    rw [List.getD_eq_getElem _ _ hjF |> fun e => (show field_at fs j = fs._fields[j] from e),
      List.getD_eq_getElem _ _ hjS] at hvj
    have hfitj := hfit _ (List.getElem_mem hjF)
    rcases Nat.lt_trichotomy j i with hlt | heq | hgt
    · have hR := List.pairwise_iff_getElem.1 hpair j i hjF hi hlt
      have hge : fs._fields[j].width ≤
          fs._fields[i].minor_offset + k - fs._fields[j].minor_offset := by omega
      have : src[j].testBit (fs._fields[i].minor_offset + k - fs._fields[j].minor_offset)
          = false :=
        Nat.testBit_lt_two_pow (lt_of_lt_of_le hvj (Nat.pow_le_pow_right (by decide) hge))
      rw [this] at h4
      cases h4
    · subst heq
      have : fs._fields[j].minor_offset + k - fs._fields[j].minor_offset = k := by omega
      rw [this] at h4
      exact h4
    · have hR := List.pairwise_iff_getElem.1 hpair i j hi hjF hgt
      omega
  · intro hk
    have hkw : k < fs._fields[i].width := by
      by_contra hc
      have : src[i].testBit k = false :=
        Nat.testBit_lt_two_pow (lt_of_lt_of_le hvi (Nat.pow_le_pow_right (by decide) (by omega)))
      rw [this] at hk
      cases hk
    refine ⟨⟨hkw, hfiti.1⟩, (fs._fields[i], src[i]), ?_, rfl, Nat.le_add_right _ _,
      (by show fs._fields[i].minor_offset + k < 64; omega), ?_⟩
    · rw [List.mem_iff_getElem]
      exact ⟨i, by rw [List.length_zip]; omega, by rw [List.getElem_zip]⟩
    · simp only
      have : fs._fields[i].minor_offset + k - fs._fields[i].minor_offset = k := by omega
      rw [this]
      exact hk

/-- The whole of `pack`, for a layout whose raw table is the walk of `pack`
itself with every field between 1 and 63 bits wide and within one word. -/
theorem pack_spec (nbits_to_pack : Nat → Nat) (fs : field_set) (src : List Nat) (n : Nat)
    (hfields : fs._fields = pack_fields nbits_to_pack fs._term fs._disc)
    (hfit : ∀ f ∈ fs._fields, 0 < f.width ∧ f.width < 64 ∧ f.minor_offset + f.width ≤ 64)
    (hlen : src.length = fs.raw_size)
    (hv : ∀ i, i < fs.raw_size → src.getD i 0 < 2 ^ (field_at fs i).width)
    (hn : fs.packed_width ≤ n) :
    ∃ words, fs.pack nbits_to_pack src (List.replicate n 0) 0 = .ok (words, fs.packed_width) ∧
      words.length = n ∧ ∀ i, i < fs.raw_size → fs.get_raw words i = src.getD i 0 := by
  -- the two halves of the walk
  have hF : fs._fields = terms_fields nbits_to_pack fs._term ⟨0, 0⟩ ++
      stores_fields (fs._disc.map fun d => nbits_to_pack d.multy)
        (terms_end nbits_to_pack fs._term ⟨0, 0⟩) := hfields
  have hft : ∀ f ∈ terms_fields nbits_to_pack fs._term ⟨0, 0⟩,
      0 < f.width ∧ f.width < 64 ∧ f.minor_offset + f.width ≤ 64 :=
    fun f h => hfit f (by rw [hF, List.mem_append]; exact Or.inl h)
  have hfd : ∀ f ∈ stores_fields (fs._disc.map fun d => nbits_to_pack d.multy)
      (terms_end nbits_to_pack fs._term ⟨0, 0⟩),
      0 < f.width ∧ f.width < 64 ∧ f.minor_offset + f.width ≤ 64 :=
    fun f h => hfit f (by rw [hF, List.mem_append]; exact Or.inr h)
  obtain ⟨t1, t2, t3, t4, t5, t6⟩ := terms_positions nbits_to_pack fs._term ⟨0, 0⟩ rfl
    (fun f h => ⟨(hft f h).1, (hft f h).2.2⟩)
  obtain ⟨d1, d2, d3, d4⟩ := stores_positions (fs._disc.map fun d => nbits_to_pack d.multy)
    (terms_end nbits_to_pack fs._term ⟨0, 0⟩) (by omega) (fun f h => (hfd f h).2.2)
  have hope := one_past_end_ge _ d1
  -- the position returned is `packed_width`
  have hwidth : (stores_end (fs._disc.map fun d => nbits_to_pack d.multy)
      (terms_end nbits_to_pack fs._term ⟨0, 0⟩)).one_past_end = fs.packed_width := by
    unfold field_set.packed_width
    rw [hF, List.getLast?_append]
    cases h2 : (stores_fields (fs._disc.map fun d => nbits_to_pack d.multy)
        (terms_end nbits_to_pack fs._term ⟨0, 0⟩)).getLast? with
    | some g =>
      simp only [Option.or_some]
      exact stores_last _ _ g (by omega) (fun f h => ⟨(hfd f h).1, (hfd f h).2.2⟩) h2
    | none =>
      simp only [Option.none_or]
      have hnil := List.getLast?_eq_none_iff.1 h2
      have hdnil : (fs._disc.map fun d => nbits_to_pack d.multy) = [] := by
        have := congrArg List.length hnil
        rw [stores_fields_length] at this
        exact List.eq_nil_of_length_eq_zero this
      rw [hdnil]
      simp only [stores_end, pack_cursor.one_past_end, t1, gt_iff_lt, lt_self_iff_false,
        if_false]
      cases h3 : (terms_fields nbits_to_pack fs._term ⟨0, 0⟩).getLast? with
      | some g => exact t5 g h3
      | none => exact t6 (List.getLast?_eq_none_iff.1 h3)
  -- every field lies in a word below `packed_width`
  have hmajor : ∀ f ∈ fs._fields, f.major_offset < n := by
    intro f hf
    rw [hF, List.mem_append] at hf
    rcases hf with h | h
    · have := t3 f h
      have := (hft f h).1
      omega
    · have := d3 f h
      have := (hfd f h).1
      omega
  -- the fields come one after the other
  have hpair : fs._fields.Pairwise fun f g =>
      64 * f.major_offset + f.minor_offset + f.width
        ≤ 64 * g.major_offset + g.minor_offset := by
    rw [hF, List.pairwise_append]
    refine ⟨t4, d4, ?_⟩
    intro f hf g hg
    have := t3 f hf
    have := d3 g hg
    omega
  -- split the input
  have hlt : (terms_fields nbits_to_pack fs._term ⟨0, 0⟩).length ≤ src.length := by
    rw [hlen, field_set.raw_size, hF, List.length_append]
    omega
  obtain ⟨v1, v2, rfl, hv1⟩ : ∃ v1 v2, src = v1 ++ v2 ∧
      v1.length = (terms_fields nbits_to_pack fs._term ⟨0, 0⟩).length :=
    ⟨src.take (terms_fields nbits_to_pack fs._term ⟨0, 0⟩).length,
      src.drop (terms_fields nbits_to_pack fs._term ⟨0, 0⟩).length,
      (List.take_append_drop _ _).symm, by rw [List.length_take]; omega⟩
  have hv2 : v2.length = (fs._disc.map fun d => nbits_to_pack d.multy).length := by
    have := hlen
    rw [field_set.raw_size, hF, List.length_append, List.length_append,
      stores_fields_length] at this
    omega
  obtain ⟨words1, hrun1, hl1, hb1⟩ := pack_terms_spec nbits_to_pack fs._term v1 v2
    (List.replicate n 0) ⟨0, 0⟩ hv1 rfl
    (fun f h => ⟨(hft f h).1, (hft f h).2.2, by
      rw [List.length_replicate]
      exact hmajor f (by rw [hF, List.mem_append]; exact Or.inl h)⟩)
  obtain ⟨words2, hrun2, hl2, hb2⟩ := pack_stores_spec
    (fs._disc.map fun d => nbits_to_pack d.multy) v2 [] words1
    (terms_end nbits_to_pack fs._term ⟨0, 0⟩) hv2 (by omega)
    (fun f h => ⟨(hfd f h).2.2, by
      rw [hl1, List.length_replicate]
      exact hmajor f (by rw [hF, List.mem_append]; exact Or.inr h)⟩)
  rw [List.append_nil] at hrun2
  refine ⟨words2, ?_, by rw [hl2, hl1, List.length_replicate], ?_⟩
  · unfold field_set.pack
    rw [hrun1]
    simp only
    rw [pack_discs_eq, hrun2]
    simp only
    rw [hwidth]
  · apply get_raw_of_packed fs (v1 ++ v2) words2 hpair
      (fun f h => ⟨(hfit f h).2.1, (hfit f h).2.2⟩) hlen hv
    intro m k
    rw [hb2 m k, hb1 m k, hF, List.zip_append hv1.symm, packed_bit_append]
    have hz : ((List.replicate n 0).getD m 0).testBit k = false := by
      have : (List.replicate n 0).getD m 0 = 0 := by
        rw [List.getD_eq_getElem?_getD]
        by_cases hm : m < n
        · rw [List.getElem?_replicate, if_pos hm]; rfl
        · rw [List.getElem?_eq_none (by rw [List.length_replicate]; omega)]; rfl
      rw [this, Nat.zero_testBit]
    rw [hz]
    simp

theorem get_raw_zero_words (fs : field_set) (i : Nat) : fs.get_raw [0] i = 0 := by
  have h : ∀ m : Nat, ([0] : packed_vec).getD m 0 = 0 := by
    intro m
    cases m with
    | zero => rfl
    | succ m => rfl
  simp only [field_set.get_raw, h, Nat.zero_shiftRight, Nat.zero_and]

/-! ### Claims on the continuous knob, the range constructor and the packer -/

/-- C26 (amended): `generate_contin_neighbor` on knob `it`, whose spec is `cs`.
At distance 0 the layout, the instance and the generator are left as they are.
At a positive distance with a non-empty likely queue the knob is set to the
value queued last, that value leaves the queue, and the radius and the
generator are untouched.  At a positive distance with an empty queue the knob
is set to the double product `u * s * x`, where `x` is the double product
`current_search_space * dist` and `u` in `[0, 1)` and `s = ±1` are the
generator's next two draws; the spec is untouched, the previous value plays no
part, and the magnitude is at most `|x|`.  The products are finite doubles when
`current_search_space * dist` is within the finite range of `double`. -/
theorem generate_contin_neighbor_cases (fs : field_set) (inst : Instance) (it dist : Nat)
    (rng : RandGen) (cs : contin_spec) (current : contin_t)
    (hcs : fs._contin.get? it = some cs) (hcur : inst._contin.get? it = some current)
    (hu : 0 ≤ rng.doubles rng.drawn ∧ rng.doubles rng.drawn < 1)
    (hs : rng.signs (rng.drawn + 1) = 1 ∨ rng.signs (rng.drawn + 1) = -1) :
    (dist = 0 → generate_contin_neighbor fs inst it dist rng = .ok (fs, inst, rng)) ∧
    (0 < dist → ∀ v, cs._likely.getLast? = some v →
      generate_contin_neighbor fs inst it dist rng =
        .ok ({ fs with
            _contin := fs._contin.set it { cs with _likely := cs._likely.dropLast } },
          { inst with _contin := inst._contin.set it v }, rng)) ∧
    (0 < dist → cs._likely = [] →
      (∀ x p v, round_contin (cs._space * dist) = .ok x →
        round_contin (rng.doubles rng.drawn * rng.signs (rng.drawn + 1)) = .ok p →
        round_contin (p * x) = .ok v →
          generate_contin_neighbor fs inst it dist rng =
            .ok (fs, { inst with _contin := inst._contin.set it v },
              { rng with drawn := rng.drawn + 2 }) ∧
          |v| ≤ |x|) ∧
      (|cs._space * dist| ≤ (DBL_MAX : Rat) →
        ∃ x p v, round_contin (cs._space * dist) = .ok x ∧
          round_contin (rng.doubles rng.drawn * rng.signs (rng.drawn + 1)) = .ok p ∧
          round_contin (p * x) = .ok v)) := by
  refine ⟨?_, ?_, ?_⟩
  · intro h
    rw [h]
    exact generate_contin_neighbor_zero fs inst it rng
  · intro hd v hv
    exact generate_contin_neighbor_likely fs inst it dist rng cs current v hd hcs hcur hv
  · intro hd hl
    refine ⟨fun x p v hx hp hv => ⟨generate_contin_neighbor_draw fs inst it dist rng cs current
      x p v hd hcs hcur hl hx hp hv, round_draw_le _ _ _ x p v hu.1 hu.2 hs hx hp hv⟩,
      fun hfin => round_draw_returns _ _ _ hu.1 hu.2 hs hfin⟩

/-- C26 (witness): a knob of radius 3 at distance 2.  With the queue `[7, 9]`
the knob takes 9 and the queue keeps `[7]`; with an empty queue and the draws
`u = 1/2`, `s = -1` the knob takes `-3`, of magnitude at most 6. -/
theorem generate_contin_neighbor_radius_three :
    generate_contin_neighbor (fs_contin 3 [7, 9]) ⟨[], [5]⟩ 0 2 rng_half =
        .ok (fs_contin 3 [7], ⟨[], [9]⟩, rng_half) ∧
      generate_contin_neighbor (fs_contin 3 []) ⟨[], [5]⟩ 0 2 rng_half =
        .ok (fs_contin 3 [], ⟨[], [-3]⟩, { rng_half with drawn := 2 }) ∧
      |(-3 : contin_t)| ≤ |(6 : contin_t)| := by
  have h1 := generate_contin_neighbor_cases (fs_contin 3 [7, 9]) ⟨[], [5]⟩ 0 2 rng_half
    ⟨3, 1, [7, 9]⟩ 5 rfl rfl (by norm_num [rng_half]) (Or.inr rfl)
  have h2 := generate_contin_neighbor_cases (fs_contin 3 []) ⟨[], [5]⟩ 0 2 rng_half
    ⟨3, 1, []⟩ 5 rfl rfl (by norm_num [rng_half]) (Or.inr rfl)
  have hx : round_contin ((3 : contin_t) * ((2 : Nat) : contin_t)) = .ok 6 :=
    round_contin_double _ 6 6 0 (by decide) (by decide) (by norm_num) (by norm_num)
      (abs_lt.2 ⟨by norm_num, by norm_num⟩)
  have hp : round_contin ((1 / 2 : contin_t) * ((-1 : Int) : contin_t)) = .ok (-1 / 2) :=
    round_contin_double _ (-1 / 2) (-1) (-1) (by decide) (by decide) (by norm_num)
      (by norm_num) (abs_lt.2 ⟨by norm_num, by norm_num⟩)
  have hv : round_contin ((-1 / 2 : contin_t) * 6) = .ok (-3) :=
    round_contin_double _ (-3) (-3) 0 (by decide) (by decide) (by norm_num) (by norm_num)
      (abs_lt.2 ⟨by norm_num, by norm_num⟩)
  have h3 := (h2.2.2 (by decide) rfl).1 6 (-1 / 2) (-3) hx hp hv
  refine ⟨?_, ?_, h3.2⟩
  · rw [h1.2.1 (by decide) 9 rfl]
    rfl
  · rw [h3.1]
    rfl

/-- C26 (counterexample): a spec whose radius is `2 ^ (-1074)`, the smallest
positive double, with an empty queue, at distance 1 and the draws `u = 3/4`,
`s = +1`.  The product `3/4 * 2 ^ (-1074)` rounds to the double `2 ^ (-1074)`,
and the knob is set to it: a magnitude equal to
`current_search_space * dist`, not below it.  And with the radius 0 that
`contin_spec(0.0, 0)` leaves, the knob is set to 0, which is not below
`current_search_space * dist = 0` either. -/
theorem generate_contin_neighbor_zero_radius :
    generate_contin_neighbor (fs_contin (2 ^ (-1074 : Int)) []) ⟨[], [5]⟩ 0 1
        rng_three_quarters =
      .ok (fs_contin (2 ^ (-1074 : Int)) [], ⟨[], [2 ^ (-1074 : Int)]⟩,
        { rng_three_quarters with drawn := 2 }) ∧
      (0 : contin_t) < 2 ^ (-1074 : Int) ∧
      (0 ≤ rng_three_quarters.doubles 0 ∧ rng_three_quarters.doubles 0 < 1) ∧
      rng_three_quarters.signs 1 = 1 ∧
      ¬ |(2 ^ (-1074 : Int) : contin_t)| < (2 ^ (-1074 : Int) : contin_t) * (1 : Nat) ∧
      generate_contin_neighbor (fs_contin 0 []) ⟨[], [5]⟩ 0 1 rng_half =
        .ok (fs_contin 0 [], ⟨[], [0]⟩, { rng_half with drawn := 2 }) ∧
      ¬ |(0 : contin_t)| < (0 : contin_t) * (1 : Nat) := by
  have hpos : (0 : contin_t) < 2 ^ (-1074 : Int) := by positivity
  have hsmall : (2 : contin_t) ^ (-1074 : Int) < 2 ^ (1024 : Int) :=
    zpow_lt_zpow_right₀ (by norm_num) (by decide)
  have hx : round_contin ((2 ^ (-1074 : Int) : contin_t) * ((1 : Nat) : contin_t)) =
      .ok (2 ^ (-1074 : Int)) :=
    round_contin_double _ _ 1 (-1074) (by decide) (by decide)
      (by rw [Nat.cast_one, mul_one, Int.cast_one, one_mul])
      (by rw [Int.cast_one, one_mul])
      (by rw [abs_of_pos hpos]; exact hsmall)
  have hp : round_contin ((3 / 4 : contin_t) * ((1 : Int) : contin_t)) = .ok (3 / 4) :=
    round_contin_double _ (3 / 4) 3 (-2) (by decide) (by decide) (by norm_num) (by norm_num)
      (abs_lt.2 ⟨by norm_num, by norm_num⟩)
  have hq0 : (3 / 4 : contin_t) * 2 ^ (-1074 : Int) ≠ 0 :=
    mul_ne_zero (by norm_num) (ne_of_gt hpos)
  have hqabs : |(3 / 4 : contin_t) * 2 ^ (-1074 : Int)| = 3 / 4 * 2 ^ (-1074 : Int) :=
    abs_of_pos (mul_pos (by norm_num) hpos)
  have hr : round_half_even (3 / 4) = 1 := by
    have hfl : ⌊(3 / 4 : Rat)⌋ = 0 := by
      rw [Int.floor_eq_iff]
      norm_num
    unfold round_half_even
    rw [hfl]
    norm_num
  have hmag : round_magnitude ((3 / 4 : contin_t) * 2 ^ (-1074 : Int)) = 2 ^ (-1074 : Int) := by
    rw [round_magnitude_subnormal _ hq0 (by
      rw [hqabs]
      calc (3 / 4 : contin_t) * 2 ^ (-1074 : Int) < 1 * 2 ^ (-1074 : Int) :=
            mul_lt_mul_of_pos_right (by norm_num) hpos
        _ = 2 ^ (-1074 : Int) := one_mul _
        _ < 2 ^ (-1022 : Int) := zpow_lt_zpow_right₀ (by norm_num) (by decide)),
      hqabs, mul_div_assoc, div_self (ne_of_gt hpos), mul_one, hr, Int.cast_one, one_mul]
  have hv : round_contin ((3 / 4 : contin_t) * 2 ^ (-1074 : Int)) = .ok (2 ^ (-1074 : Int)) := by
    unfold round_contin
    rw [hmag, if_pos hsmall, if_neg (not_lt.2 (le_of_lt (mul_pos (by norm_num) hpos)))]
  have h0 : round_contin ((0 : contin_t) * ((1 : Nat) : contin_t)) = .ok 0 :=
    round_contin_double _ 0 0 0 (by decide) (by decide) (by norm_num) (by norm_num)
      (abs_lt.2 ⟨by norm_num, by norm_num⟩)
  have hph : round_contin ((1 / 2 : contin_t) * ((-1 : Int) : contin_t)) = .ok (-1 / 2) :=
    round_contin_double _ (-1 / 2) (-1) (-1) (by decide) (by decide) (by norm_num)
      (by norm_num) (abs_lt.2 ⟨by norm_num, by norm_num⟩)
  have hv0 : round_contin ((-1 / 2 : contin_t) * 0) = .ok 0 :=
    round_contin_double _ 0 0 0 (by decide) (by decide) (by norm_num) (by norm_num)
      (abs_lt.2 ⟨by norm_num, by norm_num⟩)
  refine ⟨?_, hpos, by norm_num [rng_three_quarters], rfl, ?_, ?_, by norm_num⟩
  · rw [generate_contin_neighbor_draw (fs_contin (2 ^ (-1074 : Int)) []) ⟨[], [5]⟩ 0 1
      rng_three_quarters ⟨2 ^ (-1074 : Int), 1, []⟩ 5 (2 ^ (-1074 : Int)) (3 / 4)
      (2 ^ (-1074 : Int)) (by decide) rfl rfl rfl hx hp hv]
    rfl
  · rw [abs_of_pos hpos, Nat.cast_one, mul_one]
    exact lt_irrefl _
  · rw [generate_contin_neighbor_draw (fs_contin 0 []) ⟨[], [5]⟩ 0 1 rng_half ⟨0, 1, []⟩ 5
      0 (-1 / 2) 0 (by decide) rfl rfl rfl h0 hph hv0]
    rfl

/-- C21 (failing input): the range `[term_spec(tr, 2, 4), term_spec(tr2, 2, 4)]`
of two term specs over different trees, and the range
`[term_spec(tr, 2, 4), term_spec(tr, 4, 2)]` of two term specs of different
depth and branching.  In both the two specs differ under operator `==`, yet
neither is below the other under operator `<` (both have size 8), so the
range constructor counts them as one entry, the first spec taken twice.  In
general two specs are merged exactly if neither is below the other; a pair
that is equal under operator `==` is always merged. -/
theorem range_ctor_merges_distinct_terms :
    (∀ a b : spec, a.eq b = true → (field_set.spec_counts [a, b]).length = 1) ∧
    (∀ a b : spec, (field_set.spec_counts [a, b]).length = 1 ↔
      (a.lt b = false ∧ b.lt a = false)) ∧
    spec.eq (.term ⟨0, 2, 4⟩) (.term ⟨1, 2, 4⟩) = false ∧
    field_set.spec_counts [.term ⟨0, 2, 4⟩, .term ⟨1, 2, 4⟩] = [(.term ⟨0, 2, 4⟩, 2)] ∧
    spec.eq (.term ⟨0, 2, 4⟩) (.term ⟨0, 4, 2⟩) = false ∧
    field_set.spec_counts [.term ⟨0, 2, 4⟩, .term ⟨0, 4, 2⟩] = [(.term ⟨0, 2, 4⟩, 2)] :=
  ⟨fun a b h => (spec_counts_pair_merged a b).2 (spec_lt_of_eq a b h),
    spec_counts_pair_merged, by decide, by decide, by decide, by decide⟩

theorem build_fields_eq_stores_fields :
    ∀ (ws : List Nat) (c : pack_cursor), c.offset < 64 →
      (∀ f ∈ build_fields ws (64 * c.out + c.offset), f.minor_offset + f.width ≤ 64) →
      build_fields ws (64 * c.out + c.offset) = stores_fields ws c := by
  intro ws
  induction ws with
  | nil => intro c _ _; rfl
  | cons w ws ih =>
    intro c hc hf
    have h1 : (64 * c.out + c.offset) / bits_per_packed_t = c.out := by
      simp only [bits_per_packed_t]; omega
    have h2 : (64 * c.out + c.offset) % bits_per_packed_t = c.offset := by
      simp only [bits_per_packed_t]; omega
    have hhead := hf ⟨w, (64 * c.out + c.offset) / bits_per_packed_t,
      (64 * c.out + c.offset) % bits_per_packed_t⟩ (by simp [build_fields])
    simp only [h2] at hhead
    obtain ⟨a1, a2, _⟩ := advance_of_fit c w hhead
    simp only [build_fields, stores_fields, h1, h2]
    congr 1
    rw [← a2]
    apply ih (c.advance w) a1
    intro f hfm
    apply hf f
    simp only [build_fields, List.mem_cons]
    right
    rw [← a2]
    exact hfm

theorem build_term_fields_eq_terms_fields (nbits_to_pack : Nat → Nat) :
    ∀ (ts : List term_spec) (c : pack_cursor), c.offset = 0 →
      (∀ f ∈ build_term_fields nbits_to_pack ts (64 * c.out),
        f.minor_offset + f.width ≤ 64) →
      build_term_fields nbits_to_pack ts (64 * c.out) = terms_fields nbits_to_pack ts c ∧
        (terms_end nbits_to_pack ts c).offset = 0 ∧
        64 * (terms_end nbits_to_pack ts c).out =
          64 * c.out + (ts.map (term_span nbits_to_pack)).sum := by
  intro ts
  induction ts with
  | nil => intro c hc _; exact ⟨rfl, hc, by simp [terms_end]⟩
  | cons o os ih =>
    intro c hc hf
    have hbase : 64 * c.out = 64 * c.out + c.offset := by omega
    have hrun : ∀ f ∈ build_fields (List.replicate o.depth (nbits_to_pack o.branching))
        (64 * c.out + c.offset), f.minor_offset + f.width ≤ 64 := by
      intro f hfm
      apply hf f
      simp only [build_term_fields, List.mem_append]
      left
      rw [hbase]
      exact hfm
    have heq := build_fields_eq_stores_fields _ c (by omega) hrun
    have hrun2 : ∀ f ∈ stores_fields (List.replicate o.depth (nbits_to_pack o.branching)) c,
        f.minor_offset + f.width ≤ 64 := by
      rw [← heq]; exact hrun
    obtain ⟨p1, p2, _, _⟩ := stores_positions _ c (by omega) hrun2
    rw [List.sum_replicate, smul_eq_mul] at p2
    have hclose := term_pad_closes nbits_to_pack o c _ hc p1 p2
    have hspan : 64 * (stores_end (List.replicate o.depth (nbits_to_pack o.branching))
        c).one_past_end = 64 * c.out + term_span nbits_to_pack o := by
      unfold pack_cursor.one_past_end term_span
      simp only [bits_per_packed_t]
      rw [Nat.mul_comm (nbits_to_pack o.branching) o.depth]
      generalize o.depth * nbits_to_pack o.branching = x at p2 ⊢
      split_ifs <;> omega
    have htail := ih ⟨(stores_end (List.replicate o.depth (nbits_to_pack o.branching))
        c).one_past_end, 0⟩ rfl
      (by
        intro f hfm
        apply hf f
        simp only [build_term_fields, List.mem_append]
        right
        rw [← hspan]
        exact hfm)
    obtain ⟨t1, t2, t3⟩ := htail
    simp only at t1 t3
    refine ⟨?_, ?_, ?_⟩
    · simp only [build_term_fields, terms_fields]
      rw [hclose, ← t1, hspan, ← heq, ← hbase]
    · simp only [terms_end]
      rw [hclose]
      exact t2
    · simp only [terms_end, List.map_cons, List.sum_cons]
      rw [hclose, t3, hspan]
      omega

/-- A raw table laid out as the spec describes, every field wholly inside one
word, is the table of the places where `pack` stores the values. -/
theorem layout_fields_eq_pack_fields (nbits_to_pack : Nat → Nat) (term : List term_spec)
    (disc : List disc_spec)
    (hfit : ∀ f ∈ layout_fields nbits_to_pack term disc, f.minor_offset + f.width ≤ 64) :
    layout_fields nbits_to_pack term disc = pack_fields nbits_to_pack term disc := by
  unfold layout_fields pack_fields
  obtain ⟨t1, t2, t3⟩ := build_term_fields_eq_terms_fields nbits_to_pack term ⟨0, 0⟩ rfl
    (fun f hf => hfit f (by
      unfold layout_fields
      rw [List.mem_append]
      exact Or.inl hf))
  simp only [Nat.mul_zero, Nat.zero_add] at t1 t3
  rw [t1]
  congr 1
  have hb : (term.map (term_span nbits_to_pack)).sum =
      64 * (terms_end nbits_to_pack term ⟨0, 0⟩).out
        + (terms_end nbits_to_pack term ⟨0, 0⟩).offset := by omega
  rw [hb]
  apply build_fields_eq_stores_fields _ _ (by omega)
  intro f hf
  apply hfit f
  unfold layout_fields
  rw [List.mem_append]
  right
  rw [hb]
  exact hf

/-- C22 (amended): `pack` on a layout whose raw table is laid out as the spec
describes (the fields one after the other in bit order, each term spec padded
to a whole word), whose fields are 1 to 32 bits wide and lie wholly inside one
word.  For every sequence of
as many values as there are raw fields, each below `2 ^ width` of its field,
`pack` into `n` zero words from word 0, with `n` at least `packed_width()`,
returns; the position returned is `packed_width()`, and `get_raw(i)` on the
words written reads back the `i`-th value for every raw index `i`. -/
theorem pack_round_trip (nbits_to_pack : Nat → Nat) (fs : field_set) (src : List Nat) (n : Nat)
    (hfields : fs._fields = layout_fields nbits_to_pack fs._term fs._disc)
    (hfit : ∀ f ∈ fs._fields, 0 < f.width ∧ f.width ≤ 32 ∧ f.minor_offset + f.width ≤ 64)
    (hlen : src.length = fs.raw_size)
    (hv : ∀ i, i < fs.raw_size → src.getD i 0 < 2 ^ (field_at fs i).width)
    (hn : fs.packed_width ≤ n) :
    ∃ words, fs.pack nbits_to_pack src (List.replicate n 0) 0 = .ok (words, fs.packed_width) ∧
      words.length = n ∧ ∀ i, i < fs.raw_size → fs.get_raw words i = src.getD i 0 := by
  have hwalk : fs._fields = pack_fields nbits_to_pack fs._term fs._disc := by
    rw [hfields]
    exact layout_fields_eq_pack_fields nbits_to_pack fs._term fs._disc
      (fun f hf => (hfit f (by rw [hfields]; exact hf)).2.2)
  exact pack_spec nbits_to_pack fs src n hwalk
    (fun f hf => ⟨(hfit f hf).1, lt_of_le_of_lt (hfit f hf).2.1 (by decide), (hfit f hf).2.2⟩)
    hlen hv hn

/-- C22 (witness): the layout `fs_full`, whose widths are `ceil(log2 .)` of
the branching 4 and of the multiplicities 4, 2, 2, 2.  Packing
`[1, 2, 3, 1, 0, 1]` into three zero words gives `[9, 23, 0]` and the position
2, which is `packed_width()`, and every `get_raw(i)` reads back the `i`-th
value. -/
theorem pack_round_trip_full :
    fs_full.pack ceil_log2 [1, 2, 3, 1, 0, 1] [0, 0, 0] 0 = .ok ([9, 23, 0], 2) ∧
      fs_full.packed_width = 2 ∧
      (∀ i, i < 6 → fs_full.get_raw [9, 23, 0] i = [1, 2, 3, 1, 0, 1].getD i 0) := by
  obtain ⟨words, h1, _, h3⟩ := pack_round_trip ceil_log2 fs_full [1, 2, 3, 1, 0, 1] 3
    (by decide) (by decide) (by decide) (by decide) (by decide)
  have h : fs_full.pack ceil_log2 [1, 2, 3, 1, 0, 1] (List.replicate 3 0) 0 =
      .ok ([9, 23, 0], 2) := by rfl
  rw [h] at h1
  injection h1 with h1
  injection h1 with hw _
  subst hw
  exact ⟨h, by decide, h3⟩

/-- C22 (counterexample): 22 discs of multiplicity 5, each `ceil(log2 5) = 3`
bits wide, laid one after the other, so that disc 21 starts at bit 63 of word
0; `packed_width()` is 1.  The values are 21 zeros and a 4, each below
`2 ^ 3`.  `pack` into one zero word returns the position 1 and leaves the word
0: the 4, shifted by 63, falls off the word.  `get_raw(21)` reads 0, not 4,
and no field table would read a 4 from these words.  And for two discs of
multiplicity `2 ^ 32 - 1` (32 bits each) followed by a disc of multiplicity 1,
whose width `ceil(log2 1)` is 0 and whose field starts word 1,
`packed_width()` is 2 while `pack` returns the position 1. -/
theorem pack_truncates_straddling_value :
    fs_fives._fields = layout_fields ceil_log2 fs_fives._term fs_fives._disc ∧
    (∀ f ∈ fs_fives._fields, f.width = ceil_log2 5) ∧
    (∀ i, i < 22 → (List.replicate 21 0 ++ [4]).getD i 0 < 2 ^ (field_at fs_fives i).width) ∧
    fs_fives.packed_width = 1 ∧
    fs_fives.pack ceil_log2 (List.replicate 21 0 ++ [4]) [0] 0 = .ok ([0], 1) ∧
    (List.replicate 21 0 ++ [4]).getD 21 0 = 4 ∧
    field_at fs_fives 21 = ⟨3, 0, 63⟩ ∧
    fs_fives.get_raw [0] 21 = 0 ∧
    (∀ fs : field_set, fs.get_raw [0] 21 ≠ 4) ∧
    fs_unit_disc._fields = layout_fields ceil_log2 fs_unit_disc._term fs_unit_disc._disc ∧
    fs_unit_disc.packed_width = 2 ∧
    fs_unit_disc.pack ceil_log2 [5, 7, 0] [0, 0] 0 = .ok ([5 + 7 * 2 ^ 32, 0], 1) := by
  refine ⟨by decide, by decide, by decide, by decide, by rfl, by decide, by decide, by decide,
    ?_, by decide, by decide, by rfl⟩
  intro fs
  rw [get_raw_zero_words]
  decide

/-! ### Bit cursors -/

open bit_iterator_base

theorem integer_log2_two_pow : ∀ k, k < 64 → integer_log2 (2 ^ k) = k := by
  decide

theorem reset_undefined : bit_iterator_base.reset = .error .undefined := by
  rfl

theorem packed_t_of_int_ne_top (v : Int) (h1 : -(2 ^ 31) ≤ v) (h2 : v < 2 ^ 31) :
    packed_t_of_int v ≠ 2 ^ 63 := by
  unfold packed_t_of_int
  intro h
  have h3 : v % 2 ^ 64 = 2 ^ 63 := by
    have := Int.toNat_of_nonneg (Int.emod_nonneg v (by norm_num : (2 ^ 64 : Int) ≠ 0))
    rw [h] at this
    rw [← this]
    norm_num
  omega

theorem inc_single_bit (it : Int) (k : Nat) (hk : k < 64) :
    inc ⟨it, 2 ^ k⟩ = if k = 63 then ⟨it + 1, 1⟩ else ⟨it, 2 ^ (k + 1)⟩ := by
  unfold inc
  simp only [Nat.shiftLeft_eq]
  by_cases h : k = 63
  · subst h
    rw [if_pos rfl]
    rfl
  · rw [if_neg h]
    have h1 : 2 ^ k * 2 ^ 1 = 2 ^ (k + 1) := by ring
    have h2 : 2 ^ (k + 1) < 2 ^ 64 := Nat.pow_lt_pow_right (by decide) (by omega)
    rw [h1, Nat.mod_eq_of_lt h2]
    have h3 : 2 ^ (k + 1) ≠ 0 := by positivity
    rw [if_neg h3]

theorem dec_single_bit (it : Int) (k : Nat) :
    dec ⟨it, 2 ^ k⟩ = if k = 0 then .error .undefined else .ok ⟨it, 2 ^ (k - 1)⟩ := by
  unfold dec
  simp only [Nat.shiftRight_eq_div_pow, pow_one]
  by_cases h : k = 0
  · subst h
    rw [if_pos rfl]
    rfl
  · rw [if_neg h]
    obtain ⟨j, rfl⟩ : ∃ j, k = j + 1 := ⟨k - 1, by omega⟩
    have h1 : 2 ^ (j + 1) / 2 = 2 ^ j := by rw [pow_succ]; simp
    rw [h1, Nat.add_sub_cancel]
    have h3 : 2 ^ j ≠ 0 := by positivity
    rw [if_neg h3]

theorem inc_n_single_bit : ∀ (r : Nat) (it : Int) (k : Nat), k < 64 →
    inc_n r ⟨it, 2 ^ k⟩ = ⟨it + ((k + r) / 64 : Nat), 2 ^ ((k + r) % 64)⟩ := by
  intro r
  induction r with
  | zero =>
    intro it k hk
    have h1 : (k + 0) / 64 = 0 := by omega
    have h2 : (k + 0) % 64 = k := by omega
    rw [inc_n, h1, h2]
    simp
  | succ r ih =>
    intro it k hk
    rw [inc_n, inc_single_bit it k hk]
    by_cases h : k = 63
    · subst h
      rw [if_pos rfl]
      have := ih (it + 1) 0 (by decide)
      rw [pow_zero] at this
      rw [this]
      have h1 : (63 + (r + 1)) / 64 = (0 + r) / 64 + 1 := by omega
      have h2 : (63 + (r + 1)) % 64 = (0 + r) % 64 := by omega
      rw [h1, h2]
      congr 1
      push_cast
      ring
    · rw [if_neg h, ih it (k + 1) (by omega)]
      have h1 : k + 1 + r = k + (r + 1) := by omega
      rw [h1]

theorem add_single_bit (it : Int) (k n : Nat) (hk : k < 64) :
    add ⟨it, 2 ^ k⟩ n =
      .ok ⟨it + (n / 64 : Nat) + ((k + n % 64) / 64 : Nat), 2 ^ ((k + n % 64) % 64)⟩ := by
  unfold add
  have h0 : ¬ ((n : Int) < 0) := by omega
  rw [if_neg h0]
  simp only [bits_per_packed_t, Int.toNat_ofNat]
  have h1 : ((n : Int) / ((64 : Nat) : Int)) = ((n / 64 : Nat) : Int) := by
    simp
  rw [h1, inc_n_single_bit _ _ k hk]

theorem distance_single_bit (it1 it2 : Int) (k1 k2 : Nat) (h1 : k1 < 64) (h2 : k2 < 64) :
    distance ⟨it1, 2 ^ k1⟩ ⟨it2, 2 ^ k2⟩ = 64 * (it1 - it2) + k1 - k2 := by
  unfold distance
  simp only [integer_log2_two_pow k1 h1, integer_log2_two_pow k2 h2, bits_per_packed_t]
  norm_num

theorem lt_single_bit (it1 it2 : Int) (k1 k2 : Nat) (h1 : k1 < 64) (h2 : k2 < 64) :
    (lt ⟨it1, 2 ^ k1⟩ ⟨it2, 2 ^ k2⟩ = true) ↔ (it1 < it2 ∨ k1 < k2) := by
  unfold lt
  simp only [integer_log2_two_pow k1 h1, integer_log2_two_pow k2 h2]
  by_cases h : it1 < it2
  · simp [h]
  · simp [h]

theorem eq_single_bit (it1 it2 : Int) (k1 k2 : Nat) :
    (eq ⟨it1, 2 ^ k1⟩ ⟨it2, 2 ^ k2⟩ = true) ↔ (it1 = it2 ∧ k1 = k2) := by
  unfold eq
  simp only [decide_eq_true_eq]
  constructor
  · rintro ⟨a, b⟩
    exact ⟨a, Nat.pow_right_injective (le_refl 2) b⟩
  · rintro ⟨a, b⟩
    exact ⟨a, by rw [b]⟩

theorem single_bit_cases (c : bit_iterator_base) (h : single_bit c) :
    ∃ it k, k < 64 ∧ c = ⟨it, 2 ^ k⟩ := by
  obtain ⟨k, hk, hm⟩ := h
  refine ⟨c._it, k, hk, ?_⟩
  cases c
  simp only at hm
  rw [hm]

theorem bit_position_single_bit (it : Int) (k : Nat) (hk : k < 64) :
    bit_position ⟨it, 2 ^ k⟩ = 64 * it + k := by
  unfold bit_position
  simp only [integer_log2_two_pow k hk, bits_per_packed_t]
  norm_num

/-! ### The disc zone and `multy` -/

theorem raw_to_disc_idx_eq (fs : field_set) (raw_idx : Nat) :
    fs.raw_to_disc_idx raw_idx =
      if fs.begin_disc_raw_idx ≤ raw_idx ∧ raw_idx < fs.end_disc_raw_idx
      then .ok (raw_idx - fs.begin_disc_raw_idx) else .error .assertion := by
  unfold field_set.raw_to_disc_idx
  simp only [ge_iff_le]

theorem multy_outside_disc_zone (fs : field_set) (raw_idx : Nat) (words : packed_vec)
    (h : ¬ (fs.begin_disc_raw_idx ≤ raw_idx ∧ raw_idx < fs.end_disc_raw_idx)) :
    (const_disc_iterator.mk fs raw_idx words).multy = .error .assertion := by
  unfold const_disc_iterator.multy
  simp only [raw_to_disc_idx_eq, if_neg h]

theorem multy_inside_disc_zone (fs : field_set) (T k i m : Nat) (ms : List Nat)
    (words : packed_vec) (hz : has_zones fs T ms k) (hm : ms.get? i = some m) :
    fs.disc_and_bit.get? i = some ⟨m⟩ ∧
      (const_disc_iterator.mk fs (T + i) words).multy = .ok m := by
  obtain ⟨tail, htail⟩ := hz.disc
  have hi : i < ms.length := by
    have := List.get?_eq_some.1 hm
    exact this.1
  have hget : fs._disc.get? i = some ⟨m⟩ := by
    rw [htail]
    simp only [List.get?_eq_getElem?] at hm ⊢
    rw [List.getElem?_append_left (by rw [List.length_map]; exact hi), List.getElem?_map, hm]
    rfl
  refine ⟨hget, ?_⟩
  unfold const_disc_iterator.multy
  have hc : fs.begin_disc_raw_idx ≤ T + i ∧ T + i < fs.end_disc_raw_idx := by
    rw [hz.begin_disc, hz.end_disc]
    omega
  simp only
  rw [raw_to_disc_idx_eq, if_pos hc]
  simp only [hz.begin_disc, Nat.add_sub_cancel_left, field_set.disc_and_bit, hget]

/-! ### Layouts of continuous knobs only -/

theorem count_neighborhood_size_contin_only (fuel : Nat) (contin : List contin_spec)
    (inst : Instance) (d max_count : Nat) (hd : 0 < d) :
    count_neighborhood_size (fuel + 1) (field_set.of_tables [] [] contin [] 0) inst d
      max_count = shl_size_t 0 (to_size_t (contin.length * d)) := by
  have h0 : ¬ d = 0 := by omega
  have e1 : (field_set.of_tables [] [] contin [] 0).end_term_raw_idx = 0 := rfl
  have e2 : (field_set.of_tables [] [] contin [] 0).end_disc_raw_idx = 0 := rfl
  have e3 : (field_set.of_tables [] [] contin [] 0).end_bit_raw_idx = 0 := rfl
  have e4 : (field_set.of_tables [] [] contin [] 0).n_contin_fields = contin.length := rfl
  have e5 : exceeds_log2_budget (to_size_t (contin.length * d)) max_count 0 = false := by
    unfold exceeds_log2_budget
    have : round_to_double 0 = 0 := by decide
    simp only [this, if_true]
  by_cases hl : to_size_t (contin.length * d) > 0
  · simp [count_neighborhood_size, count_neighborhood_size_from_index, h0, e1, e2, e3, e4,
      count_contin_neighborhood, hl, e5]
  · have hz : to_size_t (contin.length * d) = 0 := by omega
    have hs : shl_size_t 0 0 = .ok 0 := rfl
    simp [count_neighborhood_size, count_neighborhood_size_from_index, h0, e1, e2, e3, e4,
      count_contin_neighborhood, hz, hs]

theorem resize_write_range_size (deme : instance_set) (w : slot_writer) :
    (deme.resize deme.size).write_range deme.size w = deme := by
  cases deme with
  | mk fs insts =>
    simp [instance_set.resize, instance_set.write_range, instance_set.size]

theorem sample_new_instances_no_total_zero (fuel : Nat) (ext : neighborhood_routines)
    (req : Nat) (center : Instance) (deme : instance_set) (d : Nat)
    (ht : count_neighborhood_size fuel deme.fields center d req = .ok 0)
    (hsize : deme.size < 2 ^ 64) :
    sample_new_instances_no_total fuel ext req deme.size center deme d = (deme, .ok 0) := by
  unfold sample_new_instances_no_total sample_new_instances_no_markers sample_new_instances
  rw [ht]
  have h1 : (if to_size_t (2 * req) > 0 then (Except.ok 0 : Except fault Nat) else .ok 0)
      = .ok 0 := by split_ifs <;> rfl
  simp only [h1, Nat.not_lt_zero, if_false, Nat.add_zero]
  rw [to_size_t_of_lt _ hsize, size_resize, if_pos (Nat.le_refl _), resize_write_range_size]

/-! ### Hamming distance after a merge -/

/-- C31 (amended): for every layout and raw index, `raw_to_disc_idx(raw_idx)`
raises its assertion exactly when `raw_idx` lies outside
`[begin_disc_raw_idx, end_disc_raw_idx)`, and otherwise returns
`raw_idx - begin_disc_raw_idx`.  On a layout of `T` term fields, disc fields of
multiplicities `ms` and `k` boolean fields, the index returned for the `i`-th
disc field is that of its spec in `disc_and_bit()`, and `multy()` of a disc
cursor on that field returns its multiplicity; on a boolean raw field, as on
every raw index from `end_disc_raw_idx` on, `multy()` raises the assertion. -/
theorem raw_to_disc_idx_cases (fs : field_set) (words : packed_vec) (T k : Nat) (ms : List Nat)
    (hz : has_zones fs T ms k) :
    (∀ raw_idx,
      (fs.raw_to_disc_idx raw_idx = .error .assertion ↔
        ¬ (fs.begin_disc_raw_idx ≤ raw_idx ∧ raw_idx < fs.end_disc_raw_idx)) ∧
      (fs.begin_disc_raw_idx ≤ raw_idx ∧ raw_idx < fs.end_disc_raw_idx →
        fs.raw_to_disc_idx raw_idx = .ok (raw_idx - fs.begin_disc_raw_idx))) ∧
    (∀ i m, ms.get? i = some m →
      fs.raw_to_disc_idx (T + i) = .ok i ∧ fs.disc_and_bit.get? i = some ⟨m⟩ ∧
        (const_disc_iterator.mk fs (T + i) words).multy = .ok m) ∧
    (∀ raw_idx, T + ms.length ≤ raw_idx →
      fs.raw_to_disc_idx raw_idx = .error .assertion ∧
        (const_disc_iterator.mk fs raw_idx words).multy = .error .assertion) := by
  refine ⟨?_, ?_, ?_⟩
  · intro raw_idx
    rw [raw_to_disc_idx_eq]
    by_cases h : fs.begin_disc_raw_idx ≤ raw_idx ∧ raw_idx < fs.end_disc_raw_idx
    · rw [if_pos h]
      exact ⟨⟨fun h1 => (by cases h1), fun h1 => absurd h h1⟩, fun _ => rfl⟩
    · rw [if_neg h]
      exact ⟨⟨fun _ => h, fun _ => rfl⟩, fun h1 => absurd h1 h⟩
  · intro i m hm
    have hi : i < ms.length := (List.get?_eq_some.1 hm).1
    have hc : fs.begin_disc_raw_idx ≤ T + i ∧ T + i < fs.end_disc_raw_idx := by
      rw [hz.begin_disc, hz.end_disc]
      omega
    refine ⟨?_, multy_inside_disc_zone fs T k i m ms words hz hm⟩
    rw [raw_to_disc_idx_eq, if_pos hc, hz.begin_disc, Nat.add_sub_cancel_left]
  · intro raw_idx h
    have hc : ¬ (fs.begin_disc_raw_idx ≤ raw_idx ∧ raw_idx < fs.end_disc_raw_idx) := by
      rw [hz.end_disc]
      omega
    exact ⟨by rw [raw_to_disc_idx_eq, if_neg hc], multy_outside_disc_zone fs raw_idx words hc⟩

/-- C31 (witness): in `fs_full` (two term fields, one four-valued disc, three
boolean fields) raw index 2 maps to spec 0 and `multy()` there is 4. -/
theorem raw_to_disc_idx_cases_full :
    fs_full.raw_to_disc_idx 2 = .ok 0 ∧ fs_full.disc_and_bit.get? 0 = some ⟨4⟩ ∧
      (const_disc_iterator.mk fs_full 2 [0, 22]).multy = .ok 4 :=
  (raw_to_disc_idx_cases fs_full [0, 22] 2 3 [4]
    (has_zones_of_tables
      [⟨2, 0, 0⟩, ⟨2, 0, 2⟩, ⟨2, 1, 0⟩, ⟨1, 1, 2⟩, ⟨1, 1, 3⟩, ⟨1, 1, 4⟩]
      [⟨0, 2, 4⟩] [⟨1, 1, []⟩] [4] 3 [⟨2⟩, ⟨2⟩, ⟨2⟩] (by decide) (by decide))).2.1 0 4 rfl

/-- C31 (counterexample): raw index 3 of `fs_full` is its first boolean field
(one bit wide, inside `[begin_bit_raw_idx, end_bit_raw_idx)`), and the spec
that corresponds to it in `disc_and_bit()`, at index `3 - begin_disc_raw_idx`,
is the boolean spec of multiplicity 2.  Yet `raw_to_disc_idx(3)` raises the
assertion, and so does `multy()` of a disc cursor on that field. -/
theorem raw_to_disc_idx_boolean_asserts :
    fs_full.begin_bit_raw_idx ≤ 3 ∧ 3 < fs_full.end_bit_raw_idx ∧
      (field_at fs_full 3).width = 1 ∧
      fs_full.disc_and_bit.get? (3 - fs_full.begin_disc_raw_idx) = some ⟨2⟩ ∧
      fs_full.raw_to_disc_idx 3 = .error .assertion ∧
      (const_disc_iterator.mk fs_full 3 [0, 22]).multy = .error .assertion :=
  ⟨by decide, by decide, by decide, by decide, rfl, rfl⟩

/-- C32 (failing input): the cursor `a` on bit 0 of word 1 and the cursor `b`
on bit 1 of word 0, both with a single-bit mask.  `a` addresses bit 64 and `b`
bit 1, and `b - a` is -63, yet `a < b` holds: the word indices are not in
order, and the comparison falls through to the bit indices, 0 < 1.  `b < a`
holds as well, so the ordering is not a strict order.  In general `a < b`
holds exactly if `a` is in an earlier word or on a lower bit index; it agrees
with the sign of `b - a` when `a` is not in a later word than `b`.  Operators
`-` and `==` do agree with the bit positions. -/
theorem bit_iterator_lt_later_word :
    single_bit ⟨1, 1⟩ ∧ single_bit ⟨0, 2⟩ ∧
    bit_position ⟨1, 1⟩ = 64 ∧ bit_position ⟨0, 2⟩ = 1 ∧
    (bit_iterator_base.mk 1 1).lt ⟨0, 2⟩ = true ∧
    (bit_iterator_base.mk 0 2).distance ⟨1, 1⟩ = -63 ∧
    (bit_iterator_base.mk 0 2).lt ⟨1, 1⟩ = true ∧
    (∀ a b : bit_iterator_base, single_bit a → single_bit b →
      (a.lt b = true ↔
        (a._it < b._it ∨ integer_log2 a._mask < integer_log2 b._mask))) ∧
    (∀ a b : bit_iterator_base, single_bit a → single_bit b → a._it ≤ b._it →
      (a.lt b = true ↔ 0 < b.distance a)) ∧
    (∀ a b : bit_iterator_base, single_bit a → single_bit b →
      (0 < b.distance a ↔ bit_position a < bit_position b) ∧
      (a.eq b = true ↔ b.distance a = 0)) := by
  refine ⟨by decide, by decide, by decide, by decide, by decide, by decide, by decide,
    ?_, ?_, ?_⟩
  · intro a b ha hb
    obtain ⟨i1, k1, h1, rfl⟩ := single_bit_cases a ha
    obtain ⟨i2, k2, h2, rfl⟩ := single_bit_cases b hb
    rw [lt_single_bit i1 i2 k1 k2 h1 h2, integer_log2_two_pow k1 h1, integer_log2_two_pow k2 h2]
  · intro a b ha hb hle
    obtain ⟨i1, k1, h1, rfl⟩ := single_bit_cases a ha
    obtain ⟨i2, k2, h2, rfl⟩ := single_bit_cases b hb
    rw [lt_single_bit i1 i2 k1 k2 h1 h2, distance_single_bit i2 i1 k2 k1 h2 h1]
    simp only at hle
    omega
  · intro a b ha hb
    obtain ⟨i1, k1, h1, rfl⟩ := single_bit_cases a ha
    obtain ⟨i2, k2, h2, rfl⟩ := single_bit_cases b hb
    rw [eq_single_bit, distance_single_bit i2 i1 k2 k1 h2 h1, bit_position_single_bit i1 k1 h1,
      bit_position_single_bit i2 k2 h2]
    constructor
    · omega
    · omega

/-- C33 (failing input): the cursor on the top bit of word 0, and the cursor on
bit 0 of word 1, both with a single-bit mask.  Incrementing the first gives the
second; decrementing the second has to restart the mask at `reset`, which the
code computes as `1 << 63` on an `int`: the shift is undefined, and no `int`
converts to the mask `2 ^ 63`.  So neither increment-then-decrement from the
top bit nor decrement-then-increment from bit 0 yields the original cursor.
Away from the word boundary both round trips do, and advancing a cursor by any
`n ≥ 0` gives a single-bit cursor at distance `n`. -/
theorem bit_iterator_dec_word_boundary :
    single_bit ⟨0, 2 ^ 63⟩ ∧ inc ⟨0, 2 ^ 63⟩ = ⟨1, 1⟩ ∧
    dec (inc ⟨0, 2 ^ 63⟩) = .error .undefined ∧
    single_bit ⟨1, 1⟩ ∧ dec ⟨1, 1⟩ = .error .undefined ∧
    bit_iterator_base.reset = .error .undefined ∧
    (∀ v : Int, -(2 ^ 31) ≤ v → v < 2 ^ 31 → packed_t_of_int v ≠ 2 ^ 63) ∧
    (∀ c : bit_iterator_base, single_bit c → c._mask ≠ 2 ^ 63 → dec (inc c) = .ok c) ∧
    (∀ c : bit_iterator_base, single_bit c → c._mask ≠ 1 →
      ∃ c1, dec c = .ok c1 ∧ inc c1 = c) ∧
    (∀ (c : bit_iterator_base) (n : Nat), single_bit c →
      ∃ c1, c.add n = .ok c1 ∧ single_bit c1 ∧ c1.distance c = n) := by
  refine ⟨by decide, by decide, by rfl, by decide, by rfl, by rfl, packed_t_of_int_ne_top,
    ?_, ?_, ?_⟩
  · intro c hc hm
    obtain ⟨it, k, hk, rfl⟩ := single_bit_cases c hc
    have h63 : k ≠ 63 := by
      intro h
      exact hm (by rw [h])
    rw [inc_single_bit it k hk, if_neg h63, dec_single_bit, if_neg (by omega),
      Nat.add_sub_cancel]
  · intro c hc hm
    obtain ⟨it, k, hk, rfl⟩ := single_bit_cases c hc
    have h0 : k ≠ 0 := by
      intro h
      exact hm (by rw [h]; rfl)
    refine ⟨⟨it, 2 ^ (k - 1)⟩, ?_, ?_⟩
    · rw [dec_single_bit, if_neg h0]
    · rw [inc_single_bit it (k - 1) (by omega), if_neg (by omega)]
      have : k - 1 + 1 = k := by omega
      rw [this]
  · intro c n hc
    obtain ⟨it, k, hk, rfl⟩ := single_bit_cases c hc
    refine ⟨_, add_single_bit it k n hk, ⟨(k + n % 64) % 64, Nat.mod_lt _ (by decide), rfl⟩, ?_⟩
    rw [distance_single_bit _ _ _ _ (Nat.mod_lt _ (by decide)) hk]
    omega

/-- C34: for every layout without raw fields (no term, disc or boolean field),
whatever its continuous knobs, every distance `d ≥ 1` and every budget,
`count_neighborhood_size` returns 0: the disc and bit count is 0, the budget
test on `log2 0` lets it through and `0 << length_bits` is 0.  So
`sample_new_instances` (the overload that computes the total itself), called
with the deme's size, returns 0 and leaves the deme as it was, for any
requested count. -/
theorem count_neighborhood_size_contin_only_zero (fuel : Nat) (contin : List contin_spec)
    (d : Nat) (hd : 1 ≤ d) :
    (∀ (inst : Instance) (max_count : Nat),
      count_neighborhood_size (fuel + 1) (field_set.of_tables [] [] contin [] 0) inst d
        max_count = .ok 0) ∧
    (∀ (ext : neighborhood_routines) (req : Nat) (center : Instance) (insts : List Instance),
      insts.length < 2 ^ 64 →
        sample_new_instances_no_total (fuel + 1) ext req insts.length center
          ⟨field_set.of_tables [] [] contin [] 0, insts⟩ d
            = (⟨field_set.of_tables [] [] contin [] 0, insts⟩, .ok 0)) := by
  have hok : ∀ (inst : Instance) (max_count : Nat),
      count_neighborhood_size (fuel + 1) (field_set.of_tables [] [] contin [] 0) inst d
        max_count = .ok 0 := by
    intro inst max_count
    rw [count_neighborhood_size_contin_only fuel contin inst d max_count hd]
    unfold shl_size_t
    split_ifs with h1 h2
    · simp [to_size_t]
    · rfl
    · exact absurd rfl h2
  refine ⟨hok, ?_⟩
  intro ext req center insts hsize
  exact sample_new_instances_no_total_zero (fuel + 1) ext req center
    ⟨field_set.of_tables [] [] contin [] 0, insts⟩ d (hok center req) hsize

/-- C34 (witness): 64 continuous knobs and no raw field, at distance 1 with
budget 100: the shift count is the full width of `size_t`, the shifted value is
0, and the count is 0. -/
theorem count_neighborhood_size_contin_only_knobs :
    (∀ (inst : Instance) (max_count : Nat),
      count_neighborhood_size (0 + 1)
        (field_set.of_tables [] [] (List.replicate 64 ⟨1, 1, []⟩) [] 0) inst 1 max_count
          = .ok 0) ∧
    (∀ (ext : neighborhood_routines) (req : Nat) (center : Instance) (insts : List Instance),
      insts.length < 2 ^ 64 →
        sample_new_instances_no_total (0 + 1) ext req insts.length center
          ⟨field_set.of_tables [] [] (List.replicate 64 ⟨1, 1, []⟩) [] 0, insts⟩ 1
            = (⟨field_set.of_tables [] [] (List.replicate 64 ⟨1, 1, []⟩) [] 0, insts⟩,
              .ok 0)) :=
  count_neighborhood_size_contin_only_zero 0 (List.replicate 64 ⟨1, 1, []⟩) 1 (by decide)

/-- The term branch of the counting recursion: a call at an index `s` inside
the term zone is the call at `s + end_term_raw_idx` (as an `unsigned`) one
frame further down, and on a layout of fewer than 2 ^ 32 raw fields both calls
return, with the same outcome.  At `s = 0` that index is
`begin_disc_raw_idx`; at `s ≥ 1` it lies `s` fields beyond it. -/
theorem count_from_index_term_zone_jump (fields : List field) (term : List term_spec)
    (contin : List contin_spec) (disc : List disc_spec) (nbool : Nat) (inst : Instance)
    (d s max_count : Nat) (hs : s < (term.map term_spec.depth).sum) :
    (∀ fuel, count_neighborhood_size_from_index (fuel + 1)
          (field_set.of_tables fields term contin disc nbool) inst d s max_count =
        if d = 0 then .ok 1
        else count_neighborhood_size_from_index fuel
          (field_set.of_tables fields term contin disc nbool) inst d
          (to_unsigned (s + (field_set.of_tables fields term contin disc nbool).end_term_raw_idx))
          max_count) ∧
    ((term.map term_spec.depth).sum ≤ fields.length → fields.length < 2 ^ 32 →
      ∀ fuel, 2 * fields.length + 3 ≤ fuel →
        count_neighborhood_size_from_index fuel
            (field_set.of_tables fields term contin disc nbool) inst d s max_count
          ≠ .error .out_of_fuel ∧
        count_neighborhood_size_from_index fuel
            (field_set.of_tables fields term contin disc nbool) inst d s max_count =
          count_neighborhood_size_from_index fuel
            (field_set.of_tables fields term contin disc nbool) inst d
            (to_unsigned
              (s + (field_set.of_tables fields term contin disc nbool).end_term_raw_idx))
            max_count) ∧
    (s = 0 → s + (field_set.of_tables fields term contin disc nbool).end_term_raw_idx =
      (field_set.of_tables fields term contin disc nbool).begin_disc_raw_idx) := by
  obtain ⟨a1, a2, a3, _, _⟩ := of_tables_zones fields term contin disc nbool
  have hstep : ∀ fuel, count_neighborhood_size_from_index (fuel + 1)
        (field_set.of_tables fields term contin disc nbool) inst d s max_count =
      if d = 0 then .ok 1
      else count_neighborhood_size_from_index fuel
        (field_set.of_tables fields term contin disc nbool) inst d
        (to_unsigned (s + (field_set.of_tables fields term contin disc nbool).end_term_raw_idx))
        max_count := by
    intro fuel
    rw [count_neighborhood_size_from_index]
    by_cases hd : d = 0
    · rw [if_pos hd, if_pos hd]
    · have c : (field_set.of_tables fields term contin disc nbool).begin_term_raw_idx ≤ s ∧
          s < (field_set.of_tables fields term contin disc nbool).end_term_raw_idx :=
        ⟨Nat.zero_le _, by rw [a1]; exact hs⟩
      rw [if_neg hd, if_neg hd, if_pos c]
  refine ⟨hstep, ?_, ?_⟩
  · intro hterm hsmall fuel hfuel
    obtain ⟨f, rfl⟩ : ∃ f, fuel = f + 1 := ⟨fuel - 1, by omega⟩
    have hret : ∀ s, count_neighborhood_size_from_index f
        (field_set.of_tables fields term contin disc nbool) inst d s max_count
          ≠ .error .out_of_fuel := fun s =>
      count_from_index_returns (field_set.of_tables fields term contin disc nbool)
        inst max_count (by rw [a1]; omega) (by rw [a3]; omega) f d s
        (by
          unfold frames_ahead
          rw [a1, a3]
          split_ifs <;> omega)
    have hup : ∀ s, count_neighborhood_size_from_index (f + 1)
        (field_set.of_tables fields term contin disc nbool) inst d s max_count =
        count_neighborhood_size_from_index f
          (field_set.of_tables fields term contin disc nbool) inst d s max_count := fun s =>
      count_from_index_fuel_le _ inst max_count d s f (f + 1) (Nat.le_succ f) (hret s)
    refine ⟨?_, ?_⟩
    · rw [hup]; exact hret s
    · by_cases hd : d = 0
      · subst hd
        rw [count_neighborhood_size_from_index, count_neighborhood_size_from_index]
        simp
      · rw [hstep f, if_neg hd, hup]
  · intro h0
    rw [h0, Nat.zero_add, a1, a2]

/-- C35 (failing input): `fs_full` has two term raw fields (indices 0 and 1),
so `begin_disc_raw_idx = 2`, then a four-valued disc and three boolean
fields.  At distance 1 the count started at index 1, inside the term zone, is
3, while the count started at `begin_disc_raw_idx` is 6: the term branch goes
on at `starting_index + end_term_raw_idx = 3` and passes over the disc field
at index 2.  With any fuel the two calls differ, unless the first runs out of
fuel. -/
theorem count_from_index_term_zone_skips_disc :
    2 ≤ fs_full.end_term_raw_idx ∧ 1 < fs_full.end_term_raw_idx ∧
      fs_full.begin_disc_raw_idx = 2 ∧
      count_neighborhood_size_from_index 15 fs_full ⟨[0, 22], [0]⟩ 1 1 100 = .ok 3 ∧
      count_neighborhood_size_from_index 15 fs_full ⟨[0, 22], [0]⟩ 1
        fs_full.begin_disc_raw_idx 100 = .ok 6 ∧
      (∀ fuel, count_neighborhood_size_from_index fuel fs_full ⟨[0, 22], [0]⟩ 1 1 100 ≠
        count_neighborhood_size_from_index fuel fs_full ⟨[0, 22], [0]⟩ 1
          fs_full.begin_disc_raw_idx 100 ∨
        count_neighborhood_size_from_index fuel fs_full ⟨[0, 22], [0]⟩ 1 1 100
          = .error .out_of_fuel) := by
  refine ⟨by decide, by decide, rfl, rfl, rfl, ?_⟩
  intro fuel
  by_cases hf : 15 ≤ fuel
  · left
    have h1 : count_neighborhood_size_from_index 15 fs_full ⟨[0, 22], [0]⟩ 1 1 100
        = .ok 3 := rfl
    have h2 : count_neighborhood_size_from_index 15 fs_full ⟨[0, 22], [0]⟩ 1
        fs_full.begin_disc_raw_idx 100 = .ok 6 := rfl
    rw [count_from_index_fuel_le fs_full ⟨[0, 22], [0]⟩ 100 1 1 15 fuel hf
        (by rw [h1]; exact fun h => by cases h),
      count_from_index_fuel_le fs_full ⟨[0, 22], [0]⟩ 100 1 fs_full.begin_disc_raw_idx 15 fuel hf
        (by rw [h2]; exact fun h => by cases h), h1, h2]
    intro h
    cases h
  · have : fuel < 15 := by omega
    interval_cases fuel <;> first | (right; rfl) | (left; intro h; cases h)

end moses
